import Mathlib

/-!
# The proton-c I/O driver (`proton-c/src/driver.c`)

A shallow embedding of the driver: listeners and connectors live in two heaps
indexed by address, a C pointer is an `Option ptr` (`none` is NULL), every
function of `driver.c` is a Lean function on that state, and the calls that
leave the file (socket, transport, poller, TLS layer) take their results from
an explicit record of answers.  A function returns `none` when the C code
would dereference a dangling pointer or when a loop runs out of fuel.  Buffer
sizes are `size_t` values: their arithmetic goes through `to_size_t`.
-/

namespace Proton

/-! ## Data model -/

/-- Address of a heap object. -/
abbrev ptr := Nat

/-- Targets of the `read` function pointer of a connector. -/
inductive read_fn where
  | pn_connector_read
  | other
  deriving DecidableEq

/-- Targets of the `write` function pointer of a connector. -/
inductive write_fn where
  | pn_connector_write
  | other
  deriving DecidableEq

/-- Targets of the `tick` function pointer of a connector. -/
inductive tick_fn where
  | pn_connector_tick
  | other
  deriving DecidableEq

/-- Targets of the `io_handler` function pointer of a connector. -/
inductive io_handler_fn where
  | pn_io_handler
  | pn_null_io_handler
  | other
  deriving DecidableEq

/-- Modelled from the spec: the listener record of `driver-internal.h` (a listening
socket, the back-pointer to the driver, sibling pointers, the `pending` flag and the
user context).  `driver` is `true` when the back-pointer is set and `false` when NULL. -/
structure pn_listener_t where
  driver : Bool
  listener_next : Option ptr
  listener_prev : Option ptr
  pending : Bool
  fd : Int
  context : Option ptr

/-- Modelled from the spec: the connector record of `driver-internal.h`.  The buffers
`input` and `output` map an offset to the byte stored there; `driver` is `true` when
the back-pointer is set and `false` when NULL. -/
structure pn_connector_t where
  driver : Bool
  connector_next : Option ptr
  connector_prev : Option ptr
  name : String
  fd : Int
  pending_tick : Bool
  pending_read : Bool
  pending_write : Bool
  status : Nat
  trace : Nat
  closed : Bool
  wakeup : Int
  read : read_fn
  write : write_fn
  tick : tick_fn
  io_handler : io_handler_fn
  input : Nat → Nat
  input_size : Nat
  input_eos : Bool
  output : Nat → Nat
  output_size : Nat
  connection : Option ptr
  transport : Option ptr
  sasl : Option ptr
  input_done : Bool
  output_done : Bool
  context : Option ptr
  listener : Option ptr

/-- Modelled from the spec: the driver record of `driver-internal.h`, together with the
two heaps holding its listeners and connectors.  The three counters are kept as
unbounded integers. -/
structure pn_driver_t where
  listener_head : Option ptr
  listener_tail : Option ptr
  listener_next : Option ptr
  connector_head : Option ptr
  connector_tail : Option ptr
  connector_next : Option ptr
  listener_count : Int
  connector_count : Int
  closed_count : Int
  ctrl : Int × Int
  trace : Nat
  listeners : ptr → Option pn_listener_t
  connectors : ptr → Option pn_connector_t

/-- Answers of the calls that leave `driver.c` during one pass over a connector:
`recv len` and `send len` are the socket results for a request of `len` bytes,
`pn_input size` and `pn_output available` the transport results, the `_data` fields
the bytes such a call stores, and the `other_` fields the behaviour of function
pointers that do not target a function of `driver.c`. -/
structure io_calls where
  recv : Nat → Int
  recv_data : Nat → Nat
  pn_input : Nat → Int
  pn_output : Nat → Int
  pn_output_data : Nat → Nat
  send : Nat → Int
  pn_tick : Int → Int
  other_read : pn_connector_t → pn_connector_t
  other_write : pn_connector_t → pn_connector_t
  other_tick : pn_connector_t → Int × pn_connector_t
  other_io_handler : pn_connector_t → Int × pn_connector_t

/-- What the poller saw during one `pn_driver_poller_wait`. -/
structure poll_result where
  listener_ready : ptr → Bool
  connector_readable : ptr → Bool
  connector_writable : ptr → Bool
  timer_expired : ptr → Bool

/-- Callbacks that `pn_connector_process` invokes, in the order of invocation. -/
inductive invoked where
  | tick
  | io_handler
  | shutdown_ssl
  deriving DecidableEq

/-- Modelled from the spec: the TLS handle of a transport, as returned by `pn_ssl_server`
(server mode) and by `pn_ssl_client` (client mode) of `ssl/ssl-internal.h`. -/
inductive pn_ssl_t where
  | pn_ssl_server (transport : Option ptr)
  | pn_ssl_client (transport : Option ptr)
  deriving DecidableEq

/-! ## Machine arithmetic and status bits -/

/-- Conversion of an integer to `size_t`. -/
def to_size_t (x : Int) : Nat := (x % 18446744073709551616).toNat

/-- Modelled from the spec: the WANT_READ bit of `status` (`PN_SEL_RD` of `driver.h`). -/
def PN_SEL_RD : Nat := 1

/-- Modelled from the spec: the WANT_WRITE bit of `status` (`PN_SEL_WR` of `driver.h`). -/
def PN_SEL_WR : Nat := 2

/-- The C expression `s & ~m` on a non-negative status word. -/
def bit_clear (s m : Nat) : Nat := s ^^^ (s &&& m)

/-- Bytes `data 0 .. data (n-1)` stored at offsets `off .. off+n-1` of a buffer. -/
def buf_store (buf : Nat → Nat) (off n : Nat) (data : Nat → Nat) : Nat → Nat :=
  fun i => if off ≤ i ∧ i < off + n then data (i - off) else buf i

/-- The call `memmove(buf, buf + n, len)`. -/
def memmove (buf : Nat → Nat) (n len : Nat) : Nat → Nat :=
  fun i => if i < len then buf (i + n) else buf i

/-! ## Connector I/O pipeline -/

/-- `pn_connector_read` (driver.c:402). -/
def pn_connector_read (w : io_calls) (cap : Nat) (ctor : pn_connector_t) : pn_connector_t :=
  let n := w.recv (to_size_t ((cap : Int) - ctor.input_size))
  if n ≤ 0 then
    { ctor with status := bit_clear ctor.status PN_SEL_RD, input_eos := true }
  else
    { ctor with
      input := buf_store ctor.input ctor.input_size n.toNat w.recv_data
      input_size := to_size_t ((ctor.input_size : Int) + n) }

/-- `pn_connector_consume` (driver.c:414).  The parameter `n` is a C `int`; both callers
pass a value between 0 and the buffer size, which the conversion to `int` leaves as it is. -/
def pn_connector_consume (ctor : pn_connector_t) (n : Int) : pn_connector_t :=
  let size := to_size_t ((ctor.input_size : Int) - n)
  { ctor with input_size := size, input := memmove ctor.input n.toNat size }

/-- `pn_connector_process_input` (driver.c:420). -/
def pn_connector_process_input (w : io_calls) (ctor : pn_connector_t) : pn_connector_t :=
  if !ctor.input_done then
    if ctor.input_size > 0 || ctor.input_eos then
      let n := w.pn_input ctor.input_size
      if n ≥ 0 then
        pn_connector_consume ctor n
      else
        { pn_connector_consume ctor ctor.input_size with input_done := true }
    else ctor
  else ctor

/-- `pn_connector_output` (driver.c:436): offset of the free part of the output buffer. -/
def pn_connector_output (ctor : pn_connector_t) : Nat := ctor.output_size

/-- `pn_connector_available` (driver.c:441). -/
def pn_connector_available (cap : Nat) (ctor : pn_connector_t) : Nat :=
  to_size_t ((cap : Int) - ctor.output_size)

/-- `pn_connector_process_output` (driver.c:446). -/
def pn_connector_process_output (w : io_calls) (cap : Nat) (ctor : pn_connector_t) :
    pn_connector_t :=
  let c1 :=
    if !ctor.output_done then
      let n := w.pn_output (pn_connector_available cap ctor)
      if n ≥ 0 then
        { ctor with
          output := buf_store ctor.output (pn_connector_output ctor) n.toNat w.pn_output_data
          output_size := to_size_t ((ctor.output_size : Int) + n) }
      else
        { ctor with output_done := true }
    else ctor
  if c1.output_size ≠ 0 then { c1 with status := c1.status ||| PN_SEL_WR } else c1

/-- `pn_connector_write` (driver.c:463). -/
def pn_connector_write (w : io_calls) (ctor : pn_connector_t) : pn_connector_t :=
  let c1 :=
    if ctor.output_size > 0 then
      let n := w.send ctor.output_size
      if n < 0 then
        { ctor with output_size := 0, output_done := true }
      else
        let size := to_size_t ((ctor.output_size : Int) - n)
        { ctor with output_size := size, output := memmove ctor.output n.toNat size }
    else ctor
  if c1.output_size = 0 then { c1 with status := bit_clear c1.status PN_SEL_WR } else c1

/-- `pn_connector_tick` (driver.c:482): the time returned and the connector afterwards. -/
def pn_connector_tick (w : io_calls) (cap : Nat) (ctor : pn_connector_t) (now : Int) :
    Int × pn_connector_t :=
  if ctor.transport.isNone then (0, ctor)
  else
    let result := w.pn_tick now
    let c1 := pn_connector_process_input w ctor
    let c2 := pn_connector_process_output w cap c1
    (result, c2)

/-- The call `c->read(c)` through the function pointer. -/
def call_read (w : io_calls) (cap : Nat) (c : pn_connector_t) : pn_connector_t :=
  match c.read with
  | .pn_connector_read => pn_connector_read w cap c
  | .other => w.other_read c

/-- The call `c->write(c)` through the function pointer. -/
def call_write (w : io_calls) (c : pn_connector_t) : pn_connector_t :=
  match c.write with
  | .pn_connector_write => pn_connector_write w c
  | .other => w.other_write c

/-- The call `c->tick(c, now)` through the function pointer. -/
def call_tick (w : io_calls) (cap : Nat) (c : pn_connector_t) (now : Int) :
    Int × pn_connector_t :=
  match c.tick with
  | .pn_connector_tick => pn_connector_tick w cap c now
  | .other => w.other_tick c

/-- `pn_io_handler` (driver.c:633), the default I/O handling routine. -/
def pn_io_handler (w : io_calls) (cap : Nat) (c : pn_connector_t) : Int × pn_connector_t :=
  let c1 := if c.pending_read then { call_read w cap c with pending_read := false } else c
  let c2 := pn_connector_process_input w c1
  let c3 := pn_connector_process_output w cap c2
  let c4 := if c3.pending_write then { call_write w c3 with pending_write := false } else c3
  (0, c4)

/-- `pn_null_io_handler` (driver.c:649), the stub handling routine. -/
def pn_null_io_handler (c : pn_connector_t) : Int × pn_connector_t := (0, c)

/-- The call `c->io_handler(c)` through the function pointer. -/
def call_io_handler (w : io_calls) (cap : Nat) (c : pn_connector_t) : Int × pn_connector_t :=
  match c.io_handler with
  | .pn_io_handler => pn_io_handler w cap c
  | .pn_null_io_handler => pn_null_io_handler c
  | .other => w.other_io_handler c

/-! ## Heaps and the intrusive lists -/

/-- Field update of the listener stored at address `a`; other addresses are untouched. -/
def set_listener (h : ptr → Option pn_listener_t) (a : ptr) (f : pn_listener_t → pn_listener_t) :
    ptr → Option pn_listener_t :=
  fun p => if p = a then (h p).map f else h p

/-- Field update of the connector stored at address `a`; other addresses are untouched. -/
def set_connector (h : ptr → Option pn_connector_t) (a : ptr)
    (f : pn_connector_t → pn_connector_t) : ptr → Option pn_connector_t :=
  fun p => if p = a then (h p).map f else h p

/-- Modelled from the spec: the macro `LL_ADD(d, listener, l)` of `util.h`, which links
the node at the tail of the doubly linked listener list (insertion order). -/
def LL_ADD_listener (d : pn_driver_t) (a : ptr) : pn_driver_t :=
  let h1 := set_listener d.listeners a
    (fun l => { l with listener_next := none, listener_prev := d.listener_tail })
  let h2 := match d.listener_tail with
    | some t => set_listener h1 t (fun l => { l with listener_next := some a })
    | none => h1
  { d with
    listeners := h2
    listener_tail := some a
    listener_head := if d.listener_head.isNone then some a else d.listener_head }

/-- Modelled from the spec: the macro `LL_REMOVE(d, listener, l)` of `util.h`, which
unlinks the node from the doubly linked listener list. -/
def LL_REMOVE_listener (d : pn_driver_t) (a : ptr) (l : pn_listener_t) : pn_driver_t :=
  let h1 := match l.listener_prev with
    | some q => set_listener d.listeners q (fun x => { x with listener_next := l.listener_next })
    | none => d.listeners
  let h2 := match l.listener_next with
    | some q => set_listener h1 q (fun x => { x with listener_prev := l.listener_prev })
    | none => h1
  { d with
    listeners := h2
    listener_head := if d.listener_head = some a then l.listener_next else d.listener_head
    listener_tail := if d.listener_tail = some a then l.listener_prev else d.listener_tail }

/-- Modelled from the spec: the macro `LL_ADD(d, connector, c)` of `util.h`, which links
the node at the tail of the doubly linked connector list (insertion order). -/
def LL_ADD_connector (d : pn_driver_t) (a : ptr) : pn_driver_t :=
  let h1 := set_connector d.connectors a
    (fun c => { c with connector_next := none, connector_prev := d.connector_tail })
  let h2 := match d.connector_tail with
    | some t => set_connector h1 t (fun c => { c with connector_next := some a })
    | none => h1
  { d with
    connectors := h2
    connector_tail := some a
    connector_head := if d.connector_head.isNone then some a else d.connector_head }

/-- Modelled from the spec: the macro `LL_REMOVE(d, connector, c)` of `util.h`, which
unlinks the node from the doubly linked connector list. -/
def LL_REMOVE_connector (d : pn_driver_t) (a : ptr) (c : pn_connector_t) : pn_driver_t :=
  let h1 := match c.connector_prev with
    | some q =>
      set_connector d.connectors q (fun x => { x with connector_next := c.connector_next })
    | none => d.connectors
  let h2 := match c.connector_next with
    | some q => set_connector h1 q (fun x => { x with connector_prev := c.connector_prev })
    | none => h1
  { d with
    connectors := h2
    connector_head := if d.connector_head = some a then c.connector_next else d.connector_head
    connector_tail := if d.connector_tail = some a then c.connector_prev else d.connector_tail }

/-! ## Listeners -/

/-- `pn_driver_add_listener` (driver.c:44). -/
def pn_driver_add_listener (d : pn_driver_t) (a : ptr) : Option pn_driver_t :=
  match d.listeners a with
  | none => none
  | some l =>
    if !l.driver then some d
    else
      let d1 := LL_ADD_listener d a
      some { d1 with
        listeners := set_listener d1.listeners a (fun x => { x with driver := true })
        listener_count := d1.listener_count + 1 }

/-- `pn_driver_remove_listener` (driver.c:52). -/
def pn_driver_remove_listener (d : pn_driver_t) (a : ptr) : Option pn_driver_t :=
  match d.listeners a with
  | none => none
  | some l =>
    if !l.driver then some d
    else
      let d1 := if some a = d.listener_next then { d with listener_next := l.listener_next } else d
      let d2 := LL_REMOVE_listener d1 a l
      some { d2 with
        listeners := set_listener d2.listeners a (fun x => { x with driver := false })
        listener_count := d2.listener_count - 1 }

/-- `pn_listener_fd` (driver.c:109).  `m` is the address returned by `malloc`
(`none` when it fails); the result is the returned pointer and the driver afterwards. -/
def pn_listener_fd (m : Option ptr) (driver : pn_driver_t) (fd : Int) (context : Option ptr) :
    Option (Option ptr × pn_driver_t) :=
  match m with
  | none => some (none, driver)
  | some a =>
    if (driver.listeners a).isSome then none
    else
      let l : pn_listener_t :=
        { driver := true, listener_next := none, listener_prev := none,
          pending := false, fd := fd, context := context }
      let d1 := { driver with listeners := fun p => if p = a then some l else driver.listeners p }
      (pn_driver_add_listener d1 a).map (fun d2 => (some a, d2))

/-- `pn_listener_head` (driver.c:128). -/
def pn_listener_head (driver : pn_driver_t) : Option ptr := driver.listener_head

/-- `pn_listener_next` (driver.c:133); `none` in the outer option is a dangling pointer. -/
def pn_listener_next (d : pn_driver_t) (listener : Option ptr) : Option (Option ptr) :=
  match listener with
  | none => some none
  | some a => (d.listeners a).map (fun l => l.listener_next)

/-- `pn_listener_free` (driver.c:195). -/
def pn_listener_free (d : pn_driver_t) (l : Option ptr) : Option pn_driver_t :=
  match l with
  | none => some d
  | some a =>
    match d.listeners a with
    | none => none
    | some x =>
      (if x.driver then pn_driver_remove_listener d a else some d).map
        (fun d1 => { d1 with listeners := fun p => if p = a then none else d1.listeners p })

/-! ## Connectors -/

/-- `pn_driver_add_connector` (driver.c:206). -/
def pn_driver_add_connector (d : pn_driver_t) (a : ptr) : Option pn_driver_t :=
  match d.connectors a with
  | none => none
  | some c =>
    if !c.driver then some d
    else
      let d1 := LL_ADD_connector d a
      some { d1 with
        connectors := set_connector d1.connectors a (fun x => { x with driver := true })
        connector_count := d1.connector_count + 1 }

/-- `pn_driver_remove_connector` (driver.c:214). -/
def pn_driver_remove_connector (d : pn_driver_t) (a : ptr) : Option pn_driver_t :=
  match d.connectors a with
  | none => none
  | some c =>
    if !c.driver then some d
    else
      let d1 :=
        if some a = d.connector_next then { d with connector_next := c.connector_next } else d
      let d2 := LL_REMOVE_connector d1 a c
      let d3 := { d2 with
        connectors := set_connector d2.connectors a (fun x => { x with driver := false })
        connector_count := d2.connector_count - 1 }
      if c.closed then some { d3 with closed_count := d3.closed_count - 1 } else some d3

/-- `pn_connector_trace` (driver.c:320) on the connector record. -/
def pn_connector_trace (ctor : pn_connector_t) (trace : Nat) : pn_connector_t :=
  { ctor with trace := trace }

/-- `pn_connector_fd` (driver.c:269).  `m` is the address returned by `malloc` (`none`
when it fails), `transport` and `sasl` the handles returned by `pn_transport` and
`pn_sasl`; the result is the returned pointer and the driver afterwards. -/
def pn_connector_fd (m : Option ptr) (transport sasl : Option ptr) (driver : pn_driver_t)
    (fd : Int) (context : Option ptr) : Option (Option ptr × pn_driver_t) :=
  match m with
  | none => some (none, driver)
  | some a =>
    if (driver.connectors a).isSome then none
    else
      let c : pn_connector_t :=
        { driver := true, connector_next := none, connector_prev := none,
          pending_tick := false, pending_read := false, pending_write := false,
          name := "", fd := fd, status := PN_SEL_RD ||| PN_SEL_WR, trace := driver.trace,
          closed := false, wakeup := 0,
          read := .pn_connector_read, write := .pn_connector_write,
          tick := .pn_connector_tick, io_handler := .pn_io_handler,
          input := fun _ => 0, input_size := 0, input_eos := false,
          output := fun _ => 0, output_size := 0,
          connection := none, transport := transport, sasl := sasl,
          input_done := false, output_done := false, context := context, listener := none }
      let c1 := pn_connector_trace c driver.trace
      let d1 := { driver with connectors := fun p => if p = a then some c1 else driver.connectors p }
      (pn_driver_add_connector d1 a).map (fun d2 => (some a, d2))

/-- Answers of the calls made by one `pn_connector`: the code returned by `getaddrinfo`,
the socket returned by `socket`, the result of `connect`, and the results of `malloc`,
`pn_transport` and `pn_sasl` inside `pn_connector_fd`. -/
structure connect_calls where
  code : Int
  sock : Int
  connected : Int
  malloc : Option ptr
  transport : Option ptr
  sasl : Option ptr

/-- `pn_connector` (driver.c:228).  `name_max` is `PN_CONNECTOR_NAME_MAX`, the size of the
name buffer that `snprintf` fills; the result is the returned pointer and the driver
afterwards. -/
def pn_connector (w : connect_calls) (name_max : Nat) (driver : pn_driver_t)
    (host port : String) (context : Option ptr) : Option (Option ptr × pn_driver_t) :=
  if w.code ≠ 0 then some (none, driver)
  else if w.sock = -1 then some (none, driver)
  else if w.connected = -1 then some (none, driver)
  else
    match pn_connector_fd w.malloc w.transport w.sasl driver w.sock context with
    | none => none
    | some (none, _) => none
    | some (some c, d1) =>
      some (some c, { d1 with
        connectors := set_connector d1.connectors c
          (fun y => { y with name := (host ++ ":" ++ port).take (name_max - 1) }) })

/-- `pn_connector_ssl` (driver.c:332): server mode when the connector was created by a
listener, client mode otherwise; `none` in the outer option is a dangling pointer. -/
def pn_connector_ssl (d : pn_driver_t) (ctor : Option ptr) : Option (Option pn_ssl_t) :=
  match ctor with
  | none => some none
  | some a =>
    (d.connectors a).map (fun c =>
      if c.listener.isSome then some (pn_ssl_t.pn_ssl_server c.transport)
      else some (pn_ssl_t.pn_ssl_client c.transport))

/-- `pn_connector_head` (driver.c:310). -/
def pn_connector_head (driver : pn_driver_t) : Option ptr := driver.connector_head

/-- `pn_connector_next` (driver.c:315); `none` in the outer option is a dangling pointer. -/
def pn_connector_next (d : pn_driver_t) (connector : Option ptr) : Option (Option ptr) :=
  match connector with
  | none => some none
  | some a => (d.connectors a).map (fun c => c.connector_next)

/-- `pn_connector_listener` (driver.c:367); `none` in the outer option is a dangling pointer. -/
def pn_connector_listener (d : pn_driver_t) (ctor : Option ptr) : Option (Option ptr) :=
  match ctor with
  | none => some none
  | some a => (d.connectors a).map (fun c => c.listener)

/-- `pn_connector_close` (driver.c:372). -/
def pn_connector_close (d : pn_driver_t) (ctor : Option ptr) : Option pn_driver_t :=
  match ctor with
  | none => some d
  | some a =>
    match d.connectors a with
    | none => none
    | some c =>
      if !c.driver then none
      else
        some { d with
          connectors := set_connector d.connectors a (fun x => { x with status := 0, closed := true })
          closed_count := d.closed_count + 1 }

/-- `pn_connector_closed` (driver.c:384); `none` is a dangling pointer. -/
def pn_connector_closed (d : pn_driver_t) (ctor : Option ptr) : Option Bool :=
  match ctor with
  | none => some true
  | some a => (d.connectors a).map (fun c => c.closed)

/-- `pn_connector_free` (driver.c:389). -/
def pn_connector_free (d : pn_driver_t) (ctor : Option ptr) : Option pn_driver_t :=
  match ctor with
  | none => some d
  | some a =>
    match d.connectors a with
    | none => none
    | some c =>
      (if c.driver then pn_driver_remove_connector d a else some d).map
        (fun d1 => { d1 with connectors := fun p => if p = a then none else d1.connectors p })

/-- Answers of the calls made by one `pn_listener_accept`: the socket returned by
`accept`, the code returned by `getnameinfo`, the peer name it resolved, and the
results of `malloc`, `pn_transport` and `pn_sasl` inside `pn_connector_fd`. -/
structure accept_calls where
  sock : Int
  code : Int
  peer : String
  malloc : Option ptr
  transport : Option ptr
  sasl : Option ptr

/-- `pn_listener_accept` (driver.c:156). -/
def pn_listener_accept (w : accept_calls) (d : pn_driver_t) (l : Option ptr) :
    Option (Option ptr × pn_driver_t) :=
  match l with
  | none => some (none, d)
  | some a =>
    match d.listeners a with
    | none => none
    | some x =>
      if !x.pending then some (none, d)
      else if w.sock = -1 then some (none, d)
      else if w.code ≠ 0 then some (none, d)
      else if !x.driver then none
      else
        match pn_connector_fd w.malloc w.transport w.sasl d w.sock none with
        | none => none
        | some (none, _) => none
        | some (some c, d1) =>
          some (some c, { d1 with
            connectors := set_connector d1.connectors c
              (fun y => { y with name := w.peer, listener := some a }) })

/-- Answers of the calls made by one `pn_connector_process`: those made while the tick
runs, those made while the I/O handler runs, and whether the TLS shutdown started by
`pn_connector_shutdown_ssl` completes before that call returns. -/
structure process_calls where
  tick : io_calls
  io : io_calls
  shutdown_completes : Bool

/-- Modelled from the spec: `pn_connector_shutdown_ssl` of the TLS layer, declared in
`ssl/ssl-internal.h` and defined outside `driver.c`.  It starts the clean TLS shutdown,
which may not complete on return; once the shutdown completes the connector is closed. -/
def pn_connector_shutdown_ssl (completes : Bool) (d : pn_driver_t) (c : ptr) :
    Option pn_driver_t :=
  if completes then pn_connector_close d (some c) else some d

/-- `pn_connector_process` (driver.c:492): the driver afterwards and the callbacks
invoked, in order. -/
def pn_connector_process (w : process_calls) (cap : Nat) (d : pn_driver_t) (c : Option ptr) :
    Option (pn_driver_t × List invoked) :=
  match c with
  | none => some (d, [])
  | some a =>
    match d.connectors a with
    | none => none
    | some x =>
      if x.closed then some (d, [])
      else
        let t : pn_connector_t × List invoked :=
          if x.pending_tick then
            ({ (call_tick w.tick cap x 0).2 with pending_tick := false }, [invoked.tick])
          else (x, [])
        let r := call_io_handler w.io cap t.1
        let d1 := { d with connectors := fun p => if p = a then some r.2 else d.connectors p }
        if r.1 ≠ 0 then
          (pn_connector_close d1 (some a)).map (fun d2 => (d2, t.2 ++ [invoked.io_handler]))
        else if r.2.output_size = 0 ∧ r.2.input_done = true ∧ r.2.output_done = true then
          (pn_connector_shutdown_ssl w.shutdown_completes d1 a).map
            (fun d2 => (d2, t.2 ++ [invoked.io_handler, invoked.shutdown_ssl]))
        else some (d1, t.2 ++ [invoked.io_handler])

/-! ## Driver -/

/-- `pn_driver` (driver.c:521): a fresh driver.  `trace` is the mask read from the
environment and `ctrl` the two ends of the control pipe. -/
def pn_driver (trace : Nat) (ctrl : Int × Int) : pn_driver_t :=
  { listener_head := none, listener_tail := none, listener_next := none,
    connector_head := none, connector_tail := none, connector_next := none,
    listener_count := 0, connector_count := 0, closed_count := 0,
    ctrl := ctrl, trace := trace,
    listeners := fun _ => none, connectors := fun _ => none }

/-- `pn_driver_trace` (driver.c:561). -/
def pn_driver_trace (d : pn_driver_t) (trace : Nat) : pn_driver_t := { d with trace := trace }

/-- The loop `while (d->connector_head) pn_connector_free(d->connector_head)` of
`pn_driver_free`. -/
def pn_driver_free_connectors : Nat → pn_driver_t → Option pn_driver_t
  | 0, _ => none
  | fuel + 1, d =>
    match d.connector_head with
    | none => some d
    | some a => (pn_connector_free d (some a)).bind (pn_driver_free_connectors fuel)

/-- The loop `while (d->listener_head) pn_listener_free(d->listener_head)` of
`pn_driver_free`. -/
def pn_driver_free_listeners : Nat → pn_driver_t → Option pn_driver_t
  | 0, _ => none
  | fuel + 1, d =>
    match d.listener_head with
    | none => some d
    | some a => (pn_listener_free d (some a)).bind (pn_driver_free_listeners fuel)

/-- `pn_driver_free` (driver.c:566): the driver record as it is when the two loops have
ended, right before the record itself is released. -/
def pn_driver_free (fuel : Nat) (d : pn_driver_t) : Option pn_driver_t :=
  (pn_driver_free_connectors fuel d).bind (pn_driver_free_listeners fuel)

/-- Modelled from the spec: `pn_driver_poller_wait`, defined outside `driver.c`.  It
sets the `pending` flag of a listener iff the OS reports an incoming connection, the
`pending_read` and `pending_write` flags of a connector iff the OS reports readiness
matching the `status` mask, and `pending_tick` on timer expiry. -/
def pn_driver_poller_wait (os : poll_result) (d : pn_driver_t) : pn_driver_t :=
  { d with
    listeners := fun p => (d.listeners p).map (fun l => { l with pending := os.listener_ready p })
    connectors := fun p => (d.connectors p).map (fun c =>
      { c with
        pending_read := os.connector_readable p && decide (c.status &&& PN_SEL_RD ≠ 0)
        pending_write := os.connector_writable p && decide (c.status &&& PN_SEL_WR ≠ 0)
        pending_tick := c.pending_tick || os.timer_expired p }) }

/-- `pn_driver_wait` (driver.c:590).  `ssl_data_ready` is the answer of
`pn_driver_ssl_data_ready` and `os` what the poller saw. -/
def pn_driver_wait (ssl_data_ready : Bool) (os : poll_result) (d : pn_driver_t) : pn_driver_t :=
  let d1 := if !ssl_data_ready then pn_driver_poller_wait os d else d
  { d1 with listener_next := d1.listener_head, connector_next := d1.connector_head }

/-- `pn_driver_listener` (driver.c:600): the listener returned and the driver
afterwards; each unit of fuel pays for one turn of the loop. -/
def pn_driver_listener : Nat → pn_driver_t → Option (Option ptr × pn_driver_t)
  | 0, _ => none
  | fuel + 1, d =>
    match d.listener_next with
    | none => some (none, d)
    | some a =>
      match d.listeners a with
      | none => none
      | some l =>
        let d1 := { d with listener_next := l.listener_next }
        if l.pending then some (some a, d1) else pn_driver_listener fuel d1

/-- `pn_driver_connector` (driver.c:615): the connector returned and the driver
afterwards; each unit of fuel pays for one turn of the loop. -/
def pn_driver_connector : Nat → pn_driver_t → Option (Option ptr × pn_driver_t)
  | 0, _ => none
  | fuel + 1, d =>
    match d.connector_next with
    | none => some (none, d)
    | some a =>
      match d.connectors a with
      | none => none
      | some c =>
        let d1 := { d with connector_next := c.connector_next }
        if c.closed || c.pending_read || c.pending_write || c.pending_tick ||
            decide (c.input_size ≠ 0) || c.input_eos then
          some (some a, d1)
        else pn_driver_connector fuel d1

/-! ## Specification vocabulary -/

/-- The pointers followed from `s` through the link `nx` are exactly `xs`, every one of
them a live node, and the walk ends in NULL. -/
def chain (nx : ptr → Option (Option ptr)) : Option ptr → List ptr → Prop
  | s, [] => s = none
  | s, a :: as => s = some a ∧ ∃ n, nx a = some n ∧ chain nx n as

/-- The `listener_next` link of the node at `a` (`none` when nothing lives there). -/
def listener_next_of (d : pn_driver_t) (a : ptr) : Option (Option ptr) :=
  (d.listeners a).map (fun l => l.listener_next)

/-- The `listener_prev` link of the node at `a`. -/
def listener_prev_of (d : pn_driver_t) (a : ptr) : Option (Option ptr) :=
  (d.listeners a).map (fun l => l.listener_prev)

/-- The `connector_next` link of the node at `a`. -/
def connector_next_of (d : pn_driver_t) (a : ptr) : Option (Option ptr) :=
  (d.connectors a).map (fun c => c.connector_next)

/-- The `connector_prev` link of the node at `a`. -/
def connector_prev_of (d : pn_driver_t) (a : ptr) : Option (Option ptr) :=
  (d.connectors a).map (fun c => c.connector_prev)

/-- The listener list of the driver is `xs`, in order: walking `listener_next` from the
head gives `xs`, walking `listener_prev` from the tail gives `xs` reversed, no node
occurs twice, every allocated listener has its back-pointer set and is in the list, and
`listener_count` is the length. -/
def listener_list (d : pn_driver_t) (xs : List ptr) : Prop :=
  xs.Nodup ∧ chain (listener_next_of d) d.listener_head xs ∧
    chain (listener_prev_of d) d.listener_tail xs.reverse ∧
    (∀ a l, d.listeners a = some l → l.driver = true ∧ a ∈ xs) ∧
    d.listener_count = xs.length

/-- The connector list of the driver is `xs`, in order (see `listener_list`). -/
def connector_list (d : pn_driver_t) (xs : List ptr) : Prop :=
  xs.Nodup ∧ chain (connector_next_of d) d.connector_head xs ∧
    chain (connector_prev_of d) d.connector_tail xs.reverse ∧
    (∀ a c, d.connectors a = some c → c.driver = true ∧ a ∈ xs) ∧
    d.connector_count = xs.length

/-- A cursor is empty or points at a node of the list. -/
def cursor_ok (cursor : Option ptr) (xs : List ptr) : Prop :=
  ∀ a, cursor = some a → a ∈ xs

/-- Both lists are well formed and both cursors are empty or point into their list. -/
def driver_inv (d : pn_driver_t) : Prop :=
  ∃ ls cs, listener_list d ls ∧ connector_list d cs ∧
    cursor_ok d.listener_next ls ∧ cursor_ok d.connector_next cs

/-- The six-way readiness predicate of the spec: `closed`, `pending_read`,
`pending_write`, `pending_tick`, `input_size > 0` or `input_eos`. -/
def connector_ready (c : pn_connector_t) : Bool :=
  c.closed || c.pending_read || c.pending_write || c.pending_tick ||
    decide (0 < c.input_size) || c.input_eos

/-- The connector at `a` is allocated and satisfies the readiness predicate. -/
def ready_connector (d : pn_driver_t) (a : ptr) : Bool :=
  match d.connectors a with
  | some c => connector_ready c
  | none => false

/-- The listener at `a` is allocated and has its `pending` flag set. -/
def ready_listener (d : pn_driver_t) (a : ptr) : Bool :=
  match d.listeners a with
  | some l => l.pending
  | none => false

/-- Repeated calls of `pn_driver_connector` until it returns NULL: the connectors
returned, in order, and the driver afterwards.  `fuel` pays for each call and `n` bounds
the number of calls. -/
def drain_connectors (fuel : Nat) : Nat → pn_driver_t → Option (List ptr × pn_driver_t)
  | 0, _ => none
  | n + 1, d =>
    match pn_driver_connector fuel d with
    | none => none
    | some (none, d1) => some ([], d1)
    | some (some a, d1) => (drain_connectors fuel n d1).map (fun r => (a :: r.1, r.2))

/-- Repeated calls of `pn_driver_listener` until it returns NULL. -/
def drain_listeners (fuel : Nat) : Nat → pn_driver_t → Option (List ptr × pn_driver_t)
  | 0, _ => none
  | n + 1, d =>
    match pn_driver_listener fuel d with
    | none => none
    | some (none, d1) => some ([], d1)
    | some (some a, d1) => (drain_listeners fuel n d1).map (fun r => (a :: r.1, r.2))

/-- One call of the embedder into the driver, with the answers of the outside world. -/
inductive driver_op where
  | listener_fd (m : Option ptr) (fd : Int) (context : Option ptr)
  | connector_fd (m transport sasl : Option ptr) (fd : Int) (context : Option ptr)
  | listener_free (l : Option ptr)
  | connector_free (c : Option ptr)
  | connector_close (c : Option ptr)
  | wait (ssl_data_ready : Bool) (os : poll_result)
  | driver_listener (fuel : Nat)
  | driver_connector (fuel : Nat)

/-- The driver after one call; `none` when the call is undefined on that state. -/
def apply_op (d : pn_driver_t) : driver_op → Option pn_driver_t
  | .listener_fd m fd context => (pn_listener_fd m d fd context).map Prod.snd
  | .connector_fd m transport sasl fd context =>
    (pn_connector_fd m transport sasl d fd context).map Prod.snd
  | .listener_free l => pn_listener_free d l
  | .connector_free c => pn_connector_free d c
  | .connector_close c => pn_connector_close d c
  | .wait ssl_data_ready os => some (pn_driver_wait ssl_data_ready os d)
  | .driver_listener fuel => (pn_driver_listener fuel d).map Prod.snd
  | .driver_connector fuel => (pn_driver_connector fuel d).map Prod.snd

/-- The driver after a sequence of calls. -/
def run_ops : pn_driver_t → List driver_op → Option pn_driver_t
  | d, [] => some d
  | d, op :: ops => (apply_op d op).bind (fun d1 => run_ops d1 ops)

/-- States that a fresh driver reaches through a sequence of calls. -/
def reachable (d : pn_driver_t) : Prop :=
  ∃ trace ctrl ops, run_ops (pn_driver trace ctrl) ops = some d

/-- The cursor after an iterator has walked the chain `ys`: the successor of the first
node that satisfies `p`, and NULL when there is none. -/
def cursor_after (p : ptr → Bool) (ys : List ptr) : Option ptr :=
  ((ys.dropWhile (fun a => !p a)).drop 1).head?

/-- A connector record without its two sibling links. -/
def connector_payload (c : pn_connector_t) : pn_connector_t :=
  { c with connector_next := none, connector_prev := none }

/-- A listener record without its two sibling links. -/
def listener_payload (l : pn_listener_t) : pn_listener_t :=
  { l with listener_next := none, listener_prev := none }

/-- The part of the driver that holds the listener list. -/
def listener_side (d : pn_driver_t) :
    (ptr → Option pn_listener_t) × Option ptr × Option ptr × Option ptr × Int :=
  (d.listeners, d.listener_head, d.listener_tail, d.listener_next, d.listener_count)

/-- The part of the driver that holds the connector list. -/
def connector_side (d : pn_driver_t) :
    (ptr → Option pn_connector_t) × Option ptr × Option ptr × Option ptr × Int × Int :=
  (d.connectors, d.connector_head, d.connector_tail, d.connector_next, d.connector_count,
    d.closed_count)

/-- Buffer bounds of a connector: both sizes are at most the capacity. -/
def buffers_bounded (cap : Nat) (c : pn_connector_t) : Prop :=
  c.input_size ≤ cap ∧ c.output_size ≤ cap

instance (cap : Nat) (c : pn_connector_t) : Decidable (buffers_bounded cap c) :=
  inferInstanceAs (Decidable (c.input_size ≤ cap ∧ c.output_size ≤ cap))

/-- Contract of the socket and of the transport: `recv` returns at most the requested
length, `send` at most the bytes offered, `pn_input` consumes at most the bytes offered
(or is negative), and `pn_output` produces at most the room offered (or is negative). -/
def io_contract (w : io_calls) : Prop :=
  (∀ len, w.recv len ≤ len) ∧ (∀ size, w.send size ≤ size) ∧
    (∀ size, w.pn_input size ≤ size) ∧ (∀ available, w.pn_output available ≤ available)

/-- The four function pointers of the connector are those `pn_connector_fd` installs. -/
def default_handlers (c : pn_connector_t) : Prop :=
  c.read = .pn_connector_read ∧ c.write = .pn_connector_write ∧
    c.tick = .pn_connector_tick ∧ c.io_handler = .pn_io_handler

instance (c : pn_connector_t) : Decidable (default_handlers c) :=
  inferInstanceAs (Decidable (c.read = .pn_connector_read ∧ c.write = .pn_connector_write ∧
    c.tick = .pn_connector_tick ∧ c.io_handler = .pn_io_handler))

/-- The fields of a connector that the I/O pipeline never writes. -/
def pipeline_frame (c : pn_connector_t) :
    Bool × Option ptr × Option ptr × String × Int × Nat × Bool × Int × read_fn × write_fn ×
      tick_fn × io_handler_fn × Option ptr × Option ptr × Option ptr × Option ptr × Option ptr :=
  (c.driver, c.connector_next, c.connector_prev, c.name, c.fd, c.trace, c.closed, c.wakeup,
    c.read, c.write, c.tick, c.io_handler, c.connection, c.transport, c.sasl, c.context,
    c.listener)

/-- `latched c c2`: a `done` flag that is set in `c` is still set in `c2`. -/
def latched (c c2 : pn_connector_t) : Prop :=
  (c.input_done = true → c2.input_done = true) ∧ (c.output_done = true → c2.output_done = true)

instance (c c2 : pn_connector_t) : Decidable (latched c c2) :=
  inferInstanceAs (Decidable ((c.input_done = true → c2.input_done = true) ∧
    (c.output_done = true → c2.output_done = true)))

/-- A connector is drainable when its output buffer is empty and both directions of the
transport are done. -/
def drainable (c : pn_connector_t) : Prop :=
  c.output_size = 0 ∧ c.input_done = true ∧ c.output_done = true

instance (c : pn_connector_t) : Decidable (drainable c) :=
  inferInstanceAs (Decidable (c.output_size = 0 ∧ c.input_done = true ∧ c.output_done = true))

/-- Successive calls of `pn_connector_process` on the connector at `a`, one per element of
the list of answers: the driver afterwards and all callbacks invoked, in order. -/
def process_seq (cap : Nat) (a : ptr) : List process_calls → pn_driver_t →
    Option (pn_driver_t × List invoked)
  | [], d => some (d, [])
  | w :: ws, d =>
    (pn_connector_process w cap d (some a)).bind (fun r =>
      (process_seq cap a ws r.1).map (fun r2 => (r2.1, r.2 ++ r2.2)))

/-- The input side of a connector: buffer, size and the two input flags. -/
def input_side (c : pn_connector_t) : (Nat → Nat) × Nat × Bool × Bool :=
  (c.input, c.input_size, c.input_eos, c.input_done)

/-- The three `pending` flags of a connector: tick, read and write. -/
def pending_flags (c : pn_connector_t) : Bool × Bool × Bool :=
  (c.pending_tick, c.pending_read, c.pending_write)

/-- The transport consumes at least one byte, and no more than it is offered, of every
non-empty input of at most `n` bytes. -/
def consumes (w : io_calls) (n : Nat) : Prop :=
  ∀ s : Nat, 0 < s → s ≤ n → 0 < w.pn_input s ∧ w.pn_input s ≤ s

/-- A sequence of `pn_connector_close` and `pn_connector_free` calls closes every
connector of `open_` once and then frees it, and frees every connector of `closed_`, in
any interleaving: `open_` lists the connectors still to be closed and freed, `closed_`
those closed and still to be freed. -/
def reaps : List ptr → List ptr → List driver_op → Bool
  | open_, closed_, [] => open_.isEmpty && closed_.isEmpty
  | open_, closed_, op :: ops =>
    match op with
    | .connector_close (some a) =>
      open_.contains a && reaps (open_.erase a) (a :: closed_) ops
    | .connector_free (some a) =>
      closed_.contains a && reaps open_ (closed_.erase a) ops
    | _ => false

/-- One step in the life of a connector: a call of one of the pipeline functions of
`driver.c` on it, a `pn_connector_process`, or a `pn_driver_wait` of its driver, each with
the answers of the outside world. -/
inductive connector_op where
  | read (w : io_calls)
  | process_input (w : io_calls)
  | process_output (w : io_calls)
  | write (w : io_calls)
  | tick (w : io_calls) (now : Int)
  | io_handler (w : io_calls)
  | process (w : process_calls)
  | wait (ssl_data_ready : Bool) (os : poll_result)

/-- The driver after a function has run on the connector stored at `a`; `none` when no
connector lives there. -/
def on_connector (d : pn_driver_t) (a : ptr) (f : pn_connector_t → pn_connector_t) :
    Option pn_driver_t :=
  (d.connectors a).map (fun c =>
    { d with connectors := fun p => if p = a then some (f c) else d.connectors p })

/-- The driver after one step on the connector at `a`. -/
def apply_connector_op (cap : Nat) (a : ptr) (d : pn_driver_t) : connector_op → Option pn_driver_t
  | .read w => on_connector d a (pn_connector_read w cap)
  | .process_input w => on_connector d a (pn_connector_process_input w)
  | .process_output w => on_connector d a (pn_connector_process_output w cap)
  | .write w => on_connector d a (pn_connector_write w)
  | .tick w now => on_connector d a (fun c => (pn_connector_tick w cap c now).2)
  | .io_handler w => on_connector d a (fun c => (pn_io_handler w cap c).2)
  | .process w => (pn_connector_process w cap d (some a)).map Prod.fst
  | .wait ssl_data_ready os => some (pn_driver_wait ssl_data_ready os d)

/-- The driver after a sequence of steps on the connector at `a`. -/
def run_connector_ops (cap : Nat) (a : ptr) : pn_driver_t → List connector_op → Option pn_driver_t
  | d, [] => some d
  | d, op :: ops => (apply_connector_op cap a d op).bind (fun d1 => run_connector_ops cap a d1 ops)

/-- States reached from the creation of the connector at `a` by `pn_connector_fd` through
a sequence of steps on that connector. -/
def connector_reachable (cap : Nat) (a : ptr) (d : pn_driver_t) : Prop :=
  ∃ d0 transport sasl fd context d1 ops,
    pn_connector_fd (some a) transport sasl d0 fd context = some (some a, d1) ∧
      run_connector_ops cap a d1 ops = some d

/-- Buffered output of an open connector is announced: WANT_WRITE is set in `status`
whenever the connector is not closed and `output_size > 0`. -/
def wants_write (c : pn_connector_t) : Prop :=
  c.closed = false → 0 < c.output_size → c.status &&& PN_SEL_WR = PN_SEL_WR

/-- The connector keeps its back-pointer and the function pointers that `pn_connector_fd`
installs, and its buffered output is announced. -/
def pipeline_ok (c : pn_connector_t) : Prop :=
  c.driver = true ∧ default_handlers c ∧ wants_write c

/-- The number of connectors of the list `cs` whose `closed` flag is set. -/
def closed_connectors (d : pn_driver_t) (cs : List ptr) : Nat :=
  (cs.filter (fun a =>
    match d.connectors a with
    | some c => c.closed
    | none => false)).length

/-! ## A concrete driver for the examples -/

/-- A connector with the given links and flags, otherwise as `pn_connector_fd` leaves it. -/
def ex_connector (next prev : Option ptr) (pending_read closed : Bool) : pn_connector_t :=
  { driver := true, connector_next := next, connector_prev := prev, name := "", fd := 5,
    pending_tick := false, pending_read := pending_read, pending_write := false,
    status := if closed then 0 else 3, trace := 0, closed := closed, wakeup := 0,
    read := .pn_connector_read, write := .pn_connector_write, tick := .pn_connector_tick,
    io_handler := .pn_io_handler, input := fun _ => 0, input_size := 0, input_eos := false,
    output := fun _ => 0, output_size := 0, connection := none, transport := some 100,
    sasl := some 101, input_done := false, output_done := false, context := none,
    listener := none }

/-- A listener with the given links and `pending` flag. -/
def ex_listener (next prev : Option ptr) (pending : Bool) : pn_listener_t :=
  { driver := true, listener_next := next, listener_prev := prev, pending := pending, fd := 4,
    context := none }

/-- A driver with the listeners 1 (pending) and 2, and the connectors 10 (readable),
20 (idle) and 30 (closed), both cursors at the head of their list. -/
def ex_driver : pn_driver_t :=
  { listener_head := some 1, listener_tail := some 2, listener_next := some 1,
    connector_head := some 10, connector_tail := some 30, connector_next := some 10,
    listener_count := 2, connector_count := 3, closed_count := 1, ctrl := (3, 4), trace := 0,
    listeners := fun p =>
      if p = 1 then some (ex_listener (some 2) none true)
      else if p = 2 then some (ex_listener none (some 1) false)
      else none,
    connectors := fun p =>
      if p = 10 then some (ex_connector (some 20) none true false)
      else if p = 20 then some (ex_connector (some 30) (some 10) false false)
      else if p = 30 then some (ex_connector none (some 20) false true)
      else none }

/-- A poller answer that reports nothing. -/
def ex_poll : poll_result :=
  { listener_ready := fun _ => false, connector_readable := fun _ => false,
    connector_writable := fun _ => false, timer_expired := fun _ => false }

/-- A sequence of calls for the examples: two connectors and a listener are created, the
driver waits, the listener iterator is advanced once, and the first connector is closed and
freed while the connector cursor points at it. -/
def ex_ops : List driver_op :=
  [.connector_fd (some 10) (some 100) (some 101) 5 none,
   .connector_fd (some 20) (some 200) (some 201) 6 none,
   .listener_fd (some 1) 4 none,
   .wait false ex_poll,
   .driver_listener 2,
   .connector_close (some 10),
   .connector_free (some 10)]

/-- The driver that a fresh driver reaches through `ex_ops`. -/
def ex_reached : pn_driver_t :=
  (run_ops (pn_driver 0 (3, 4)) ex_ops).getD (pn_driver 0 (3, 4))

/-- Socket and transport answers for the examples: `recv` fills the request, the transport
consumes everything offered and produces nothing, `send` accepts everything. -/
def ex_calls : io_calls :=
  { recv := fun len => len, recv_data := fun _ => 7, pn_input := fun size => size,
    pn_output := fun _ => 0, pn_output_data := fun _ => 0, send := fun size => size,
    pn_tick := fun _ => 0, other_read := fun c => c, other_write := fun c => c,
    other_tick := fun c => (0, c), other_io_handler := fun c => (0, c) }

/-- Answers for one `pn_connector_process` in which the TLS shutdown does not complete
before `pn_connector_shutdown_ssl` returns. -/
def ex_process_calls : process_calls :=
  { tick := ex_calls, io := ex_calls, shutdown_completes := false }

/-- An open, drainable connector: the peer has closed (`input_eos`), both directions of
the transport are done and no output is left. -/
def ex_drained_connector : pn_connector_t :=
  { ex_connector none none false false with
    input_eos := true, input_done := true, output_done := true }

/-- A driver whose only connector, at address 10, is `ex_drained_connector`. -/
def ex_drained_driver : pn_driver_t :=
  { listener_head := none, listener_tail := none, listener_next := none,
    connector_head := some 10, connector_tail := some 10, connector_next := none,
    listener_count := 0, connector_count := 1, closed_count := 0, ctrl := (3, 4), trace := 0,
    listeners := fun _ => none,
    connectors := fun p => if p = 10 then some ex_drained_connector else none }

/-- A connector whose transport has refused further input and output while three bytes
are still buffered. -/
def ex_latched_connector : pn_connector_t :=
  { ex_connector none none true false with
    input_size := 3, input_done := true, output_done := true }

/-- Answers for one `pn_connector_process` in which the TLS shutdown completes before
`pn_connector_shutdown_ssl` returns. -/
def ex_completing_calls : process_calls :=
  { tick := ex_calls, io := ex_calls, shutdown_completes := true }

/-- A closed connector with three bytes of output left and the transport done with
output: `pn_connector_close` has zeroed `status`. -/
def ex_stalled_connector : pn_connector_t :=
  { ex_connector none none false true with output_size := 3, output_done := true }

/-- An open connector whose transport has refused further input, with an empty input
buffer and a read pending. -/
def ex_refusing_connector : pn_connector_t :=
  { ex_connector none none true false with input_done := true }

/-- An open connector with three bytes of input (10, 11, 12) and three bytes of output
(20, 21, 22) buffered. -/
def ex_buffered_connector : pn_connector_t :=
  { ex_connector none none false false with
    input := fun i => i + 10, input_size := 3, output := fun i => i + 20, output_size := 3 }

/-- Socket and transport answers for the examples: `recv` delivers five bytes, the
transport consumes two bytes and produces none, `send` accepts one byte. -/
def ex_partial_calls : io_calls :=
  { ex_calls with recv := fun _ => 5, pn_input := fun _ => 2, send := fun _ => 1 }

/-- Answers for one `pn_listener_accept` that succeeds: socket 6, peer name resolved, and
the new connector allocated at address 40. -/
def ex_accept : accept_calls :=
  { sock := 6, code := 0, peer := "peer:5672", malloc := some 40, transport := some 400,
    sasl := some 401 }

/-- Answers for a second `pn_listener_accept` that succeeds, the new connector being
allocated at address 50. -/
def ex_second_accept : accept_calls :=
  { sock := 7, code := 0, peer := "peer:5673", malloc := some 50, transport := some 500,
    sasl := some 501 }

/-- Answers for one `pn_connector` that succeeds: socket 8 connected and the new connector
allocated at address 60. -/
def ex_connect : connect_calls :=
  { code := 0, sock := 8, connected := 0, malloc := some 60, transport := some 600,
    sasl := some 601 }

/-- A driver whose only connector, at address 10, is `ex_buffered_connector`. -/
def ex_buffered_driver : pn_driver_t :=
  { listener_head := none, listener_tail := none, listener_next := none,
    connector_head := some 10, connector_tail := some 10, connector_next := none,
    listener_count := 0, connector_count := 1, closed_count := 0, ctrl := (3, 4), trace := 0,
    listeners := fun _ => none,
    connectors := fun p => if p = 10 then some ex_buffered_connector else none }

/-- Answers for one `pn_connector_process` in which the transport consumes one byte of
whatever input it is offered. -/
def ex_slow_calls : process_calls :=
  { tick := ex_calls, io := { ex_calls with pn_input := fun _ => 1 },
    shutdown_completes := false }

/-- A driver with the listener 1 and the open connectors 10 and 20, no connector closed. -/
def ex_open_driver : pn_driver_t :=
  { listener_head := some 1, listener_tail := some 1, listener_next := none,
    connector_head := some 10, connector_tail := some 20, connector_next := none,
    listener_count := 1, connector_count := 2, closed_count := 0, ctrl := (3, 4), trace := 0,
    listeners := fun p => if p = 1 then some (ex_listener none none false) else none,
    connectors := fun p =>
      if p = 10 then some (ex_connector (some 20) none false false)
      else if p = 20 then some (ex_connector none (some 10) false false)
      else none }

/-- Both connectors of `ex_open_driver` are closed, then freed in the opposite order. -/
def ex_reap_ops : List driver_op :=
  [.connector_close (some 10), .connector_close (some 20), .connector_free (some 20),
   .connector_free (some 10)]

/-- An open, drainable connector with a tick pending. -/
def ex_ticking_connector : pn_connector_t :=
  { ex_drained_connector with pending_tick := true }

/-- A driver whose only connector, at address 10, is `ex_ticking_connector`. -/
def ex_ticking_driver : pn_driver_t :=
  { ex_drained_driver with
    connectors := fun p => if p = 10 then some ex_ticking_connector else none }

/-- Transport answers for the examples in which `pn_output` produces three bytes. -/
def ex_producing_calls : io_calls :=
  { ex_calls with pn_output := fun _ => 3, pn_output_data := fun i => i + 30 }

/-- Steps on a fresh connector: the transport produces three bytes, the poller reports the
socket writable, and the default io_handler sends one byte. -/
def ex_connector_ops : List connector_op :=
  [.process_output ex_producing_calls,
   .wait false { ex_poll with connector_writable := fun _ => true },
   .io_handler ex_partial_calls]

/-- The driver after `pn_connector_fd` has created the connector 10 on a fresh driver. -/
def ex_created : pn_driver_t :=
  ((pn_connector_fd (some 10) (some 100) (some 101) (pn_driver 0 (3, 4)) 5 none).map
    Prod.snd).getD (pn_driver 0 (3, 4))

/-- The driver that `ex_created` reaches through `ex_connector_ops`. -/
def ex_written : pn_driver_t :=
  (run_connector_ops 4096 10 ex_created ex_connector_ops).getD ex_created

/-- Transport answers for the examples in which `pn_output` refuses to produce output. -/
def ex_refusing_output_calls : io_calls :=
  { ex_calls with pn_output := fun _ => -1 }

/-- Steps on a fresh connector: the transport produces three bytes, then refuses further
output. -/
def ex_output_done_ops : List connector_op :=
  [.process_output ex_producing_calls, .process_output ex_refusing_output_calls]

/-- The driver that `ex_created` reaches through `ex_output_done_ops`. -/
def ex_output_done_driver : pn_driver_t :=
  (run_connector_ops 4096 10 ex_created ex_output_done_ops).getD ex_created

/-- The connector 10 of `ex_output_done_driver`: open, with `output_done` set and three
bytes of output buffered. -/
def ex_output_done_connector : pn_connector_t :=
  (ex_output_done_driver.connectors 10).getD (ex_connector none none false false)

/-- Answers for one `pn_connector_process` on a connector with a custom io_handler that
marks the connector closed and returns 0. -/
def ex_closing_handler_calls : process_calls :=
  { ex_process_calls with
    io := { ex_calls with
      other_io_handler := fun c => (0, { c with status := 0, closed := true }) } }

/-- A driver whose only connector, at address 10, is open and drainable and has a custom
io_handler. -/
def ex_custom_driver : pn_driver_t :=
  { ex_drained_driver with
    connectors := fun p =>
      if p = 10 then some { ex_drained_connector with io_handler := .other } else none }

/-! ## Lemmas -/

theorem chain_congr {nx g : ptr → Option (Option ptr)} {xs : List ptr} :
    ∀ {s : Option ptr}, (∀ a ∈ xs, g a = nx a) → chain nx s xs → chain g s xs := by
  induction xs with
  | nil => intro s _ h; exact h
  | cons x xs ih =>
    intro s hagree h
    obtain ⟨hs, n, hn, hrest⟩ := h
    refine ⟨hs, n, ?_, ih (fun a ha => hagree a (List.mem_cons_of_mem _ ha)) hrest⟩
    rw [hagree x (List.mem_cons_self _ _)]; exact hn

theorem chain_head {nx : ptr → Option (Option ptr)} {s : Option ptr} {xs : List ptr}
    (h : chain nx s xs) : s = xs.head? := by
  cases xs with
  | nil => exact h
  | cons x xs => exact h.1

theorem chain_live {nx : ptr → Option (Option ptr)} {xs : List ptr} :
    ∀ {s : Option ptr}, chain nx s xs → ∀ a ∈ xs, ∃ n, nx a = some n := by
  induction xs with
  | nil => intro s _ a ha; cases ha
  | cons x xs ih =>
    intro s h a ha
    obtain ⟨_, n, hn, hrest⟩ := h
    rcases List.mem_cons.1 ha with rfl | hmem
    · exact ⟨n, hn⟩
    · exact ih hrest a hmem

theorem chain_unique {nx : ptr → Option (Option ptr)} {xs : List ptr} :
    ∀ {s : Option ptr} {ys : List ptr}, chain nx s xs → chain nx s ys → xs = ys := by
  induction xs with
  | nil =>
    intro s ys h1 h2
    cases ys with
    | nil => rfl
    | cons y ys => have h3 : s = none := h1; rw [h3] at h2; cases h2.1
  | cons x xs ih =>
    intro s ys h1 h2
    obtain ⟨hs, n, hn, hrest⟩ := h1
    cases ys with
    | nil => have h3 : s = none := h2; rw [h3] at hs; cases hs
    | cons y ys =>
      obtain ⟨hs2, m, hm, hrest2⟩ := h2
      have hxy : x = y := by rw [hs] at hs2; exact Option.some.inj hs2
      subst hxy
      have hnm : n = m := by rw [hn] at hm; exact Option.some.inj hm
      subst hnm
      rw [ih hrest hrest2]

theorem chain_split {nx : ptr → Option (Option ptr)} {a : ptr} {r : List ptr} :
    ∀ {l : List ptr} {s : Option ptr}, chain nx s (l ++ a :: r) →
      nx a = some r.head? ∧ chain nx r.head? r ∧ chain nx (some a) (a :: r) := by
  intro l
  induction l with
  | nil =>
    intro s h
    obtain ⟨_, n, hn, hrest⟩ := h
    have hh := chain_head hrest
    subst hh
    exact ⟨hn, hrest, rfl, _, hn, hrest⟩
  | cons x l ih =>
    intro s h
    obtain ⟨_, n, _, hrest⟩ := h
    exact ih hrest

theorem chain_snoc {nx g : ptr → Option (Option ptr)} {q : ptr} (hq : g q = some none) :
    ∀ {xs : List ptr} {s : Option ptr}, chain nx s xs → xs.Nodup →
      (∀ p ∈ xs, g p = if xs.getLast? = some p then some (some q) else nx p) →
      chain g (if s.isNone then some q else s) (xs ++ [q]) := by
  intro xs
  induction xs with
  | nil =>
    intro s h _ _
    have hs : s = none := h
    subst hs
    exact ⟨rfl, none, hq, rfl⟩
  | cons x xs ih =>
    intro s h hnd hagree
    obtain ⟨hs, n, hn, hrest⟩ := h
    subst hs
    have hx := hagree x (List.mem_cons_self _ _)
    cases xs with
    | nil =>
      have hnn : n = none := hrest
      subst hnn
      refine ⟨rfl, some q, ?_, rfl, none, hq, rfl⟩
      simpa using hx
    | cons y ys =>
      have hxn : x ∉ y :: ys := (List.nodup_cons.1 hnd).1
      have hnd2 : (y :: ys).Nodup := (List.nodup_cons.1 hnd).2
      have hlast : (x :: y :: ys).getLast? = (y :: ys).getLast? := by simp [List.getLast?_cons_cons]
      have hny : n = some y := hrest.1
      refine ⟨rfl, n, ?_, ?_⟩
      · rw [hx, hlast, if_neg]
        · exact hn
        · intro hcon
          exact hxn (List.mem_of_getLast?_eq_some hcon)
      · have := ih hrest hnd2 (fun p hp => by
          rw [hagree p (List.mem_cons_of_mem _ hp), hlast])
        rw [hny] at this ⊢
        simpa using this

theorem chain_remove {nx g : ptr → Option (Option ptr)} {a : ptr} {r : List ptr} :
    ∀ {l : List ptr} {s : Option ptr}, chain nx s (l ++ a :: r) → (l ++ a :: r).Nodup →
      (∀ p ∈ l ++ r, g p = if l.getLast? = some p then some r.head? else nx p) →
      chain g (if l = [] then r.head? else s) (l ++ r) := by
  intro l
  induction l with
  | nil =>
    intro s h _ hagree
    obtain ⟨_, n, hn, hrest⟩ := h
    have hh := chain_head hrest
    subst hh
    simp only [List.nil_append, if_true]
    exact chain_congr (fun p hp => by simpa using hagree p (by simpa using hp)) hrest
  | cons x l ih =>
    intro s h hnd hagree
    obtain ⟨hs, n, hn, hrest⟩ := h
    subst hs
    have hnd2 : (l ++ a :: r).Nodup := (List.nodup_cons.1 hnd).2
    have hxn : x ∉ l ++ a :: r := (List.nodup_cons.1 hnd).1
    have hx := hagree x (List.mem_cons_self _ _)
    simp only [List.cons_append, reduceCtorEq, if_false]
    cases l with
    | nil =>
      refine ⟨rfl, r.head?, by simpa using hx, ?_⟩
      have := ih hrest hnd2 (fun p hp => by
        have hpr : p ∈ r := by simpa using hp
        have hpx : p ≠ x := by
          rintro rfl; exact hxn (by simp [hpr])
        have := hagree p (List.mem_cons_of_mem _ hp)
        simp only [List.getLast?_singleton] at this
        rw [this, if_neg (by intro hc; exact hpx (Option.some.inj hc).symm)]
        simp)
      simpa using this
    | cons y ys =>
      have hlast : (x :: y :: ys).getLast? = (y :: ys).getLast? := by simp [List.getLast?_cons_cons]
      refine ⟨rfl, n, ?_, ?_⟩
      · rw [hx, hlast, if_neg]
        · exact hn
        · intro hcon
          exact hxn (List.mem_append_left _ (List.mem_of_getLast?_eq_some hcon))
      · have := ih hrest hnd2 (fun p hp => by
          rw [hagree p (List.mem_cons_of_mem _ hp), hlast])
        simpa using this

theorem ready_connector_with_cursor (d : pn_driver_t) (x : Option ptr) :
    ready_connector { d with connector_next := x } = ready_connector d := rfl

theorem pn_driver_connector_eq : ∀ (ys : List ptr) (fuel : Nat) (d : pn_driver_t),
    chain (connector_next_of d) d.connector_next ys → ys.length < fuel →
    pn_driver_connector fuel d =
      some (ys.find? (ready_connector d),
        { d with connector_next := cursor_after (ready_connector d) ys }) := by
  intro ys
  induction ys with
  | nil =>
    intro fuel d h hf
    have hc : d.connector_next = none := h
    cases fuel with
    | zero => simp at hf
    | succ k =>
      simp only [pn_driver_connector, hc, List.find?_nil, cursor_after, List.dropWhile_nil,
        List.drop_nil, List.head?_nil]
      cases d; simp_all
  | cons y ys ih =>
    intro fuel d h hf
    obtain ⟨hc, n, hn, hrest⟩ := h
    cases fuel with
    | zero => simp at hf
    | succ k =>
      have hlen : ys.length < k := by simpa using hf
      simp only [connector_next_of] at hn
      cases hy : d.connectors y with
      | none => rw [hy] at hn; cases hn
      | some c =>
        rw [hy] at hn
        have hcn : c.connector_next = n := by simpa using hn
        have hr : ready_connector d y = connector_ready c := by simp [ready_connector, hy]
        have htest : (c.closed || c.pending_read || c.pending_write || c.pending_tick ||
            decide (c.input_size ≠ 0) || c.input_eos) = connector_ready c := by
          simp [connector_ready, Nat.pos_iff_ne_zero]
        simp only [pn_driver_connector, hc, hy, htest]
        by_cases hrdy : connector_ready c = true
        · have hh := chain_head hrest
          simp [hrdy, hr, cursor_after, List.find?_cons, hcn, hh]
        · have hrdy2 : connector_ready c = false := by simpa using hrdy
          have := ih k { d with connector_next := c.connector_next } (by rw [hcn]; exact hrest) hlen
          simp only [hrdy2, Bool.false_eq_true, if_false]
          rw [this]
          simp [ready_connector_with_cursor, List.find?_cons, hr, hrdy2, cursor_after]

theorem ready_listener_with_cursor (d : pn_driver_t) (x : Option ptr) :
    ready_listener { d with listener_next := x } = ready_listener d := rfl

theorem pn_driver_listener_eq : ∀ (ys : List ptr) (fuel : Nat) (d : pn_driver_t),
    chain (listener_next_of d) d.listener_next ys → ys.length < fuel →
    pn_driver_listener fuel d =
      some (ys.find? (ready_listener d),
        { d with listener_next := cursor_after (ready_listener d) ys }) := by
  intro ys
  induction ys with
  | nil =>
    intro fuel d h hf
    have hc : d.listener_next = none := h
    cases fuel with
    | zero => simp at hf
    | succ k =>
      simp only [pn_driver_listener, hc, List.find?_nil, cursor_after, List.dropWhile_nil,
        List.drop_nil, List.head?_nil]
      cases d; simp_all
  | cons y ys ih =>
    intro fuel d h hf
    obtain ⟨hc, n, hn, hrest⟩ := h
    cases fuel with
    | zero => simp at hf
    | succ k =>
      have hlen : ys.length < k := by simpa using hf
      simp only [listener_next_of] at hn
      cases hy : d.listeners y with
      | none => rw [hy] at hn; cases hn
      | some l =>
        rw [hy] at hn
        have hcn : l.listener_next = n := by simpa using hn
        have hr : ready_listener d y = l.pending := by simp [ready_listener, hy]
        simp only [pn_driver_listener, hc, hy]
        by_cases hrdy : l.pending = true
        · have hh := chain_head hrest
          simp [hrdy, hr, cursor_after, List.find?_cons, hcn, hh]
        · have hrdy2 : l.pending = false := by simpa using hrdy
          have := ih k { d with listener_next := l.listener_next } (by rw [hcn]; exact hrest) hlen
          simp only [hrdy2, Bool.false_eq_true, if_false]
          rw [this]
          simp [ready_listener_with_cursor, List.find?_cons, hr, hrdy2, cursor_after]

theorem find_none_facts (p : ptr → Bool) : ∀ (ys : List ptr), ys.find? p = none →
    ys.filter p = [] ∧ cursor_after p ys = none := by
  intro ys
  induction ys with
  | nil => intro _; simp [cursor_after]
  | cons y ys ih =>
    intro h
    by_cases hp : p y = true
    · simp [List.find?_cons, hp] at h
    · have hp2 : p y = false := by simpa using hp
      have h2 : ys.find? p = none := by simpa [List.find?_cons, hp2] using h
      obtain ⟨h3, h4⟩ := ih h2
      refine ⟨by simp [List.filter_cons, hp2, h3], ?_⟩
      simpa [cursor_after, List.dropWhile_cons, hp2] using h4

theorem find_some_facts (p : ptr → Bool) (a : ptr) : ∀ (ys : List ptr), ys.find? p = some a →
    ∃ l r, ys = l ++ a :: r ∧ ys.filter p = a :: r.filter p ∧ cursor_after p ys = r.head? ∧
      p a = true ∧ (∀ b ∈ l, p b = false) := by
  intro ys
  induction ys with
  | nil => intro h; simp at h
  | cons y ys ih =>
    intro h
    by_cases hp : p y = true
    · have hya : y = a := by simpa [List.find?_cons, hp] using h
      subst hya
      exact ⟨[], ys, rfl, by simp [List.filter_cons, hp], by simp [cursor_after, List.dropWhile_cons, hp],
        hp, by simp⟩
    · have hp2 : p y = false := by simpa using hp
      have h2 : ys.find? p = some a := by simpa [List.find?_cons, hp2] using h
      obtain ⟨l, r, h3, h4, h5, h6, h7⟩ := ih h2
      refine ⟨y :: l, r, by simp [h3], by simp [List.filter_cons, hp2, h4], ?_, h6, ?_⟩
      · simpa [cursor_after, List.dropWhile_cons, hp2] using h5
      · intro b hb
        rcases List.mem_cons.1 hb with rfl | hb2
        · exact hp2
        · exact h7 b hb2

theorem drain_connectors_eq (fuel : Nat) : ∀ (n : Nat) (ys : List ptr) (d : pn_driver_t),
    chain (connector_next_of d) d.connector_next ys → ys.length < fuel → ys.length < n →
    drain_connectors fuel n d =
      some (ys.filter (ready_connector d), { d with connector_next := none }) := by
  intro n
  induction n with
  | zero => intro ys d _ _ hn; simp at hn
  | succ k ih =>
    intro ys d h hf hn
    simp only [drain_connectors, pn_driver_connector_eq ys fuel d h hf]
    cases hfind : ys.find? (ready_connector d) with
    | none =>
      obtain ⟨h1, h2⟩ := find_none_facts _ ys hfind
      simp [h1, h2]
    | some a =>
      obtain ⟨l, r, h1, h2, h3, _, _⟩ := find_some_facts _ a ys hfind
      have hr : chain (connector_next_of d) r.head? r := by
        rw [h1] at h; exact (chain_split h).2.1
      have hlen : r.length < ys.length := by rw [h1]; simp; omega
      have := ih r { d with connector_next := r.head? } hr (by omega) (by omega)
      simp only [h3, this, h2, ready_connector_with_cursor]
      rfl

theorem drain_listeners_eq (fuel : Nat) : ∀ (n : Nat) (ys : List ptr) (d : pn_driver_t),
    chain (listener_next_of d) d.listener_next ys → ys.length < fuel → ys.length < n →
    drain_listeners fuel n d =
      some (ys.filter (ready_listener d), { d with listener_next := none }) := by
  intro n
  induction n with
  | zero => intro ys d _ _ hn; simp at hn
  | succ k ih =>
    intro ys d h hf hn
    simp only [drain_listeners, pn_driver_listener_eq ys fuel d h hf]
    cases hfind : ys.find? (ready_listener d) with
    | none =>
      obtain ⟨h1, h2⟩ := find_none_facts _ ys hfind
      simp [h1, h2]
    | some a =>
      obtain ⟨l, r, h1, h2, h3, _, _⟩ := find_some_facts _ a ys hfind
      have hr : chain (listener_next_of d) r.head? r := by
        rw [h1] at h; exact (chain_split h).2.1
      have hlen : r.length < ys.length := by rw [h1]; simp; omega
      have := ih r { d with listener_next := r.head? } hr (by omega) (by omega)
      simp only [h3, this, h2, ready_listener_with_cursor]
      rfl

theorem LL_REMOVE_connector_next (d : pn_driver_t) (a : ptr) (c : pn_connector_t) (p : ptr) :
    connector_next_of (LL_REMOVE_connector d a c) p =
      if c.connector_prev = some p then (d.connectors p).map (fun _ => c.connector_next)
      else connector_next_of d p := by
  unfold connector_next_of LL_REMOVE_connector
  cases hp : c.connector_prev <;> cases hn : c.connector_next <;>
    simp only [set_connector] <;> (repeat' split) <;>
    (try simp_all [Option.map_map, Function.comp_def])

theorem LL_REMOVE_connector_prev (d : pn_driver_t) (a : ptr) (c : pn_connector_t) (p : ptr) :
    connector_prev_of (LL_REMOVE_connector d a c) p =
      if c.connector_next = some p then (d.connectors p).map (fun _ => c.connector_prev)
      else connector_prev_of d p := by
  unfold connector_prev_of LL_REMOVE_connector
  cases hp : c.connector_prev <;> cases hn : c.connector_next <;>
    simp only [set_connector] <;> (repeat' split) <;>
    (try simp_all [Option.map_map, Function.comp_def])

theorem LL_REMOVE_connector_payload (d : pn_driver_t) (a : ptr) (c : pn_connector_t) (p : ptr) :
    ((LL_REMOVE_connector d a c).connectors p).map connector_payload =
      (d.connectors p).map connector_payload := by
  unfold LL_REMOVE_connector
  cases hp : c.connector_prev <;> cases hn : c.connector_next <;>
    simp only [set_connector] <;> (repeat' split) <;>
    (try simp_all [Option.map_map, Function.comp_def]) <;> (try rfl)

theorem listener_list_of_side {d d2 : pn_driver_t} {ls : List ptr}
    (h : listener_side d2 = listener_side d) (hl : listener_list d ls) : listener_list d2 ls := by
  simp only [listener_side, Prod.mk.injEq] at h
  obtain ⟨h1, h2, h3, _, h5⟩ := h
  unfold listener_list listener_next_of listener_prev_of at *
  rw [h1, h2, h3, h5]; exact hl

theorem connector_list_of_side {d d2 : pn_driver_t} {cs : List ptr}
    (h : connector_side d2 = connector_side d) (hl : connector_list d cs) :
    connector_list d2 cs := by
  simp only [connector_side, Prod.mk.injEq] at h
  obtain ⟨h1, h2, h3, _, h5, _⟩ := h
  unfold connector_list connector_next_of connector_prev_of at *
  rw [h1, h2, h3, h5]; exact hl

theorem pn_driver_remove_connector_fields (d : pn_driver_t) (a : ptr) (c : pn_connector_t)
    (ha : d.connectors a = some c) (hdrv : c.driver = true) :
    ∃ d2, pn_driver_remove_connector d a = some d2 ∧
      d2.connectors = set_connector (LL_REMOVE_connector d a c).connectors a
        (fun x => { x with driver := false }) ∧
      d2.connector_head = (LL_REMOVE_connector d a c).connector_head ∧
      d2.connector_tail = (LL_REMOVE_connector d a c).connector_tail ∧
      d2.connector_next =
        (if d.connector_next = some a then c.connector_next else d.connector_next) ∧
      d2.connector_count = d.connector_count - 1 ∧
      d2.closed_count = (if c.closed = true then d.closed_count - 1 else d.closed_count) ∧
      listener_side d2 = listener_side d ∧ d2.trace = d.trace ∧ d2.ctrl = d.ctrl := by
  unfold pn_driver_remove_connector
  simp only [ha, hdrv, Bool.not_true, Bool.false_eq_true, if_false]
  by_cases hcl : c.closed = true <;> by_cases hcur : d.connector_next = some a <;>
    simp [hcl, hcur, LL_REMOVE_connector, listener_side, eq_comm]

theorem connector_list_split {d : pn_driver_t} {l r : List ptr} {a : ptr} {c : pn_connector_t}
    (hl : connector_list d (l ++ a :: r)) (ha : d.connectors a = some c) :
    c.connector_next = r.head? ∧ c.connector_prev = l.getLast? ∧
      (d.connector_head = some a ↔ l = []) ∧ (d.connector_tail = some a ↔ r = []) := by
  obtain ⟨hnd, hnext, hprev, _, _⟩ := hl
  have hrev : (l ++ a :: r).reverse = r.reverse ++ a :: l.reverse := by simp
  rw [hrev] at hprev
  have h1 := (chain_split hnext).1
  have h2 := (chain_split hprev).1
  simp only [connector_next_of, connector_prev_of, ha, Option.map_some', Option.some.injEq,
    List.head?_reverse] at h1 h2
  have hal : a ∉ l := fun h => by
    have := List.nodup_append.1 hnd
    exact this.2.2 h (List.mem_cons_self _ _) 
  have har : a ∉ r := fun h => by
    have := (List.nodup_append.1 hnd).2.1
    exact (List.nodup_cons.1 this).1 h
  refine ⟨h1, h2, ?_, ?_⟩
  · rw [chain_head hnext]
    cases l with
    | nil => simp
    | cons x l =>
      simp only [List.cons_append, List.head?_cons, Option.some.injEq, reduceCtorEq, iff_false]
      rintro rfl; exact hal (List.mem_cons_self _ _)
  · rw [chain_head hprev]
    cases hr : r.reverse with
    | nil => simp at hr; simp [hr]
    | cons x t =>
      have hx : x ∈ r := by
        have : x ∈ r.reverse := by rw [hr]; exact List.mem_cons_self _ _
        simpa using this
      have hne : r ≠ [] := by rintro rfl; simp at hr
      simp only [List.cons_append, List.head?_cons, Option.some.injEq, hne, iff_false]
      rintro rfl; exact har hx

theorem connector_free_effect {d : pn_driver_t} {l r : List ptr} {a : ptr} {c : pn_connector_t}
    (hl : connector_list d (l ++ a :: r)) (ha : d.connectors a = some c) :
    ∃ d2, pn_connector_free d (some a) = some d2 ∧
      connector_list d2 (l ++ r) ∧
      d2.connectors a = none ∧
      (∀ p, p ≠ a →
        (d2.connectors p).map connector_payload = (d.connectors p).map connector_payload) ∧
      d2.connector_next = (if d.connector_next = some a then r.head? else d.connector_next) ∧
      d2.closed_count = (if c.closed = true then d.closed_count - 1 else d.closed_count) ∧
      listener_side d2 = listener_side d ∧ d2.trace = d.trace ∧ d2.ctrl = d.ctrl := by
  have hdrv := (hl.2.2.2.1 a c ha).1
  obtain ⟨hcn, hcp, hhd, htl⟩ := connector_list_split hl ha
  obtain ⟨d1, hrem, hconn, hhead, htail, hnext, hcount, hclosed, hside, htr, hct⟩ :=
    pn_driver_remove_connector_fields d a c ha hdrv
  obtain ⟨hnd, hnx, hpv, hmem, hlen⟩ := hl
  have hview : ∀ p, p ≠ a →
      (if p = a then none else d1.connectors p) = (LL_REMOVE_connector d a c).connectors p := by
    intro p hp
    rw [if_neg hp, hconn]
    simp [set_connector, hp]
  have hpay : ∀ p, p ≠ a →
      (if p = a then none else d1.connectors p).map connector_payload =
        (d.connectors p).map connector_payload := by
    intro p hp
    rw [hview p hp, LL_REMOVE_connector_payload]
  have hal : a ∉ l := fun h => (List.nodup_append.1 hnd).2.2 h (List.mem_cons_self _ _)
  have har : a ∉ r := fun h => (List.nodup_cons.1 (List.nodup_append.1 hnd).2.1).1 h
  have hnd2 : (l ++ r).Nodup := by
    have h1 := List.nodup_append.1 hnd
    refine List.nodup_append.2 ⟨h1.1, (List.nodup_cons.1 h1.2.1).2, ?_⟩
    intro x hx1 hx2
    exact h1.2.2 hx1 (List.mem_cons_of_mem _ hx2)
  have hne : ∀ p ∈ l ++ r, p ≠ a := by
    intro p hp
    rintro rfl
    rcases List.mem_append.1 hp with h | h
    · exact hal h
    · exact har h
  have hlive : ∀ p ∈ l ++ r, ∃ x, d.connectors p = some x := by
    intro p hp
    have hp2 : p ∈ l ++ a :: r := by
      rcases List.mem_append.1 hp with h | h
      · exact List.mem_append_left _ h
      · exact List.mem_append_right _ (List.mem_cons_of_mem _ h)
    obtain ⟨n, hn⟩ := chain_live hnx p hp2
    cases hx : d.connectors p with
    | none => simp [connector_next_of, hx] at hn
    | some x => exact ⟨x, rfl⟩
  refine ⟨{ d1 with connectors := fun p => if p = a then none else d1.connectors p }, ?_, ?_, ?_,
    hpay, ?_, hclosed, hside, htr, hct⟩
  · simp [pn_connector_free, ha, hdrv, hrem]
  · refine ⟨hnd2, ?_, ?_, ?_, ?_⟩
    · have := chain_remove (g := connector_next_of
        { d1 with connectors := fun p => if p = a then none else d1.connectors p }) hnx hnd
        (by
          intro p hp
          obtain ⟨x, hx⟩ := hlive p hp
          have h1 := LL_REMOVE_connector_next d a c p
          simp only [connector_next_of] at h1 ⊢
          rw [hview p (hne p hp), h1, hcp, hcn, hx]
          simp)
      have hh : (if l = [] then r.head? else d.connector_head) = d1.connector_head := by
        rw [hhead]
        simp only [LL_REMOVE_connector, hcn]
        by_cases hl0 : l = []
        · simp [hl0, hhd.2 hl0]
        · have : ¬ d.connector_head = some a := fun h => hl0 (hhd.1 h)
          simp [hl0, this]
      rw [hh] at this
      exact this
    · have hrev : (l ++ a :: r).reverse = r.reverse ++ a :: l.reverse := by simp
      rw [hrev] at hpv
      have := chain_remove (g := connector_prev_of
        { d1 with connectors := fun p => if p = a then none else d1.connectors p }) hpv
        (by rw [← hrev]; exact List.nodup_reverse.2 hnd)
        (by
          intro p hp
          have hp2 : p ∈ l ++ r := by
            rcases List.mem_append.1 hp with h | h
            · exact List.mem_append_right _ (List.mem_reverse.1 h)
            · exact List.mem_append_left _ (List.mem_reverse.1 h)
          obtain ⟨x, hx⟩ := hlive p hp2
          have h1 := LL_REMOVE_connector_prev d a c p
          simp only [connector_prev_of] at h1 ⊢
          rw [hview p (hne p hp2), h1, hcp, hcn, hx]
          simp [List.getLast?_reverse, List.head?_reverse])
      have hh : (if r.reverse = [] then l.reverse.head? else d.connector_tail) =
          d1.connector_tail := by
        rw [htail]
        simp only [LL_REMOVE_connector, hcp]
        by_cases hr0 : r = []
        · simp [hr0, htl.2 hr0, List.head?_reverse]
        · have : ¬ d.connector_tail = some a := fun h => hr0 (htl.1 h)
          simp [hr0, this]
      rw [hh] at this
      simpa using this
    · intro p x hp
      have hpa : p ≠ a := by
        rintro rfl
        simp at hp
      have h1 := hpay p hpa
      simp only [] at hp
      rw [hp] at h1
      cases hx : d.connectors p with
      | none => simp [hx] at h1
      | some y =>
        rw [hx] at h1
        have h2 : connector_payload x = connector_payload y := by simpa using h1
        have h3 : x.driver = y.driver := congrArg (fun z => z.driver) h2
        have h4 := hmem p y hx
        refine ⟨by rw [h3]; exact h4.1, ?_⟩
        rcases List.mem_append.1 h4.2 with h | h
        · exact List.mem_append_left _ h
        · rcases List.mem_cons.1 h with h | h
          · exact absurd h hpa
          · exact List.mem_append_right _ h
    · show d1.connector_count = _
      rw [hcount, hlen]
      simp
      omega
  · simp
  · show d1.connector_next = _
    rw [hnext, hcn]

theorem LL_REMOVE_listener_next (d : pn_driver_t) (a : ptr) (c : pn_listener_t) (p : ptr) :
    listener_next_of (LL_REMOVE_listener d a c) p =
      if c.listener_prev = some p then (d.listeners p).map (fun _ => c.listener_next)
      else listener_next_of d p := by
  unfold listener_next_of LL_REMOVE_listener
  cases hp : c.listener_prev <;> cases hn : c.listener_next <;>
    simp only [set_listener] <;> (repeat' split) <;>
    (try simp_all [Option.map_map, Function.comp_def])

theorem LL_REMOVE_listener_prev (d : pn_driver_t) (a : ptr) (c : pn_listener_t) (p : ptr) :
    listener_prev_of (LL_REMOVE_listener d a c) p =
      if c.listener_next = some p then (d.listeners p).map (fun _ => c.listener_prev)
      else listener_prev_of d p := by
  unfold listener_prev_of LL_REMOVE_listener
  cases hp : c.listener_prev <;> cases hn : c.listener_next <;>
    simp only [set_listener] <;> (repeat' split) <;>
    (try simp_all [Option.map_map, Function.comp_def])

theorem LL_REMOVE_listener_payload (d : pn_driver_t) (a : ptr) (c : pn_listener_t) (p : ptr) :
    ((LL_REMOVE_listener d a c).listeners p).map listener_payload =
      (d.listeners p).map listener_payload := by
  unfold LL_REMOVE_listener
  cases hp : c.listener_prev <;> cases hn : c.listener_next <;>
    simp only [set_listener] <;> (repeat' split) <;>
    (try simp_all [Option.map_map, Function.comp_def]) <;> (try rfl)



theorem pn_driver_remove_listener_fields (d : pn_driver_t) (a : ptr) (c : pn_listener_t)
    (ha : d.listeners a = some c) (hdrv : c.driver = true) :
    ∃ d2, pn_driver_remove_listener d a = some d2 ∧
      d2.listeners = set_listener (LL_REMOVE_listener d a c).listeners a
        (fun x => { x with driver := false }) ∧
      d2.listener_head = (LL_REMOVE_listener d a c).listener_head ∧
      d2.listener_tail = (LL_REMOVE_listener d a c).listener_tail ∧
      d2.listener_next =
        (if d.listener_next = some a then c.listener_next else d.listener_next) ∧
      d2.listener_count = d.listener_count - 1 ∧
      connector_side d2 = connector_side d ∧ d2.trace = d.trace ∧ d2.ctrl = d.ctrl := by
  unfold pn_driver_remove_listener
  simp only [ha, hdrv, Bool.not_true, Bool.false_eq_true, if_false]
  by_cases hcur : d.listener_next = some a <;>
    simp [hcur, LL_REMOVE_listener, connector_side, eq_comm]



theorem listener_list_split {d : pn_driver_t} {l r : List ptr} {a : ptr} {c : pn_listener_t}
    (hl : listener_list d (l ++ a :: r)) (ha : d.listeners a = some c) :
    c.listener_next = r.head? ∧ c.listener_prev = l.getLast? ∧
      (d.listener_head = some a ↔ l = []) ∧ (d.listener_tail = some a ↔ r = []) := by
  obtain ⟨hnd, hnext, hprev, _, _⟩ := hl
  have hrev : (l ++ a :: r).reverse = r.reverse ++ a :: l.reverse := by simp
  rw [hrev] at hprev
  have h1 := (chain_split hnext).1
  have h2 := (chain_split hprev).1
  simp only [listener_next_of, listener_prev_of, ha, Option.map_some', Option.some.injEq,
    List.head?_reverse] at h1 h2
  have hal : a ∉ l := fun h => by
    have := List.nodup_append.1 hnd
    exact this.2.2 h (List.mem_cons_self _ _) 
  have har : a ∉ r := fun h => by
    have := (List.nodup_append.1 hnd).2.1
    exact (List.nodup_cons.1 this).1 h
  refine ⟨h1, h2, ?_, ?_⟩
  · rw [chain_head hnext]
    cases l with
    | nil => simp
    | cons x l =>
      simp only [List.cons_append, List.head?_cons, Option.some.injEq, reduceCtorEq, iff_false]
      rintro rfl; exact hal (List.mem_cons_self _ _)
  · rw [chain_head hprev]
    cases hr : r.reverse with
    | nil => simp at hr; simp [hr]
    | cons x t =>
      have hx : x ∈ r := by
        have : x ∈ r.reverse := by rw [hr]; exact List.mem_cons_self _ _
        simpa using this
      have hne : r ≠ [] := by rintro rfl; simp at hr
      simp only [List.cons_append, List.head?_cons, Option.some.injEq, hne, iff_false]
      rintro rfl; exact har hx



theorem listener_free_effect {d : pn_driver_t} {l r : List ptr} {a : ptr} {c : pn_listener_t}
    (hl : listener_list d (l ++ a :: r)) (ha : d.listeners a = some c) :
    ∃ d2, pn_listener_free d (some a) = some d2 ∧
      listener_list d2 (l ++ r) ∧
      d2.listeners a = none ∧
      (∀ p, p ≠ a →
        (d2.listeners p).map listener_payload = (d.listeners p).map listener_payload) ∧
      d2.listener_next = (if d.listener_next = some a then r.head? else d.listener_next) ∧
      connector_side d2 = connector_side d ∧ d2.trace = d.trace ∧ d2.ctrl = d.ctrl := by
  have hdrv := (hl.2.2.2.1 a c ha).1
  obtain ⟨hcn, hcp, hhd, htl⟩ := listener_list_split hl ha
  obtain ⟨d1, hrem, hconn, hhead, htail, hnext, hcount, hside, htr, hct⟩ :=
    pn_driver_remove_listener_fields d a c ha hdrv
  obtain ⟨hnd, hnx, hpv, hmem, hlen⟩ := hl
  have hview : ∀ p, p ≠ a →
      (if p = a then none else d1.listeners p) = (LL_REMOVE_listener d a c).listeners p := by
    intro p hp
    rw [if_neg hp, hconn]
    simp [set_listener, hp]
  have hpay : ∀ p, p ≠ a →
      (if p = a then none else d1.listeners p).map listener_payload =
        (d.listeners p).map listener_payload := by
    intro p hp
    rw [hview p hp, LL_REMOVE_listener_payload]
  have hal : a ∉ l := fun h => (List.nodup_append.1 hnd).2.2 h (List.mem_cons_self _ _)
  have har : a ∉ r := fun h => (List.nodup_cons.1 (List.nodup_append.1 hnd).2.1).1 h
  have hnd2 : (l ++ r).Nodup := by
    have h1 := List.nodup_append.1 hnd
    refine List.nodup_append.2 ⟨h1.1, (List.nodup_cons.1 h1.2.1).2, ?_⟩
    intro x hx1 hx2
    exact h1.2.2 hx1 (List.mem_cons_of_mem _ hx2)
  have hne : ∀ p ∈ l ++ r, p ≠ a := by
    intro p hp
    rintro rfl
    rcases List.mem_append.1 hp with h | h
    · exact hal h
    · exact har h
  have hlive : ∀ p ∈ l ++ r, ∃ x, d.listeners p = some x := by
    intro p hp
    have hp2 : p ∈ l ++ a :: r := by
      rcases List.mem_append.1 hp with h | h
      · exact List.mem_append_left _ h
      · exact List.mem_append_right _ (List.mem_cons_of_mem _ h)
    obtain ⟨n, hn⟩ := chain_live hnx p hp2
    cases hx : d.listeners p with
    | none => simp [listener_next_of, hx] at hn
    | some x => exact ⟨x, rfl⟩
  refine ⟨{ d1 with listeners := fun p => if p = a then none else d1.listeners p }, ?_, ?_, ?_,
    hpay, ?_, hside, htr, hct⟩
  · simp [pn_listener_free, ha, hdrv, hrem]
  · refine ⟨hnd2, ?_, ?_, ?_, ?_⟩
    · have := chain_remove (g := listener_next_of
        { d1 with listeners := fun p => if p = a then none else d1.listeners p }) hnx hnd
        (by
          intro p hp
          obtain ⟨x, hx⟩ := hlive p hp
          have h1 := LL_REMOVE_listener_next d a c p
          simp only [listener_next_of] at h1 ⊢
          rw [hview p (hne p hp), h1, hcp, hcn, hx]
          simp)
      have hh : (if l = [] then r.head? else d.listener_head) = d1.listener_head := by
        rw [hhead]
        simp only [LL_REMOVE_listener, hcn]
        by_cases hl0 : l = []
        · simp [hl0, hhd.2 hl0]
        · have : ¬ d.listener_head = some a := fun h => hl0 (hhd.1 h)
          simp [hl0, this]
      rw [hh] at this
      exact this
    · have hrev : (l ++ a :: r).reverse = r.reverse ++ a :: l.reverse := by simp
      rw [hrev] at hpv
      have := chain_remove (g := listener_prev_of
        { d1 with listeners := fun p => if p = a then none else d1.listeners p }) hpv
        (by rw [← hrev]; exact List.nodup_reverse.2 hnd)
        (by
          intro p hp
          have hp2 : p ∈ l ++ r := by
            rcases List.mem_append.1 hp with h | h
            · exact List.mem_append_right _ (List.mem_reverse.1 h)
            · exact List.mem_append_left _ (List.mem_reverse.1 h)
          obtain ⟨x, hx⟩ := hlive p hp2
          have h1 := LL_REMOVE_listener_prev d a c p
          simp only [listener_prev_of] at h1 ⊢
          rw [hview p (hne p hp2), h1, hcp, hcn, hx]
          simp [List.getLast?_reverse, List.head?_reverse])
      have hh : (if r.reverse = [] then l.reverse.head? else d.listener_tail) =
          d1.listener_tail := by
        rw [htail]
        simp only [LL_REMOVE_listener, hcp]
        by_cases hr0 : r = []
        · simp [hr0, htl.2 hr0, List.head?_reverse]
        · have : ¬ d.listener_tail = some a := fun h => hr0 (htl.1 h)
          simp [hr0, this]
      rw [hh] at this
      simpa using this
    · intro p x hp
      have hpa : p ≠ a := by
        rintro rfl
        simp at hp
      have h1 := hpay p hpa
      simp only [] at hp
      rw [hp] at h1
      cases hx : d.listeners p with
      | none => simp [hx] at h1
      | some y =>
        rw [hx] at h1
        have h2 : listener_payload x = listener_payload y := by simpa using h1
        have h3 : x.driver = y.driver := congrArg (fun z => z.driver) h2
        have h4 := hmem p y hx
        refine ⟨by rw [h3]; exact h4.1, ?_⟩
        rcases List.mem_append.1 h4.2 with h | h
        · exact List.mem_append_left _ h
        · rcases List.mem_cons.1 h with h | h
          · exact absurd h hpa
          · exact List.mem_append_right _ h
    · show d1.listener_count = _
      rw [hcount, hlen]
      simp
      omega
  · simp
  · show d1.listener_next = _
    rw [hnext, hcn]

theorem LL_ADD_connector_next (d : pn_driver_t) (a p : ptr) :
    connector_next_of (LL_ADD_connector d a) p =
      if d.connector_tail = some p then (d.connectors p).map (fun _ => some a)
      else if p = a then (d.connectors p).map (fun _ => none)
      else connector_next_of d p := by
  unfold connector_next_of LL_ADD_connector
  cases ht : d.connector_tail <;>
    simp only [set_connector] <;> (repeat' split) <;>
    (try simp_all [Option.map_map, Function.comp_def])

theorem LL_ADD_connector_prev (d : pn_driver_t) (a p : ptr) :
    connector_prev_of (LL_ADD_connector d a) p =
      if p = a then (d.connectors p).map (fun _ => d.connector_tail)
      else connector_prev_of d p := by
  unfold connector_prev_of LL_ADD_connector
  cases ht : d.connector_tail <;>
    simp only [set_connector] <;> (repeat' split) <;>
    (try simp_all [Option.map_map, Function.comp_def])

theorem LL_ADD_connector_payload (d : pn_driver_t) (a p : ptr) :
    ((LL_ADD_connector d a).connectors p).map connector_payload =
      (d.connectors p).map connector_payload := by
  unfold LL_ADD_connector
  cases ht : d.connector_tail <;>
    simp only [set_connector] <;> (repeat' split) <;>
    (try simp_all [Option.map_map, Function.comp_def]) <;> (try rfl)

theorem pn_driver_add_connector_fields (d : pn_driver_t) (a : ptr) (c : pn_connector_t)
    (ha : d.connectors a = some c) (hdrv : c.driver = true) :
    ∃ d2, pn_driver_add_connector d a = some d2 ∧
      d2.connectors = set_connector (LL_ADD_connector d a).connectors a
        (fun x => { x with driver := true }) ∧
      d2.connector_head = (if d.connector_head.isNone then some a else d.connector_head) ∧
      d2.connector_tail = some a ∧
      d2.connector_next = d.connector_next ∧
      d2.connector_count = d.connector_count + 1 ∧
      d2.closed_count = d.closed_count ∧
      listener_side d2 = listener_side d ∧ d2.trace = d.trace ∧ d2.ctrl = d.ctrl := by
  unfold pn_driver_add_connector
  simp only [ha, hdrv, Bool.not_true, Bool.false_eq_true, if_false]
  simp [LL_ADD_connector, listener_side]

theorem connector_list_live {d : pn_driver_t} {cs : List ptr} (hl : connector_list d cs) :
    ∀ p ∈ cs, ∃ x, d.connectors p = some x := by
  intro p hp
  obtain ⟨n, hn⟩ := chain_live hl.2.1 p hp
  cases hx : d.connectors p with
  | none => simp [connector_next_of, hx] at hn
  | some x => exact ⟨x, rfl⟩

theorem connector_add_effect {d : pn_driver_t} {cs : List ptr} {a : ptr} {c : pn_connector_t}
    (hnd : (cs ++ [a]).Nodup)
    (hnx : chain (connector_next_of d) d.connector_head cs)
    (hpv : chain (connector_prev_of d) d.connector_tail cs.reverse)
    (hmem : ∀ p x, d.connectors p = some x → x.driver = true ∧ p ∈ cs ++ [a])
    (hlen : d.connector_count = cs.length)
    (ha : d.connectors a = some c) :
    ∃ d2, pn_driver_add_connector d a = some d2 ∧
      connector_list d2 (cs ++ [a]) ∧
      (∀ p, (d2.connectors p).map connector_payload = (d.connectors p).map connector_payload) ∧
      d2.connector_next = d.connector_next ∧
      d2.closed_count = d.closed_count ∧
      listener_side d2 = listener_side d ∧ d2.trace = d.trace ∧ d2.ctrl = d.ctrl := by
  have hdrv := (hmem a c ha).1
  obtain ⟨d2, hadd, hconn, hhead, htail, hnext, hcount, hclosed, hside, htr, hct⟩ :=
    pn_driver_add_connector_fields d a c ha hdrv
  have hacs : a ∉ cs := by
    intro h
    have := (List.nodup_append.1 hnd).2.2 h (List.mem_singleton_self a)
    exact this
  have hnd1 : cs.Nodup := (List.nodup_append.1 hnd).1
  have hlive : ∀ p ∈ cs, ∃ x, d.connectors p = some x := by
    intro p hp
    obtain ⟨n, hn⟩ := chain_live hnx p hp
    cases hx : d.connectors p with
    | none => simp [connector_next_of, hx] at hn
    | some x => exact ⟨x, rfl⟩
  have hnext2 : ∀ p, connector_next_of d2 p = connector_next_of (LL_ADD_connector d a) p := by
    intro p
    simp only [connector_next_of, hconn, set_connector]
    split <;> simp [Option.map_map, Function.comp_def]
  have hprev2 : ∀ p, connector_prev_of d2 p = connector_prev_of (LL_ADD_connector d a) p := by
    intro p
    simp only [connector_prev_of, hconn, set_connector]
    split <;> simp [Option.map_map, Function.comp_def]
  have hpay : ∀ p, (d2.connectors p).map connector_payload =
      (d.connectors p).map connector_payload := by
    intro p
    rw [← LL_ADD_connector_payload d a p, hconn]
    simp only [set_connector]
    split
    · rename_i h
      subst h
      have hx2 := LL_ADD_connector_payload d p p
      rw [ha] at hx2
      cases hz : (LL_ADD_connector d p).connectors p with
      | none => simp
      | some z =>
        rw [hz] at hx2
        have h2 : connector_payload z = connector_payload c := by simpa using hx2
        have h3 : z.driver = c.driver := congrArg (fun z => z.driver) h2
        simp only [Option.map_some', Option.some.injEq]
        rw [hdrv] at h3
        cases z
        simp_all [connector_payload]
    · rfl
  have htl : d.connector_tail = cs.getLast? := by
    rw [chain_head hpv, List.head?_reverse]
  refine ⟨d2, hadd, ⟨hnd, ?_, ?_, ?_, ?_⟩, hpay, hnext, hclosed, hside, htr, hct⟩
  · have := chain_snoc (g := connector_next_of d2) (q := a)
      (by rw [hnext2, LL_ADD_connector_next, htl, if_neg, if_pos rfl, ha]
          · rfl
          · intro h; exact hacs (List.mem_of_getLast?_eq_some h))
      hnx hnd1
      (by
        intro p hp
        obtain ⟨x, hx⟩ := hlive p hp
        have hpa : p ≠ a := by rintro rfl; exact hacs hp
        rw [hnext2, LL_ADD_connector_next, htl, hx]
        simp [hpa])
    rw [hhead]
    exact this
  · rw [List.reverse_append, htail]
    refine ⟨rfl, d.connector_tail, ?_, ?_⟩
    · rw [hprev2, LL_ADD_connector_prev, if_pos rfl, ha]; rfl
    · refine chain_congr ?_ hpv
      intro p hp
      have hpa : p ≠ a := by rintro rfl; exact hacs (List.mem_reverse.1 hp)
      rw [hprev2, LL_ADD_connector_prev, if_neg hpa]
  · intro p x hp
    have h1 := hpay p
    rw [hp] at h1
    cases hx : d.connectors p with
    | none => simp [hx] at h1
    | some y =>
      rw [hx] at h1
      have h2 : connector_payload x = connector_payload y := by simpa using h1
      have h3 : x.driver = y.driver := congrArg (fun z => z.driver) h2
      have h4 := hmem p y hx
      exact ⟨by rw [h3]; exact h4.1, h4.2⟩
  · rw [hcount, hlen]; simp

theorem connector_fd_effect {d : pn_driver_t} {cs : List ptr} (hl : connector_list d cs)
    (a : ptr) (hfresh : d.connectors a = none) (transport sasl : Option ptr) (fd : Int)
    (context : Option ptr) :
    ∃ d2, pn_connector_fd (some a) transport sasl d fd context = some (some a, d2) ∧
      connector_list d2 (cs ++ [a]) ∧
      (∀ p, p ≠ a →
        (d2.connectors p).map connector_payload = (d.connectors p).map connector_payload) ∧
      (∃ c, d2.connectors a = some c) ∧
      d2.connector_next = d.connector_next ∧
      d2.closed_count = d.closed_count ∧
      listener_side d2 = listener_side d ∧ d2.trace = d.trace ∧ d2.ctrl = d.ctrl := by
  obtain ⟨hnd, hnx, hpv, hmem, hlen⟩ := hl
  have hacs : a ∉ cs := by
    intro h
    obtain ⟨n, hn⟩ := chain_live hnx a h
    simp [connector_next_of, hfresh] at hn
  unfold pn_connector_fd
  simp only [hfresh, Option.isSome_none, Bool.false_eq_true, if_false]
  generalize hc1 : pn_connector_trace _ d.trace = c1
  have hc1d : c1.driver = true := by rw [← hc1]; rfl
  have hnx1 : ∀ p, p ≠ a → (fun p => if p = a then some c1 else d.connectors p) p
      = d.connectors p := fun p hp => by simp [hp]
  obtain ⟨d2, hadd, hlist, hpay, hnext, hclosed, hside, htr, hct⟩ :=
    connector_add_effect (d := { d with connectors := fun p => if p = a then some c1 else d.connectors p })
      (a := a) (c := c1)
      (List.nodup_append.2 ⟨hnd, List.nodup_singleton a, by
        intro x hx1 hx2
        rw [List.mem_singleton] at hx2
        subst hx2
        exact hacs hx1⟩)
      (chain_congr (fun p hp => by
        have hpa : p ≠ a := by rintro rfl; exact hacs hp
        simp [connector_next_of, hpa]) hnx)
      (chain_congr (fun p hp => by
        have hpa : p ≠ a := by rintro rfl; exact hacs (List.mem_reverse.1 hp)
        simp [connector_prev_of, hpa]) hpv)
      (by
        intro p x hp
        by_cases hpa : p = a
        · subst hpa
          simp only [if_true, Option.some.injEq] at hp
          subst hp
          exact ⟨hc1d, by simp⟩
        · simp only [if_neg hpa] at hp
          exact ⟨(hmem p x hp).1, List.mem_append_left _ (hmem p x hp).2⟩)
      hlen (by simp)
  refine ⟨d2, by rw [hadd]; rfl, hlist, ?_, ?_, hnext, hclosed, hside, htr, hct⟩
  · intro p hp
    rw [hpay p]
    simp [hp]
  · have := hpay a
    simp only [if_true, Option.map_some'] at this
    cases hz : d2.connectors a with
    | none => rw [hz] at this; simp at this
    | some z => exact ⟨z, rfl⟩

theorem LL_ADD_listener_next (d : pn_driver_t) (a p : ptr) :
    listener_next_of (LL_ADD_listener d a) p =
      if d.listener_tail = some p then (d.listeners p).map (fun _ => some a)
      else if p = a then (d.listeners p).map (fun _ => none)
      else listener_next_of d p := by
  unfold listener_next_of LL_ADD_listener
  cases ht : d.listener_tail <;>
    simp only [set_listener] <;> (repeat' split) <;>
    (try simp_all [Option.map_map, Function.comp_def])

theorem LL_ADD_listener_prev (d : pn_driver_t) (a p : ptr) :
    listener_prev_of (LL_ADD_listener d a) p =
      if p = a then (d.listeners p).map (fun _ => d.listener_tail)
      else listener_prev_of d p := by
  unfold listener_prev_of LL_ADD_listener
  cases ht : d.listener_tail <;>
    simp only [set_listener] <;> (repeat' split) <;>
    (try simp_all [Option.map_map, Function.comp_def])

theorem LL_ADD_listener_payload (d : pn_driver_t) (a p : ptr) :
    ((LL_ADD_listener d a).listeners p).map listener_payload =
      (d.listeners p).map listener_payload := by
  unfold LL_ADD_listener
  cases ht : d.listener_tail <;>
    simp only [set_listener] <;> (repeat' split) <;>
    (try simp_all [Option.map_map, Function.comp_def]) <;> (try rfl)

theorem pn_driver_add_listener_fields (d : pn_driver_t) (a : ptr) (c : pn_listener_t)
    (ha : d.listeners a = some c) (hdrv : c.driver = true) :
    ∃ d2, pn_driver_add_listener d a = some d2 ∧
      d2.listeners = set_listener (LL_ADD_listener d a).listeners a
        (fun x => { x with driver := true }) ∧
      d2.listener_head = (if d.listener_head.isNone then some a else d.listener_head) ∧
      d2.listener_tail = some a ∧
      d2.listener_next = d.listener_next ∧
      d2.listener_count = d.listener_count + 1 ∧
      connector_side d2 = connector_side d ∧ d2.trace = d.trace ∧ d2.ctrl = d.ctrl := by
  unfold pn_driver_add_listener
  simp only [ha, hdrv, Bool.not_true, Bool.false_eq_true, if_false]
  simp [LL_ADD_listener, connector_side]



theorem listener_list_live {d : pn_driver_t} {cs : List ptr} (hl : listener_list d cs) :
    ∀ p ∈ cs, ∃ x, d.listeners p = some x := by
  intro p hp
  obtain ⟨n, hn⟩ := chain_live hl.2.1 p hp
  cases hx : d.listeners p with
  | none => simp [listener_next_of, hx] at hn
  | some x => exact ⟨x, rfl⟩

theorem listener_add_effect {d : pn_driver_t} {cs : List ptr} {a : ptr} {c : pn_listener_t}
    (hnd : (cs ++ [a]).Nodup)
    (hnx : chain (listener_next_of d) d.listener_head cs)
    (hpv : chain (listener_prev_of d) d.listener_tail cs.reverse)
    (hmem : ∀ p x, d.listeners p = some x → x.driver = true ∧ p ∈ cs ++ [a])
    (hlen : d.listener_count = cs.length)
    (ha : d.listeners a = some c) :
    ∃ d2, pn_driver_add_listener d a = some d2 ∧
      listener_list d2 (cs ++ [a]) ∧
      (∀ p, (d2.listeners p).map listener_payload = (d.listeners p).map listener_payload) ∧
      d2.listener_next = d.listener_next ∧
      connector_side d2 = connector_side d ∧ d2.trace = d.trace ∧ d2.ctrl = d.ctrl := by
  have hdrv := (hmem a c ha).1
  obtain ⟨d2, hadd, hconn, hhead, htail, hnext, hcount, hside, htr, hct⟩ :=
    pn_driver_add_listener_fields d a c ha hdrv
  have hacs : a ∉ cs := by
    intro h
    have := (List.nodup_append.1 hnd).2.2 h (List.mem_singleton_self a)
    exact this
  have hnd1 : cs.Nodup := (List.nodup_append.1 hnd).1
  have hlive : ∀ p ∈ cs, ∃ x, d.listeners p = some x := by
    intro p hp
    obtain ⟨n, hn⟩ := chain_live hnx p hp
    cases hx : d.listeners p with
    | none => simp [listener_next_of, hx] at hn
    | some x => exact ⟨x, rfl⟩
  have hnext2 : ∀ p, listener_next_of d2 p = listener_next_of (LL_ADD_listener d a) p := by
    intro p
    simp only [listener_next_of, hconn, set_listener]
    split <;> simp [Option.map_map, Function.comp_def]
  have hprev2 : ∀ p, listener_prev_of d2 p = listener_prev_of (LL_ADD_listener d a) p := by
    intro p
    simp only [listener_prev_of, hconn, set_listener]
    split <;> simp [Option.map_map, Function.comp_def]
  have hpay : ∀ p, (d2.listeners p).map listener_payload =
      (d.listeners p).map listener_payload := by
    intro p
    rw [← LL_ADD_listener_payload d a p, hconn]
    simp only [set_listener]
    split
    · rename_i h
      subst h
      have hx2 := LL_ADD_listener_payload d p p
      rw [ha] at hx2
      cases hz : (LL_ADD_listener d p).listeners p with
      | none => simp
      | some z =>
        rw [hz] at hx2
        have h2 : listener_payload z = listener_payload c := by simpa using hx2
        have h3 : z.driver = c.driver := congrArg (fun z => z.driver) h2
        simp only [Option.map_some', Option.some.injEq]
        rw [hdrv] at h3
        cases z
        simp_all [listener_payload]
    · rfl
  have htl : d.listener_tail = cs.getLast? := by
    rw [chain_head hpv, List.head?_reverse]
  refine ⟨d2, hadd, ⟨hnd, ?_, ?_, ?_, ?_⟩, hpay, hnext, hside, htr, hct⟩
  · have := chain_snoc (g := listener_next_of d2) (q := a)
      (by rw [hnext2, LL_ADD_listener_next, htl, if_neg, if_pos rfl, ha]
          · rfl
          · intro h; exact hacs (List.mem_of_getLast?_eq_some h))
      hnx hnd1
      (by
        intro p hp
        obtain ⟨x, hx⟩ := hlive p hp
        have hpa : p ≠ a := by rintro rfl; exact hacs hp
        rw [hnext2, LL_ADD_listener_next, htl, hx]
        simp [hpa])
    rw [hhead]
    exact this
  · rw [List.reverse_append, htail]
    refine ⟨rfl, d.listener_tail, ?_, ?_⟩
    · rw [hprev2, LL_ADD_listener_prev, if_pos rfl, ha]; rfl
    · refine chain_congr ?_ hpv
      intro p hp
      have hpa : p ≠ a := by rintro rfl; exact hacs (List.mem_reverse.1 hp)
      rw [hprev2, LL_ADD_listener_prev, if_neg hpa]
  · intro p x hp
    have h1 := hpay p
    rw [hp] at h1
    cases hx : d.listeners p with
    | none => simp [hx] at h1
    | some y =>
      rw [hx] at h1
      have h2 : listener_payload x = listener_payload y := by simpa using h1
      have h3 : x.driver = y.driver := congrArg (fun z => z.driver) h2
      have h4 := hmem p y hx
      exact ⟨by rw [h3]; exact h4.1, h4.2⟩
  · rw [hcount, hlen]; simp

theorem listener_fd_effect {d : pn_driver_t} {cs : List ptr} (hl : listener_list d cs)
    (a : ptr) (hfresh : d.listeners a = none) (fd : Int) (context : Option ptr) :
    ∃ d2, pn_listener_fd (some a) d fd context = some (some a, d2) ∧
      listener_list d2 (cs ++ [a]) ∧
      (∀ p, p ≠ a →
        (d2.listeners p).map listener_payload = (d.listeners p).map listener_payload) ∧
      (∃ c, d2.listeners a = some c) ∧
      d2.listener_next = d.listener_next ∧
      connector_side d2 = connector_side d ∧ d2.trace = d.trace ∧ d2.ctrl = d.ctrl := by
  obtain ⟨hnd, hnx, hpv, hmem, hlen⟩ := hl
  have hacs : a ∉ cs := by
    intro h
    obtain ⟨n, hn⟩ := chain_live hnx a h
    simp [listener_next_of, hfresh] at hn
  unfold pn_listener_fd
  simp only [hfresh, Option.isSome_none, Bool.false_eq_true, if_false]
  generalize hc1 : (pn_listener_t.mk true none none false fd context) = c1
  have hc1d : c1.driver = true := by rw [← hc1]
  have hnx1 : ∀ p, p ≠ a → (fun p => if p = a then some c1 else d.listeners p) p
      = d.listeners p := fun p hp => by simp [hp]
  obtain ⟨d2, hadd, hlist, hpay, hnext, hside, htr, hct⟩ :=
    listener_add_effect (d := { d with listeners := fun p => if p = a then some c1 else d.listeners p })
      (a := a) (c := c1)
      (List.nodup_append.2 ⟨hnd, List.nodup_singleton a, by
        intro x hx1 hx2
        rw [List.mem_singleton] at hx2
        subst hx2
        exact hacs hx1⟩)
      (chain_congr (fun p hp => by
        have hpa : p ≠ a := by rintro rfl; exact hacs hp
        simp [listener_next_of, hpa]) hnx)
      (chain_congr (fun p hp => by
        have hpa : p ≠ a := by rintro rfl; exact hacs (List.mem_reverse.1 hp)
        simp [listener_prev_of, hpa]) hpv)
      (by
        intro p x hp
        by_cases hpa : p = a
        · subst hpa
          simp only [if_true, Option.some.injEq] at hp
          subst hp
          exact ⟨hc1d, by simp⟩
        · simp only [if_neg hpa] at hp
          exact ⟨(hmem p x hp).1, List.mem_append_left _ (hmem p x hp).2⟩)
      hlen (by simp)
  refine ⟨d2, by rw [hadd]; rfl, hlist, ?_, ?_, hnext, hside, htr, hct⟩
  · intro p hp
    rw [hpay p]
    simp [hp]
  · have := hpay a
    simp only [if_true, Option.map_some'] at this
    cases hz : d2.listeners a with
    | none => rw [hz] at this; simp at this
    | some z => exact ⟨z, rfl⟩

theorem ex_driver_connector_chain :
    chain (connector_next_of ex_driver) ex_driver.connector_head [10, 20, 30] :=
  ⟨rfl, _, rfl, rfl, _, rfl, rfl, _, rfl, rfl⟩

theorem ex_driver_listener_chain :
    chain (listener_next_of ex_driver) ex_driver.listener_head [1, 2] :=
  ⟨rfl, _, rfl, rfl, _, rfl, rfl⟩

theorem ex_driver_connector_list : connector_list ex_driver [10, 20, 30] := by
  refine ⟨by decide, ex_driver_connector_chain, ⟨rfl, _, rfl, rfl, _, rfl, rfl, _, rfl, rfl⟩, ?_, rfl⟩
  intro a c h
  simp only [ex_driver] at h
  split at h
  · cases h; simp_all [ex_connector]
  · split at h
    · cases h; simp_all [ex_connector]
    · split at h
      · cases h; simp_all [ex_connector]
      · cases h

theorem ex_driver_listener_list : listener_list ex_driver [1, 2] := by
  refine ⟨by decide, ex_driver_listener_chain, ⟨rfl, _, rfl, rfl, _, rfl, rfl⟩, ?_, rfl⟩
  intro a c h
  simp only [ex_driver] at h
  split at h
  · cases h; simp_all [ex_listener]
  · split at h
    · cases h; simp_all [ex_listener]
    · cases h

theorem connector_next_of_wait (ssl : Bool) (os : poll_result) (d : pn_driver_t) :
    connector_next_of (pn_driver_wait ssl os d) = connector_next_of d := by
  funext p
  cases ssl <;> simp [connector_next_of, pn_driver_wait, pn_driver_poller_wait, Option.map_map,
    Function.comp_def]

theorem listener_next_of_wait (ssl : Bool) (os : poll_result) (d : pn_driver_t) :
    listener_next_of (pn_driver_wait ssl os d) = listener_next_of d := by
  funext p
  cases ssl <;> simp [listener_next_of, pn_driver_wait, pn_driver_poller_wait, Option.map_map,
    Function.comp_def]

theorem pn_driver_wait_cursors (ssl : Bool) (os : poll_result) (d : pn_driver_t) :
    (pn_driver_wait ssl os d).connector_next = d.connector_head ∧
      (pn_driver_wait ssl os d).listener_next = d.listener_head := by
  cases ssl <;> simp [pn_driver_wait, pn_driver_poller_wait]

/-- C1: `pn_driver_connector` returns the first connector at or after the cursor (in list
order) that satisfies the six-way readiness predicate and leaves the cursor at the
successor of that connector; when no connector from the cursor onward is ready it
returns NULL and leaves the cursor empty.  Nothing but the cursor changes. -/
theorem pn_driver_connector_first_ready (d : pn_driver_t) (ys : List ptr) (fuel : Nat)
    (h : chain (connector_next_of d) d.connector_next ys) (hf : ys.length < fuel) :
    ∃ r cur, pn_driver_connector fuel d = some (r, { d with connector_next := cur }) ∧
      (∀ a, r = some a → ∃ l t, ys = l ++ a :: t ∧ (∀ b ∈ l, ready_connector d b = false) ∧
        ready_connector d a = true ∧ cur = t.head? ∧ connector_next_of d a = some cur) ∧
      (r = none → (∀ b ∈ ys, ready_connector d b = false) ∧ cur = none) := by
  refine ⟨_, _, pn_driver_connector_eq ys fuel d h hf, ?_, ?_⟩
  · intro a ha
    obtain ⟨l, t, h1, _, h3, h4, h5⟩ := find_some_facts _ a ys ha
    refine ⟨l, t, h1, h5, h4, h3, ?_⟩
    rw [h1] at h
    rw [h3]
    exact (chain_split h).1
  · intro hr
    refine ⟨?_, (find_none_facts _ ys hr).2⟩
    intro b hb
    have := List.find?_eq_none.1 hr b hb
    simpa using this

theorem pn_driver_connector_first_ready_witness :
    chain (connector_next_of ex_driver) ex_driver.connector_next [10, 20, 30] ∧
    [10, 20, 30].length < 4 ∧
    ∃ r cur, pn_driver_connector 4 ex_driver =
        some (r, { ex_driver with connector_next := cur }) ∧
      (∀ a, r = some a → ∃ l t, [10, 20, 30] = l ++ a :: t ∧
        (∀ b ∈ l, ready_connector ex_driver b = false) ∧
        ready_connector ex_driver a = true ∧ cur = t.head? ∧
        connector_next_of ex_driver a = some cur) ∧
      (r = none → (∀ b ∈ [10, 20, 30], ready_connector ex_driver b = false) ∧ cur = none) :=
  ⟨ex_driver_connector_chain, by decide,
    pn_driver_connector_first_ready ex_driver [10, 20, 30] 4 ex_driver_connector_chain
      (by decide)⟩

/-- C2: after `pn_driver_wait` has reset the cursors, calling `pn_driver_connector` until it
returns NULL returns exactly the connectors of the list that satisfy the six-way readiness
predicate, each once and in list order, and a further call returns NULL again. -/
theorem pn_driver_connector_drain (d : pn_driver_t) (cs : List ptr) (ssl : Bool)
    (os : poll_result) (fuel n : Nat) (hnd : cs.Nodup)
    (h : chain (connector_next_of d) d.connector_head cs) (hf : cs.length < fuel)
    (hn : cs.length < n) :
    ∃ rs d2, drain_connectors fuel n (pn_driver_wait ssl os d) = some (rs, d2) ∧
      rs = cs.filter (ready_connector (pn_driver_wait ssl os d)) ∧
      rs.Nodup ∧ rs.Sublist cs ∧
      (∀ a, a ∈ rs ↔ a ∈ cs ∧ ready_connector (pn_driver_wait ssl os d) a = true) ∧
      pn_driver_connector fuel d2 = some (none, d2) := by
  have hw : chain (connector_next_of (pn_driver_wait ssl os d))
      (pn_driver_wait ssl os d).connector_next cs := by
    rw [connector_next_of_wait, (pn_driver_wait_cursors ssl os d).1]; exact h
  refine ⟨_, _, drain_connectors_eq fuel n cs _ hw hf hn, rfl, hnd.filter _,
    List.filter_sublist _, ?_, ?_⟩
  · intro a; simp [List.mem_filter]
  · cases fuel with
    | zero => simp at hf
    | succ k => simp [pn_driver_connector]

theorem pn_driver_connector_drain_witness :
    [10, 20, 30].Nodup ∧
    chain (connector_next_of ex_driver) ex_driver.connector_head [10, 20, 30] ∧
    [10, 20, 30].length < 4 ∧ [10, 20, 30].length < 5 ∧
    ∃ rs d2, drain_connectors 4 5 (pn_driver_wait false ex_poll ex_driver) = some (rs, d2) ∧
      rs = [10, 20, 30].filter (ready_connector (pn_driver_wait false ex_poll ex_driver)) ∧
      rs.Nodup ∧ rs.Sublist [10, 20, 30] ∧
      (∀ a, a ∈ rs ↔
        a ∈ [10, 20, 30] ∧ ready_connector (pn_driver_wait false ex_poll ex_driver) a = true) ∧
      pn_driver_connector 4 d2 = some (none, d2) :=
  ⟨by decide, ex_driver_connector_chain, by decide, by decide,
    pn_driver_connector_drain ex_driver [10, 20, 30] false ex_poll 4 5 (by decide)
      ex_driver_connector_chain (by decide) (by decide)⟩

/-- C3: after `pn_driver_wait` has reset `listener_next` to the list head, calling
`pn_driver_listener` until it returns NULL returns exactly the listeners whose `pending`
flag is true, each once and in list order; a listener whose flag is false is not
returned. -/
theorem pn_driver_listener_drain (d : pn_driver_t) (ls : List ptr) (ssl : Bool)
    (os : poll_result) (fuel n : Nat) (hnd : ls.Nodup)
    (h : chain (listener_next_of d) d.listener_head ls) (hf : ls.length < fuel)
    (hn : ls.length < n) :
    ∃ rs d2, drain_listeners fuel n (pn_driver_wait ssl os d) = some (rs, d2) ∧
      rs.Nodup ∧ rs.Sublist ls ∧
      (∀ a, a ∈ rs ↔ a ∈ ls ∧
        ∃ l, (pn_driver_wait ssl os d).listeners a = some l ∧ l.pending = true) ∧
      pn_driver_listener fuel d2 = some (none, d2) := by
  have hw : chain (listener_next_of (pn_driver_wait ssl os d))
      (pn_driver_wait ssl os d).listener_next ls := by
    rw [listener_next_of_wait, (pn_driver_wait_cursors ssl os d).2]; exact h
  refine ⟨_, _, drain_listeners_eq fuel n ls _ hw hf hn, hnd.filter _,
    List.filter_sublist _, ?_, ?_⟩
  · intro a
    simp only [List.mem_filter, ready_listener]
    constructor
    · rintro ⟨h1, h2⟩
      refine ⟨h1, ?_⟩
      cases hx : (pn_driver_wait ssl os d).listeners a with
      | none => simp [hx] at h2
      | some l => exact ⟨l, rfl, by simpa [hx] using h2⟩
    · rintro ⟨h1, l, h2, h3⟩
      exact ⟨h1, by simp [h2, h3]⟩
  · cases fuel with
    | zero => simp at hf
    | succ k => simp [pn_driver_listener]

theorem pn_driver_listener_drain_witness :
    [1, 2].Nodup ∧ chain (listener_next_of ex_driver) ex_driver.listener_head [1, 2] ∧
    [1, 2].length < 3 ∧ [1, 2].length < 4 ∧
    ∃ rs d2, drain_listeners 3 4 (pn_driver_wait true ex_poll ex_driver) = some (rs, d2) ∧
      rs.Nodup ∧ rs.Sublist [1, 2] ∧
      (∀ a, a ∈ rs ↔ a ∈ [1, 2] ∧
        ∃ l, (pn_driver_wait true ex_poll ex_driver).listeners a = some l ∧ l.pending = true) ∧
      pn_driver_listener 3 d2 = some (none, d2) :=
  ⟨by decide, ex_driver_listener_chain, by decide, by decide,
    pn_driver_listener_drain ex_driver [1, 2] true ex_poll 3 4 (by decide)
      ex_driver_listener_chain (by decide) (by decide)⟩

theorem chain_suffix {nx : ptr → Option (Option ptr)} {l r : List ptr} {s : Option ptr}
    (h : chain nx s (l ++ r)) : chain nx r.head? r := by
  cases r with
  | nil => rfl
  | cons x t => exact (chain_split h).2.2

theorem find_congr {p q : ptr → Bool} : ∀ {xs : List ptr}, (∀ x ∈ xs, p x = q x) →
    xs.find? p = xs.find? q := by
  intro xs
  induction xs with
  | nil => intro _; rfl
  | cons x xs ih =>
    intro h
    simp only [List.find?_cons, h x (List.mem_cons_self _ _)]
    rw [ih (fun y hy => h y (List.mem_cons_of_mem _ hy))]

theorem ready_connector_of_payload {d d2 : pn_driver_t} {p : ptr}
    (h : (d2.connectors p).map connector_payload = (d.connectors p).map connector_payload) :
    ready_connector d2 p = ready_connector d p := by
  unfold ready_connector
  cases h2 : d2.connectors p with
  | none =>
    cases h1 : d.connectors p with
    | none => rfl
    | some y => rw [h1, h2] at h; simp at h
  | some x =>
    cases h1 : d.connectors p with
    | none => rw [h1, h2] at h; simp at h
    | some y =>
      rw [h1, h2] at h
      have h3 : connector_payload x = connector_payload y := by simpa using h
      have h4 : connector_ready (connector_payload x) = connector_ready (connector_payload y) :=
        congrArg connector_ready h3
      simpa [connector_ready, connector_payload] using h4

theorem cursor_chain {d : pn_driver_t} {cs : List ptr} (hl : connector_list d cs)
    (hcur : cursor_ok d.connector_next cs) :
    ∃ l ys, cs = l ++ ys ∧ chain (connector_next_of d) d.connector_next ys := by
  cases hc : d.connector_next with
  | none => exact ⟨cs, [], by simp, rfl⟩
  | some b =>
    obtain ⟨l, t, rfl⟩ := List.append_of_mem (hcur b hc)
    exact ⟨l, b :: t, rfl, (chain_split hl.2.1).2.2⟩

theorem listener_cursor_chain {d : pn_driver_t} {ls : List ptr} (hl : listener_list d ls)
    (hcur : cursor_ok d.listener_next ls) :
    ∃ l ys, ls = l ++ ys ∧ chain (listener_next_of d) d.listener_next ys := by
  cases hc : d.listener_next with
  | none => exact ⟨ls, [], by simp, rfl⟩
  | some b =>
    obtain ⟨l, t, rfl⟩ := List.append_of_mem (hcur b hc)
    exact ⟨l, b :: t, rfl, (chain_split hl.2.1).2.2⟩

/-- C4 (mid-iteration free): when `pn_driver_connector` has just returned the connector
`a`, freeing `a` and calling `pn_driver_connector` again does not return `a`; it returns
what the call would have returned without the free, which is the first ready connector
among the nodes that followed `a` in the list (the successor of `a` when it is ready). -/
theorem mid_iteration_free (d : pn_driver_t) (cs : List ptr) (fuel : Nat) (a : ptr)
    (d1 : pn_driver_t) (hl : connector_list d cs) (hcur : cursor_ok d.connector_next cs)
    (hf : cs.length < fuel) (hret : pn_driver_connector fuel d = some (some a, d1)) :
    ∃ l t d2 r d3 d4, cs = l ++ a :: t ∧
      pn_connector_free d1 (some a) = some d2 ∧ d2.connectors a = none ∧
      pn_driver_connector fuel d2 = some (r, d3) ∧
      pn_driver_connector fuel d1 = some (r, d4) ∧
      r ≠ some a ∧ r = t.find? (ready_connector d1) ∧
      (∀ s, t.head? = some s → ready_connector d1 s = true → r = some s) := by
  obtain ⟨l0, ys, hcs, hch⟩ := cursor_chain hl hcur
  have hylen : ys.length < fuel := by rw [hcs] at hf; simp at hf; omega
  rw [pn_driver_connector_eq ys fuel d hch hylen] at hret
  simp only [Option.some.injEq, Prod.mk.injEq] at hret
  obtain ⟨hfind, hd1⟩ := hret
  obtain ⟨l1, t, hys, _, hafter, _, _⟩ := find_some_facts _ a ys hfind
  have hcs2 : cs = (l0 ++ l1) ++ a :: t := by rw [hcs, hys]; simp
  subst hcs2
  subst hd1
  rw [hafter]
  have hl1 : connector_list { d with connector_next := t.head? } ((l0 ++ l1) ++ a :: t) := hl
  obtain ⟨c, hc⟩ := connector_list_live hl a (by simp)
  have hc1 : ({ d with connector_next := t.head? } : pn_driver_t).connectors a = some c := hc
  obtain ⟨d2, hfree, hlist2, hgone, hpay, hnext2, _, _, _, _⟩ := connector_free_effect hl1 hc1
  have hat : a ∉ t := by
    have := (List.nodup_append.1 hl.1).2.1
    exact (List.nodup_cons.1 this).1
  have hcur2 : d2.connector_next = t.head? := by
    rw [hnext2]; split <;> rfl
  have hch2 : chain (connector_next_of d2) d2.connector_next t := by
    rw [hcur2]; exact chain_suffix hlist2.2.1
  have hch1 : chain (connector_next_of { d with connector_next := t.head? })
      ({ d with connector_next := t.head? } : pn_driver_t).connector_next t :=
    (chain_split hl.2.1).2.1
  have htlen : t.length < fuel := by simp at hf; omega
  have hready : ∀ p ∈ t, ready_connector d2 p =
      ready_connector { d with connector_next := t.head? } p := by
    intro p hp
    exact ready_connector_of_payload (hpay p (by rintro rfl; exact hat hp))
  have hr : t.find? (ready_connector d2) =
      t.find? (ready_connector { d with connector_next := t.head? }) := find_congr hready
  refine ⟨l0 ++ l1, t, d2, t.find? (ready_connector { d with connector_next := t.head? }),
    { d2 with connector_next := cursor_after (ready_connector d2) t }, _, rfl, hfree, hgone, ?_, pn_driver_connector_eq t fuel _ hch1 htlen, ?_, rfl, ?_⟩
  · rw [pn_driver_connector_eq t fuel d2 hch2 htlen, hr]
  · intro h
    exact hat (List.mem_of_find?_eq_some h)
  · intro s hs hrs
    cases t with
    | nil => simp at hs
    | cons x t =>
      simp only [List.head?_cons, Option.some.injEq] at hs
      subst hs
      exact List.find?_cons_of_pos (l := t) hrs

theorem mid_iteration_free_witness :
    connector_list ex_driver [10, 20, 30] ∧ cursor_ok ex_driver.connector_next [10, 20, 30] ∧
    [10, 20, 30].length < 4 ∧
    pn_driver_connector 4 ex_driver =
      some (some 10, { ex_driver with connector_next := some 20 }) ∧
    ∃ l t d2 r d3 d4, [10, 20, 30] = l ++ 10 :: t ∧
      pn_connector_free { ex_driver with connector_next := some 20 } (some 10) = some d2 ∧
      d2.connectors 10 = none ∧
      pn_driver_connector 4 d2 = some (r, d3) ∧
      pn_driver_connector 4 { ex_driver with connector_next := some 20 } = some (r, d4) ∧
      r ≠ some 10 ∧
      r = t.find? (ready_connector { ex_driver with connector_next := some 20 }) ∧
      (∀ s, t.head? = some s →
        ready_connector { ex_driver with connector_next := some 20 } s = true → r = some s) :=
  ⟨ex_driver_connector_list, by intro a h; cases h; decide, by decide, rfl,
    mid_iteration_free ex_driver [10, 20, 30] 4 10 _ ex_driver_connector_list
      (by intro a h; cases h; decide) (by decide) rfl⟩

theorem connector_list_of_links {d d2 : pn_driver_t} {cs : List ptr}
    (hh : d2.connector_head = d.connector_head) (ht : d2.connector_tail = d.connector_tail)
    (hc : d2.connector_count = d.connector_count)
    (hlinks : ∀ p, (d2.connectors p).map (fun c => (c.driver, c.connector_next, c.connector_prev))
      = (d.connectors p).map (fun c => (c.driver, c.connector_next, c.connector_prev)))
    (hl : connector_list d cs) : connector_list d2 cs := by
  obtain ⟨hnd, hnx, hpv, hmem, hlen⟩ := hl
  have hn : ∀ p, connector_next_of d2 p = connector_next_of d p := by
    intro p
    have := congrArg (Option.map (fun t : Bool × Option ptr × Option ptr => t.2.1)) (hlinks p)
    simpa [connector_next_of, Option.map_map, Function.comp_def] using this
  have hp : ∀ p, connector_prev_of d2 p = connector_prev_of d p := by
    intro p
    have := congrArg (Option.map (fun t : Bool × Option ptr × Option ptr => t.2.2)) (hlinks p)
    simpa [connector_prev_of, Option.map_map, Function.comp_def] using this
  refine ⟨hnd, ?_, ?_, ?_, by rw [hc, hlen]⟩
  · rw [hh]; exact chain_congr (fun p _ => hn p) hnx
  · rw [ht]; exact chain_congr (fun p _ => hp p) hpv
  · intro p x hx
    have h1 := hlinks p
    rw [hx] at h1
    cases hy : d.connectors p with
    | none => rw [hy] at h1; simp at h1
    | some y =>
      rw [hy] at h1
      simp only [Option.map_some', Option.some.injEq, Prod.mk.injEq] at h1
      exact ⟨by rw [h1.1]; exact (hmem p y hy).1, (hmem p y hy).2⟩

theorem listener_list_of_links {d d2 : pn_driver_t} {ls : List ptr}
    (hh : d2.listener_head = d.listener_head) (ht : d2.listener_tail = d.listener_tail)
    (hc : d2.listener_count = d.listener_count)
    (hlinks : ∀ p, (d2.listeners p).map (fun c => (c.driver, c.listener_next, c.listener_prev))
      = (d.listeners p).map (fun c => (c.driver, c.listener_next, c.listener_prev)))
    (hl : listener_list d ls) : listener_list d2 ls := by
  obtain ⟨hnd, hnx, hpv, hmem, hlen⟩ := hl
  have hn : ∀ p, listener_next_of d2 p = listener_next_of d p := by
    intro p
    have := congrArg (Option.map (fun t : Bool × Option ptr × Option ptr => t.2.1)) (hlinks p)
    simpa [listener_next_of, Option.map_map, Function.comp_def] using this
  have hp : ∀ p, listener_prev_of d2 p = listener_prev_of d p := by
    intro p
    have := congrArg (Option.map (fun t : Bool × Option ptr × Option ptr => t.2.2)) (hlinks p)
    simpa [listener_prev_of, Option.map_map, Function.comp_def] using this
  refine ⟨hnd, ?_, ?_, ?_, by rw [hc, hlen]⟩
  · rw [hh]; exact chain_congr (fun p _ => hn p) hnx
  · rw [ht]; exact chain_congr (fun p _ => hp p) hpv
  · intro p x hx
    have h1 := hlinks p
    rw [hx] at h1
    cases hy : d.listeners p with
    | none => rw [hy] at h1; simp at h1
    | some y =>
      rw [hy] at h1
      simp only [Option.map_some', Option.some.injEq, Prod.mk.injEq] at h1
      exact ⟨by rw [h1.1]; exact (hmem p y hy).1, (hmem p y hy).2⟩

theorem pn_driver_connector_cursor : ∀ (fuel : Nat) (d : pn_driver_t) (ys : List ptr)
    (r : Option ptr) (d2 : pn_driver_t),
    chain (connector_next_of d) d.connector_next ys →
    pn_driver_connector fuel d = some (r, d2) →
    d2 = { d with connector_next := d2.connector_next } ∧ cursor_ok d2.connector_next ys ∧
      ∀ a, r = some a → a ∈ ys := by
  intro fuel
  induction fuel with
  | zero => intro d ys r d2 _ h; simp [pn_driver_connector] at h
  | succ k ih =>
    intro d ys r d2 hch h
    cases hc : d.connector_next with
    | none =>
      simp only [pn_driver_connector, hc, Option.some.injEq, Prod.mk.injEq] at h
      obtain ⟨h1, h2⟩ := h
      subst h1; subst h2
      refine ⟨rfl, ?_, by intro a ha; cases ha⟩
      intro a ha; rw [hc] at ha; cases ha
    | some a =>
      rw [hc] at hch
      cases ys with
      | nil => cases hch
      | cons y t =>
        obtain ⟨hy, n, hn, hrest⟩ := hch
        have hya : a = y := Option.some.inj hy
        subst hya
        cases hx : d.connectors a with
        | none => simp [connector_next_of, hx] at hn
        | some c =>
          have hcn : c.connector_next = n := by simpa [connector_next_of, hx] using hn
          simp only [pn_driver_connector, hc, hx] at h
          split at h
          · simp only [Option.some.injEq, Prod.mk.injEq] at h
            obtain ⟨h1, h2⟩ := h
            subst h1; subst h2
            refine ⟨rfl, ?_, by intro b hb; cases hb; simp⟩
            intro b hb
            have hb2 : n = some b := by rw [← hcn]; exact hb
            rw [chain_head hrest] at hb2
            exact List.mem_cons_of_mem _ (List.mem_of_mem_head? hb2)
          · have := ih { d with connector_next := c.connector_next } t r d2
              (by rw [hcn]; exact hrest) h
            refine ⟨this.1, ?_, ?_⟩
            · intro b hb; exact List.mem_cons_of_mem _ (this.2.1 b hb)
            · intro b hb; exact List.mem_cons_of_mem _ (this.2.2 b hb)

theorem pn_driver_listener_cursor : ∀ (fuel : Nat) (d : pn_driver_t) (ys : List ptr)
    (r : Option ptr) (d2 : pn_driver_t),
    chain (listener_next_of d) d.listener_next ys →
    pn_driver_listener fuel d = some (r, d2) →
    d2 = { d with listener_next := d2.listener_next } ∧ cursor_ok d2.listener_next ys ∧
      ∀ a, r = some a → a ∈ ys := by
  intro fuel
  induction fuel with
  | zero => intro d ys r d2 _ h; simp [pn_driver_listener] at h
  | succ k ih =>
    intro d ys r d2 hch h
    cases hc : d.listener_next with
    | none =>
      simp only [pn_driver_listener, hc, Option.some.injEq, Prod.mk.injEq] at h
      obtain ⟨h1, h2⟩ := h
      subst h1; subst h2
      refine ⟨rfl, ?_, by intro a ha; cases ha⟩
      intro a ha; rw [hc] at ha; cases ha
    | some a =>
      rw [hc] at hch
      cases ys with
      | nil => cases hch
      | cons y t =>
        obtain ⟨hy, n, hn, hrest⟩ := hch
        have hya : a = y := Option.some.inj hy
        subst hya
        cases hx : d.listeners a with
        | none => simp [listener_next_of, hx] at hn
        | some c =>
          have hcn : c.listener_next = n := by simpa [listener_next_of, hx] using hn
          simp only [pn_driver_listener, hc, hx] at h
          split at h
          · simp only [Option.some.injEq, Prod.mk.injEq] at h
            obtain ⟨h1, h2⟩ := h
            subst h1; subst h2
            refine ⟨rfl, ?_, by intro b hb; cases hb; simp⟩
            intro b hb
            have hb2 : n = some b := by rw [← hcn]; exact hb
            rw [chain_head hrest] at hb2
            exact List.mem_cons_of_mem _ (List.mem_of_mem_head? hb2)
          · have := ih { d with listener_next := c.listener_next } t r d2
              (by rw [hcn]; exact hrest) h
            refine ⟨this.1, ?_, ?_⟩
            · intro b hb; exact List.mem_cons_of_mem _ (this.2.1 b hb)
            · intro b hb; exact List.mem_cons_of_mem _ (this.2.2 b hb)

theorem cursor_ok_remove {cur : Option ptr} {l r : List ptr} {a : ptr}
    (h : cursor_ok cur (l ++ a :: r)) :
    cursor_ok (if cur = some a then r.head? else cur) (l ++ r) := by
  intro b hb
  split at hb
  · exact List.mem_append_right _ (List.mem_of_mem_head? hb)
  · rename_i hne
    have hba : b ≠ a := by rintro rfl; exact hne hb
    rcases List.mem_append.1 (h b hb) with h1 | h1
    · exact List.mem_append_left _ h1
    · rcases List.mem_cons.1 h1 with h2 | h2
      · exact absurd h2 hba
      · exact List.mem_append_right _ h2

theorem driver_inv_fresh (trace : Nat) (ctrl : Int × Int) : driver_inv (pn_driver trace ctrl) := by
  refine ⟨[], [], ⟨List.nodup_nil, rfl, rfl, ?_, rfl⟩, ⟨List.nodup_nil, rfl, rfl, ?_, rfl⟩, ?_, ?_⟩
  · intro a l h; cases h
  · intro a c h; cases h
  · intro a h; cases h
  · intro a h; cases h

theorem driver_inv_listener_fd {d d2 : pn_driver_t} (m : Option ptr) (fd : Int)
    (context : Option ptr) (r : Option ptr) (hinv : driver_inv d)
    (h : pn_listener_fd m d fd context = some (r, d2)) : driver_inv d2 := by
  obtain ⟨ls, cs, hl, hc, hcl, hcc⟩ := hinv
  cases m with
  | none =>
    simp only [pn_listener_fd, Option.some.injEq, Prod.mk.injEq] at h
    rw [← h.2]; exact ⟨ls, cs, hl, hc, hcl, hcc⟩
  | some a =>
    cases hfresh : d.listeners a with
    | some x => simp [pn_listener_fd, hfresh] at h
    | none =>
      obtain ⟨d3, heq, hlist, _, _, hnext, hside, _, _⟩ := listener_fd_effect hl a hfresh fd context
      rw [heq] at h
      simp only [Option.some.injEq, Prod.mk.injEq] at h
      rw [← h.2]
      have hs := hside
      simp only [connector_side, Prod.mk.injEq] at hs
      refine ⟨ls ++ [a], cs, hlist, connector_list_of_side hside hc, ?_, ?_⟩
      · rw [hnext]; intro b hb; exact List.mem_append_left _ (hcl b hb)
      · rw [hs.2.2.2.1]; exact hcc

theorem driver_inv_connector_fd {d d2 : pn_driver_t} (m transport sasl : Option ptr) (fd : Int)
    (context : Option ptr) (r : Option ptr) (hinv : driver_inv d)
    (h : pn_connector_fd m transport sasl d fd context = some (r, d2)) : driver_inv d2 := by
  obtain ⟨ls, cs, hl, hc, hcl, hcc⟩ := hinv
  cases m with
  | none =>
    simp only [pn_connector_fd, Option.some.injEq, Prod.mk.injEq] at h
    rw [← h.2]; exact ⟨ls, cs, hl, hc, hcl, hcc⟩
  | some a =>
    cases hfresh : d.connectors a with
    | some x => simp [pn_connector_fd, hfresh] at h
    | none =>
      obtain ⟨d3, heq, hlist, _, _, hnext, _, hside, _, _⟩ :=
        connector_fd_effect hc a hfresh transport sasl fd context
      rw [heq] at h
      simp only [Option.some.injEq, Prod.mk.injEq] at h
      rw [← h.2]
      have hs := hside
      simp only [listener_side, Prod.mk.injEq] at hs
      refine ⟨ls, cs ++ [a], listener_list_of_side hside hl, hlist, ?_, ?_⟩
      · rw [hs.2.2.2.1]; exact hcl
      · rw [hnext]; intro b hb; exact List.mem_append_left _ (hcc b hb)

theorem driver_inv_listener_free {d d2 : pn_driver_t} (l : Option ptr) (hinv : driver_inv d)
    (h : pn_listener_free d l = some d2) : driver_inv d2 := by
  obtain ⟨ls, cs, hl, hc, hcl, hcc⟩ := hinv
  cases l with
  | none =>
    simp only [pn_listener_free, Option.some.injEq] at h
    rw [← h]; exact ⟨ls, cs, hl, hc, hcl, hcc⟩
  | some a =>
    cases hx : d.listeners a with
    | none => simp [pn_listener_free, hx] at h
    | some x =>
      obtain ⟨l0, r0, rfl⟩ := List.append_of_mem (hl.2.2.2.1 a x hx).2
      obtain ⟨d3, heq, hlist, _, _, hnext, hside, _, _⟩ := listener_free_effect hl hx
      rw [heq] at h
      rw [← Option.some.inj h]
      have hs := hside
      simp only [connector_side, Prod.mk.injEq] at hs
      refine ⟨l0 ++ r0, cs, hlist, connector_list_of_side hside hc, ?_, ?_⟩
      · rw [hnext]; exact cursor_ok_remove hcl
      · rw [hs.2.2.2.1]; exact hcc

theorem driver_inv_connector_free {d d2 : pn_driver_t} (c : Option ptr) (hinv : driver_inv d)
    (h : pn_connector_free d c = some d2) : driver_inv d2 := by
  obtain ⟨ls, cs, hl, hc, hcl, hcc⟩ := hinv
  cases c with
  | none =>
    simp only [pn_connector_free, Option.some.injEq] at h
    rw [← h]; exact ⟨ls, cs, hl, hc, hcl, hcc⟩
  | some a =>
    cases hx : d.connectors a with
    | none => simp [pn_connector_free, hx] at h
    | some x =>
      obtain ⟨l0, r0, rfl⟩ := List.append_of_mem (hc.2.2.2.1 a x hx).2
      obtain ⟨d3, heq, hlist, _, _, hnext, _, hside, _, _⟩ := connector_free_effect hc hx
      rw [heq] at h
      rw [← Option.some.inj h]
      have hs := hside
      simp only [listener_side, Prod.mk.injEq] at hs
      refine ⟨ls, l0 ++ r0, listener_list_of_side hside hl, hlist, ?_, ?_⟩
      · rw [hs.2.2.2.1]; exact hcl
      · rw [hnext]; exact cursor_ok_remove hcc

theorem driver_inv_connector_close {d d2 : pn_driver_t} (c : Option ptr) (hinv : driver_inv d)
    (h : pn_connector_close d c = some d2) : driver_inv d2 := by
  obtain ⟨ls, cs, hl, hc, hcl, hcc⟩ := hinv
  cases c with
  | none =>
    simp only [pn_connector_close, Option.some.injEq] at h
    rw [← h]; exact ⟨ls, cs, hl, hc, hcl, hcc⟩
  | some a =>
    cases hx : d.connectors a with
    | none => simp [pn_connector_close, hx] at h
    | some x =>
      simp only [pn_connector_close, hx] at h
      split at h
      · cases h
      · rw [← Option.some.inj h]
        refine ⟨ls, cs, hl, connector_list_of_links (d := d) rfl rfl rfl ?_ hc, hcl, hcc⟩
        intro p
        simp only [set_connector]
        split <;> simp [Option.map_map, Function.comp_def]

theorem driver_inv_wait {d : pn_driver_t} (ssl : Bool) (os : poll_result) (hinv : driver_inv d) :
    driver_inv (pn_driver_wait ssl os d) := by
  obtain ⟨ls, cs, hl, hc, _, _⟩ := hinv
  have hlh : d.listener_head = ls.head? := chain_head hl.2.1
  have hch : d.connector_head = cs.head? := chain_head hc.2.1
  refine ⟨ls, cs, listener_list_of_links ?_ ?_ ?_ ?_ hl, connector_list_of_links ?_ ?_ ?_ ?_ hc,
    ?_, ?_⟩
  · cases ssl <;> rfl
  · cases ssl <;> rfl
  · cases ssl <;> rfl
  · intro p
    cases ssl <;> simp [pn_driver_wait, pn_driver_poller_wait, Option.map_map, Function.comp_def]
  · cases ssl <;> rfl
  · cases ssl <;> rfl
  · cases ssl <;> rfl
  · intro p
    cases ssl <;> simp [pn_driver_wait, pn_driver_poller_wait, Option.map_map, Function.comp_def]
  · rw [(pn_driver_wait_cursors ssl os d).2, hlh]
    intro b hb; exact List.mem_of_mem_head? hb
  · rw [(pn_driver_wait_cursors ssl os d).1, hch]
    intro b hb; exact List.mem_of_mem_head? hb

theorem driver_inv_driver_listener {d d2 : pn_driver_t} (fuel : Nat) (r : Option ptr)
    (hinv : driver_inv d) (h : pn_driver_listener fuel d = some (r, d2)) : driver_inv d2 := by
  obtain ⟨ls, cs, hl, hc, hcl, hcc⟩ := hinv
  obtain ⟨l0, ys, hls, hch⟩ := listener_cursor_chain hl hcl
  obtain ⟨h1, h2, _⟩ := pn_driver_listener_cursor fuel d ys r d2 hch h
  rw [h1]
  refine ⟨ls, cs, hl, hc, ?_, hcc⟩
  intro b hb
  rw [hls]; exact List.mem_append_right _ (h2 b hb)

theorem driver_inv_driver_connector {d d2 : pn_driver_t} (fuel : Nat) (r : Option ptr)
    (hinv : driver_inv d) (h : pn_driver_connector fuel d = some (r, d2)) : driver_inv d2 := by
  obtain ⟨ls, cs, hl, hc, hcl, hcc⟩ := hinv
  obtain ⟨l0, ys, hcs, hch⟩ := cursor_chain hc hcc
  obtain ⟨h1, h2, _⟩ := pn_driver_connector_cursor fuel d ys r d2 hch h
  rw [h1]
  refine ⟨ls, cs, hl, hc, hcl, ?_⟩
  intro b hb
  rw [hcs]; exact List.mem_append_right _ (h2 b hb)

theorem driver_inv_apply_op {d d2 : pn_driver_t} (op : driver_op) (hinv : driver_inv d)
    (h : apply_op d op = some d2) : driver_inv d2 := by
  cases op with
  | listener_fd m fd context =>
    simp only [apply_op, Option.map_eq_some', Prod.exists, exists_eq_right] at h
    obtain ⟨r, h⟩ := h
    exact driver_inv_listener_fd m fd context r hinv h
  | connector_fd m transport sasl fd context =>
    simp only [apply_op, Option.map_eq_some', Prod.exists, exists_eq_right] at h
    obtain ⟨r, h⟩ := h
    exact driver_inv_connector_fd m transport sasl fd context r hinv h
  | listener_free l => exact driver_inv_listener_free l hinv h
  | connector_free c => exact driver_inv_connector_free c hinv h
  | connector_close c => exact driver_inv_connector_close c hinv h
  | wait ssl os =>
    simp only [apply_op, Option.some.injEq] at h
    rw [← h]; exact driver_inv_wait ssl os hinv
  | driver_listener fuel =>
    simp only [apply_op, Option.map_eq_some', Prod.exists, exists_eq_right] at h
    obtain ⟨r, h⟩ := h
    exact driver_inv_driver_listener fuel r hinv h
  | driver_connector fuel =>
    simp only [apply_op, Option.map_eq_some', Prod.exists, exists_eq_right] at h
    obtain ⟨r, h⟩ := h
    exact driver_inv_driver_connector fuel r hinv h

theorem driver_inv_run_ops : ∀ (ops : List driver_op) (d d2 : pn_driver_t), driver_inv d →
    run_ops d ops = some d2 → driver_inv d2 := by
  intro ops
  induction ops with
  | nil =>
    intro d d2 hinv h
    simp only [run_ops, Option.some.injEq] at h
    rw [← h]; exact hinv
  | cons op ops ih =>
    intro d d2 hinv h
    simp only [run_ops, Option.bind_eq_some] at h
    obtain ⟨d1, h1, h2⟩ := h
    exact ih d1 d2 (driver_inv_apply_op op hinv h1) h2

theorem driver_inv_reachable {d : pn_driver_t} (h : reachable d) : driver_inv d := by
  obtain ⟨trace, ctrl, ops, hrun⟩ := h
  exact driver_inv_run_ops ops _ d (driver_inv_fresh trace ctrl) hrun

theorem ex_reached_reachable : reachable ex_reached := ⟨0, (3, 4), ex_ops, rfl⟩

/-- C5 (iterator cursor safety): in every state that a fresh driver reaches through
`pn_listener_fd`, `pn_connector_fd`, `pn_listener_free`, `pn_connector_free`,
`pn_connector_close`, `pn_driver_wait`, `pn_driver_listener` and `pn_driver_connector`,
both lists are well formed and each cursor is empty or a node linked in its list; freeing
the node a cursor points at moves the cursor to the successor of that node; and an
iterator returns, without touching a freed node, only nodes that are allocated and
linked. -/
theorem iterator_cursor_safety (d : pn_driver_t) (h : reachable d) :
    ∃ ls cs, listener_list d ls ∧ connector_list d cs ∧
      cursor_ok d.listener_next ls ∧ cursor_ok d.connector_next cs ∧
      (∀ a, d.listener_next = some a → ∃ x d2 l r, ls = l ++ a :: r ∧
        d.listeners a = some x ∧ pn_listener_free d (some a) = some d2 ∧
        d2.listener_next = x.listener_next ∧ d2.listeners a = none ∧
        listener_list d2 (l ++ r) ∧ cursor_ok d2.listener_next (l ++ r)) ∧
      (∀ a, d.connector_next = some a → ∃ x d2 l r, cs = l ++ a :: r ∧
        d.connectors a = some x ∧ pn_connector_free d (some a) = some d2 ∧
        d2.connector_next = x.connector_next ∧ d2.connectors a = none ∧
        connector_list d2 (l ++ r) ∧ cursor_ok d2.connector_next (l ++ r)) ∧
      (∀ fuel, ls.length < fuel → ∃ r d2, pn_driver_listener fuel d = some (r, d2) ∧
        ∀ a, r = some a → a ∈ ls ∧ (d.listeners a).isSome = true) ∧
      (∀ fuel, cs.length < fuel → ∃ r d2, pn_driver_connector fuel d = some (r, d2) ∧
        ∀ a, r = some a → a ∈ cs ∧ (d.connectors a).isSome = true) := by
  obtain ⟨ls, cs, hl, hc, hcl, hcc⟩ := driver_inv_reachable h
  refine ⟨ls, cs, hl, hc, hcl, hcc, ?_, ?_, ?_, ?_⟩
  · intro a ha
    obtain ⟨x, hx⟩ := listener_list_live hl a (hcl a ha)
    obtain ⟨l, r, rfl⟩ := List.append_of_mem (hcl a ha)
    obtain ⟨d2, heq, hlist, hgone, _, hnext, _, _, _⟩ := listener_free_effect hl hx
    have hxn := (listener_list_split hl hx).1
    have hcur : d2.listener_next = x.listener_next := by rw [hnext, if_pos ha, hxn]
    refine ⟨x, d2, l, r, rfl, hx, heq, hcur, hgone, hlist, ?_⟩
    rw [hcur, hxn]
    intro b hb; exact List.mem_append_right _ (List.mem_of_mem_head? hb)
  · intro a ha
    obtain ⟨x, hx⟩ := connector_list_live hc a (hcc a ha)
    obtain ⟨l, r, rfl⟩ := List.append_of_mem (hcc a ha)
    obtain ⟨d2, heq, hlist, hgone, _, hnext, _, _, _, _⟩ := connector_free_effect hc hx
    have hxn := (connector_list_split hc hx).1
    have hcur : d2.connector_next = x.connector_next := by rw [hnext, if_pos ha, hxn]
    refine ⟨x, d2, l, r, rfl, hx, heq, hcur, hgone, hlist, ?_⟩
    rw [hcur, hxn]
    intro b hb; exact List.mem_append_right _ (List.mem_of_mem_head? hb)
  · intro fuel hf
    obtain ⟨l0, ys, hls, hch⟩ := listener_cursor_chain hl hcl
    have hlen : ys.length < fuel := by rw [hls] at hf; simp at hf; omega
    refine ⟨_, _, pn_driver_listener_eq ys fuel d hch hlen, ?_⟩
    intro a ha
    have hmem : a ∈ ls := by
      rw [hls]; exact List.mem_append_right _ (List.mem_of_find?_eq_some ha)
    obtain ⟨x, hx⟩ := listener_list_live hl a hmem
    exact ⟨hmem, by rw [hx]; rfl⟩
  · intro fuel hf
    obtain ⟨l0, ys, hcs, hch⟩ := cursor_chain hc hcc
    have hlen : ys.length < fuel := by rw [hcs] at hf; simp at hf; omega
    refine ⟨_, _, pn_driver_connector_eq ys fuel d hch hlen, ?_⟩
    intro a ha
    have hmem : a ∈ cs := by
      rw [hcs]; exact List.mem_append_right _ (List.mem_of_find?_eq_some ha)
    obtain ⟨x, hx⟩ := connector_list_live hc a hmem
    exact ⟨hmem, by rw [hx]; rfl⟩

theorem iterator_cursor_safety_witness :
    reachable ex_reached ∧
    ∃ ls cs, listener_list ex_reached ls ∧ connector_list ex_reached cs ∧
      cursor_ok ex_reached.listener_next ls ∧ cursor_ok ex_reached.connector_next cs ∧
      (∀ a, ex_reached.listener_next = some a → ∃ x d2 l r, ls = l ++ a :: r ∧
        ex_reached.listeners a = some x ∧ pn_listener_free ex_reached (some a) = some d2 ∧
        d2.listener_next = x.listener_next ∧ d2.listeners a = none ∧
        listener_list d2 (l ++ r) ∧ cursor_ok d2.listener_next (l ++ r)) ∧
      (∀ a, ex_reached.connector_next = some a → ∃ x d2 l r, cs = l ++ a :: r ∧
        ex_reached.connectors a = some x ∧ pn_connector_free ex_reached (some a) = some d2 ∧
        d2.connector_next = x.connector_next ∧ d2.connectors a = none ∧
        connector_list d2 (l ++ r) ∧ cursor_ok d2.connector_next (l ++ r)) ∧
      (∀ fuel, ls.length < fuel → ∃ r d2, pn_driver_listener fuel ex_reached = some (r, d2) ∧
        ∀ a, r = some a → a ∈ ls ∧ (ex_reached.listeners a).isSome = true) ∧
      (∀ fuel, cs.length < fuel → ∃ r d2, pn_driver_connector fuel ex_reached = some (r, d2) ∧
        ∀ a, r = some a → a ∈ cs ∧ (ex_reached.connectors a).isSome = true) :=
  ⟨ex_reached_reachable, iterator_cursor_safety ex_reached ex_reached_reachable⟩

theorem to_size_t_eq {x : Int} (h0 : 0 ≤ x) (h1 : x < 18446744073709551616) :
    to_size_t x = x.toNat := by
  unfold to_size_t
  rw [Int.emod_eq_of_lt h0 h1]

theorem pn_connector_read_bounded (w : io_calls) (cap : Nat) (c : pn_connector_t)
    (hcap : cap < 18446744073709551616) (hw : io_contract w) (hb : buffers_bounded cap c) :
    buffers_bounded cap (pn_connector_read w cap c) := by
  obtain ⟨hi, ho⟩ := hb
  have hlen : to_size_t ((cap : Int) - c.input_size) = cap - c.input_size := by
    rw [to_size_t_eq (by omega) (by omega)]; omega
  have hn := hw.1 (cap - c.input_size)
  unfold pn_connector_read
  rw [hlen]
  simp only []
  split
  · exact ⟨hi, ho⟩
  · refine ⟨?_, ho⟩
    show to_size_t _ ≤ cap
    rw [to_size_t_eq (by omega) (by omega)]
    omega

theorem pn_connector_read_frame (w : io_calls) (cap : Nat) (c : pn_connector_t) :
    pipeline_frame (pn_connector_read w cap c) = pipeline_frame c := by
  unfold pn_connector_read
  dsimp only
  split <;> rfl

theorem pn_connector_process_input_frame (w : io_calls) (c : pn_connector_t) :
    pipeline_frame (pn_connector_process_input w c) = pipeline_frame c := by
  unfold pn_connector_process_input
  dsimp only
  split
  · split
    · split <;> rfl
    · rfl
  · rfl

theorem pn_connector_process_output_frame (w : io_calls) (cap : Nat) (c : pn_connector_t) :
    pipeline_frame (pn_connector_process_output w cap c) = pipeline_frame c := by
  unfold pn_connector_process_output
  dsimp only
  split
  · split
    · split <;> rfl
    · split <;> rfl
  · split <;> rfl

theorem pn_connector_write_frame (w : io_calls) (c : pn_connector_t) :
    pipeline_frame (pn_connector_write w c) = pipeline_frame c := by
  unfold pn_connector_write
  dsimp only
  split
  · split
    · split <;> rfl
    · split <;> rfl
  · split <;> rfl

theorem pn_connector_tick_frame (w : io_calls) (cap : Nat) (c : pn_connector_t) (now : Int) :
    pipeline_frame (pn_connector_tick w cap c now).2 = pipeline_frame c := by
  unfold pn_connector_tick
  split
  · rfl
  · dsimp only
    rw [pn_connector_process_output_frame, pn_connector_process_input_frame]

theorem frame_handlers {c c2 : pn_connector_t} (h : pipeline_frame c2 = pipeline_frame c)
    (hd : default_handlers c) : default_handlers c2 := by
  simp only [pipeline_frame, Prod.mk.injEq] at h
  obtain ⟨_, _, _, _, _, _, _, _, h1, h2, h3, h4, _⟩ := h
  exact ⟨h1.trans hd.1, h2.trans hd.2.1, h3.trans hd.2.2.1, h4.trans hd.2.2.2⟩

theorem pn_connector_process_input_bounded (w : io_calls) (cap : Nat) (c : pn_connector_t)
    (hcap : cap < 18446744073709551616) (hw : io_contract w) (hb : buffers_bounded cap c) :
    buffers_bounded cap (pn_connector_process_input w c) := by
  obtain ⟨hi, ho⟩ := hb
  have hn := hw.2.2.1 c.input_size
  unfold pn_connector_process_input
  dsimp only
  split
  · split
    · split
      · rename_i hge
        simp only [buffers_bounded, pn_connector_consume]
        refine ⟨?_, ho⟩
        rw [to_size_t_eq (by omega) (by omega)]
        omega
      · simp only [buffers_bounded, pn_connector_consume]
        refine ⟨?_, ho⟩
        rw [to_size_t_eq (by omega) (by omega)]
        omega
    · exact ⟨hi, ho⟩
  · exact ⟨hi, ho⟩

theorem pn_connector_process_output_bounded (w : io_calls) (cap : Nat) (c : pn_connector_t)
    (hcap : cap < 18446744073709551616) (hw : io_contract w) (hb : buffers_bounded cap c) :
    buffers_bounded cap (pn_connector_process_output w cap c) := by
  obtain ⟨hi, ho⟩ := hb
  have hav : pn_connector_available cap c = cap - c.output_size := by
    unfold pn_connector_available
    rw [to_size_t_eq (by omega) (by omega)]; omega
  have hn := hw.2.2.2 (cap - c.output_size)
  unfold pn_connector_process_output
  rw [hav]
  dsimp only
  split
  · split
    · split
      · refine ⟨hi, ?_⟩
        show to_size_t _ ≤ cap
        rw [to_size_t_eq (by omega) (by omega)]
        omega
      · refine ⟨hi, ?_⟩
        show to_size_t _ ≤ cap
        rw [to_size_t_eq (by omega) (by omega)]
        omega
    · split <;> exact ⟨hi, ho⟩
  · split <;> exact ⟨hi, ho⟩

theorem pn_connector_write_bounded (w : io_calls) (cap : Nat) (c : pn_connector_t)
    (hcap : cap < 18446744073709551616) (hw : io_contract w) (hb : buffers_bounded cap c) :
    buffers_bounded cap (pn_connector_write w c) := by
  obtain ⟨hi, ho⟩ := hb
  have hn := hw.2.1 c.output_size
  unfold pn_connector_write
  dsimp only
  split
  · split
    · split
      · exact ⟨hi, Nat.zero_le _⟩
      · exact ⟨hi, Nat.zero_le _⟩
    · split
      · refine ⟨hi, ?_⟩
        show to_size_t _ ≤ cap
        rw [to_size_t_eq (by omega) (by omega)]
        omega
      · refine ⟨hi, ?_⟩
        show to_size_t _ ≤ cap
        rw [to_size_t_eq (by omega) (by omega)]
        omega
  · split <;> exact ⟨hi, ho⟩

theorem pn_connector_tick_bounded (w : io_calls) (cap : Nat) (c : pn_connector_t) (now : Int)
    (hcap : cap < 18446744073709551616) (hw : io_contract w) (hb : buffers_bounded cap c) :
    buffers_bounded cap (pn_connector_tick w cap c now).2 := by
  unfold pn_connector_tick
  split
  · exact hb
  · exact pn_connector_process_output_bounded w cap _ hcap hw
      (pn_connector_process_input_bounded w cap c hcap hw hb)

/-- The connector after the optional read of `pn_io_handler`. -/
theorem io_read_step (w : io_calls) (cap : Nat) (c : pn_connector_t)
    (hcap : cap < 18446744073709551616) (hw : io_contract w) (hd : default_handlers c)
    (hb : buffers_bounded cap c) :
    buffers_bounded cap
        (if c.pending_read then { call_read w cap c with pending_read := false } else c) ∧
      pipeline_frame
        (if c.pending_read then { call_read w cap c with pending_read := false } else c) =
        pipeline_frame c := by
  split
  · have h1 := pn_connector_read_bounded w cap c hcap hw hb
    have h2 := pn_connector_read_frame w cap c
    simp only [call_read, hd.1]
    exact ⟨h1, h2⟩
  · exact ⟨hb, rfl⟩

/-- The connector after the optional write of `pn_io_handler`. -/
theorem io_write_step (w : io_calls) (cap : Nat) (c : pn_connector_t)
    (hcap : cap < 18446744073709551616) (hw : io_contract w) (hd : default_handlers c)
    (hb : buffers_bounded cap c) :
    buffers_bounded cap
        (if c.pending_write then { call_write w c with pending_write := false } else c) ∧
      pipeline_frame
        (if c.pending_write then { call_write w c with pending_write := false } else c) =
        pipeline_frame c := by
  split
  · have h1 := pn_connector_write_bounded w cap c hcap hw hb
    have h2 := pn_connector_write_frame w c
    simp only [call_write, hd.2.1]
    exact ⟨h1, h2⟩
  · exact ⟨hb, rfl⟩

theorem pn_io_handler_bounded (w : io_calls) (cap : Nat) (c : pn_connector_t)
    (hcap : cap < 18446744073709551616) (hw : io_contract w) (hd : default_handlers c)
    (hb : buffers_bounded cap c) :
    (pn_io_handler w cap c).1 = 0 ∧ buffers_bounded cap (pn_io_handler w cap c).2 ∧
      pipeline_frame (pn_io_handler w cap c).2 = pipeline_frame c := by
  obtain ⟨h1, f1⟩ := io_read_step w cap c hcap hw hd hb
  have h2 := pn_connector_process_input_bounded w cap _ hcap hw h1
  have f2 := (pn_connector_process_input_frame w _).trans f1
  have h3 := pn_connector_process_output_bounded w cap _ hcap hw h2
  have f3 := (pn_connector_process_output_frame w cap _).trans f2
  obtain ⟨h4, f4⟩ := io_write_step w cap _ hcap hw (frame_handlers f3 hd) h3
  exact ⟨rfl, h4, f4.trans f3⟩

/-- The connector after the optional tick of `pn_connector_process`. -/
theorem process_tick_step (w : io_calls) (cap : Nat) (c : pn_connector_t)
    (hcap : cap < 18446744073709551616) (hw : io_contract w) (hd : default_handlers c)
    (hb : buffers_bounded cap c) :
    buffers_bounded cap
        (if c.pending_tick then { (call_tick w cap c 0).2 with pending_tick := false } else c) ∧
      pipeline_frame
        (if c.pending_tick then { (call_tick w cap c 0).2 with pending_tick := false } else c) =
        pipeline_frame c := by
  split
  · have h1 := pn_connector_tick_bounded w cap c 0 hcap hw hb
    have h2 := pn_connector_tick_frame w cap c 0
    simp only [call_tick, hd.2.2.1]
    exact ⟨h1, h2⟩
  · exact ⟨hb, rfl⟩

theorem pn_connector_process_bounded (w : process_calls) (cap : Nat) (d : pn_driver_t) (a : ptr)
    (c : pn_connector_t) (ha : d.connectors a = some c) (hdrv : c.driver = true)
    (hcap : cap < 18446744073709551616) (hwt : io_contract w.tick) (hwi : io_contract w.io)
    (hd : default_handlers c) (hb : buffers_bounded cap c) :
    ∃ d2 ev c2, pn_connector_process w cap d (some a) = some (d2, ev) ∧
      d2.connectors a = some c2 ∧ buffers_bounded cap c2 := by
  unfold pn_connector_process
  simp only [ha]
  by_cases hcl : c.closed = true
  · simp only [hcl, if_true]
    exact ⟨d, [], c, rfl, ha, hb⟩
  · simp only [hcl, Bool.false_eq_true, if_false]
    obtain ⟨h1, f1⟩ := process_tick_step w.tick cap c hcap hwt hd hb
    have ht1 : (if c.pending_tick = true then
        (({ (call_tick w.tick cap c 0).2 with pending_tick := false } : pn_connector_t),
          [invoked.tick]) else (c, [])).1 =
        (if c.pending_tick then { (call_tick w.tick cap c 0).2 with pending_tick := false }
          else c) := by
      split <;> rfl
    rw [ht1]
    generalize (if c.pending_tick then { (call_tick w.tick cap c 0).2 with pending_tick := false }
      else c) = c1 at h1 f1
    have hd1 := frame_handlers f1 hd
    obtain ⟨hrc, h2, f2⟩ := pn_io_handler_bounded w.io cap c1 hcap hwi hd1 h1
    have hio : call_io_handler w.io cap c1 = pn_io_handler w.io cap c1 := by
      simp only [call_io_handler, hd1.2.2.2]
    rw [hio]
    generalize pn_io_handler w.io cap c1 = r at hrc h2 f2
    have hdrv2 : r.2.driver = true := by
      have := congrArg (fun t => t.1) (f2.trans f1)
      simp only [pipeline_frame] at this
      rw [this]; exact hdrv
    simp only [hrc, ne_eq, not_true_eq_false, if_false]
    split
    · cases hs : w.shutdown_completes
      · simp only [pn_connector_shutdown_ssl, Bool.false_eq_true, if_false, Option.map_some']
        exact ⟨_, _, r.2, rfl, by simp, h2⟩
      · simp only [pn_connector_shutdown_ssl, if_true, pn_connector_close, if_pos rfl, hdrv2,
          Bool.not_true, Bool.false_eq_true, if_false, Option.map_some']
        exact ⟨_, _, { r.2 with status := 0, closed := true }, rfl, by simp [set_connector], h2⟩
    · exact ⟨_, _, r.2, rfl, by simp, h2⟩

theorem ex_calls_contract : io_contract ex_calls :=
  ⟨fun _ => le_refl _, fun _ => le_refl _, fun _ => le_refl _, fun _ => Int.natCast_nonneg _⟩

/-- C6 (buffer bounds): for a connector with `input_size ≤ capacity` and
`output_size ≤ capacity` (the capacity being a `size_t` value), each of read,
process_input, process_output, write, tick, the default io_handler and
`pn_connector_process` leaves both sizes at most the capacity, whatever the socket and
the transport return within their contracts. -/
theorem buffer_bounds (w wt : io_calls) (cap : Nat) (c : pn_connector_t) (now : Int)
    (hcap : cap < 18446744073709551616) (hw : io_contract w) (hwt : io_contract wt)
    (hd : default_handlers c) (hb : buffers_bounded cap c) :
    buffers_bounded cap (pn_connector_read w cap c) ∧
    buffers_bounded cap (pn_connector_process_input w c) ∧
    buffers_bounded cap (pn_connector_process_output w cap c) ∧
    buffers_bounded cap (pn_connector_write w c) ∧
    buffers_bounded cap (pn_connector_tick w cap c now).2 ∧
    buffers_bounded cap (pn_io_handler w cap c).2 ∧
    ∀ (completes : Bool) (d : pn_driver_t) (a : ptr), d.connectors a = some c →
      c.driver = true →
      ∃ d2 ev c2, pn_connector_process
          { tick := wt, io := w, shutdown_completes := completes } cap d (some a) = some (d2, ev) ∧
        d2.connectors a = some c2 ∧ buffers_bounded cap c2 :=
  ⟨pn_connector_read_bounded w cap c hcap hw hb,
    pn_connector_process_input_bounded w cap c hcap hw hb,
    pn_connector_process_output_bounded w cap c hcap hw hb,
    pn_connector_write_bounded w cap c hcap hw hb,
    pn_connector_tick_bounded w cap c now hcap hw hb,
    (pn_io_handler_bounded w cap c hcap hw hd hb).2.1,
    fun completes d a ha hdrv =>
      pn_connector_process_bounded { tick := wt, io := w, shutdown_completes := completes }
        cap d a c ha hdrv hcap hwt hw hd hb⟩

theorem buffer_bounds_witness :
    (4096 : Nat) < 18446744073709551616 ∧ io_contract ex_calls ∧
    default_handlers (ex_connector none none true false) ∧
    buffers_bounded 4096 (ex_connector none none true false) ∧
    (buffers_bounded 4096 (pn_connector_read ex_calls 4096 (ex_connector none none true false)) ∧
    buffers_bounded 4096
      (pn_connector_process_input ex_calls (ex_connector none none true false)) ∧
    buffers_bounded 4096
      (pn_connector_process_output ex_calls 4096 (ex_connector none none true false)) ∧
    buffers_bounded 4096 (pn_connector_write ex_calls (ex_connector none none true false)) ∧
    buffers_bounded 4096
      (pn_connector_tick ex_calls 4096 (ex_connector none none true false) 0).2 ∧
    buffers_bounded 4096 (pn_io_handler ex_calls 4096 (ex_connector none none true false)).2 ∧
    ∀ (completes : Bool) (d : pn_driver_t) (a : ptr),
      d.connectors a = some (ex_connector none none true false) →
      (ex_connector none none true false).driver = true →
      ∃ d2 ev c2, pn_connector_process
          { tick := ex_calls, io := ex_calls, shutdown_completes := completes } 4096 d (some a) =
            some (d2, ev) ∧
        d2.connectors a = some c2 ∧ buffers_bounded 4096 c2) :=
  ⟨by decide, ex_calls_contract, ⟨rfl, rfl, rfl, rfl⟩, ⟨Nat.zero_le _, Nat.zero_le _⟩,
    buffer_bounds ex_calls ex_calls 4096 (ex_connector none none true false) 0 (by decide)
      ex_calls_contract ex_calls_contract ⟨rfl, rfl, rfl, rfl⟩ ⟨Nat.zero_le _, Nat.zero_le _⟩⟩

/-- C7 (failing input): on the driver `ex_driver` (closed_count 1), closing the open
connector 20 once gives closed_count 2, closing it twice gives closed_count 3; the
connector itself is the same after one close and after two; and freeing it after the
double close leaves closed_count 2 although connector 30 is the only closed one left. -/
theorem pn_connector_close_twice_counts_twice :
    (pn_connector_close ex_driver (some 20)).map (fun d => d.closed_count) = some 2 ∧
    ((pn_connector_close ex_driver (some 20)).bind
      (fun d => pn_connector_close d (some 20))).map (fun d => d.closed_count) = some 3 ∧
    ((pn_connector_close ex_driver (some 20)).bind
      (fun d => pn_connector_close d (some 20))).map (fun d => (d.connectors 20).map
        (fun c => (c.closed, c.status))) =
      (pn_connector_close ex_driver (some 20)).map (fun d => (d.connectors 20).map
        (fun c => (c.closed, c.status))) ∧
    (((pn_connector_close ex_driver (some 20)).bind
      (fun d => pn_connector_close d (some 20))).bind
      (fun d => pn_connector_free d (some 20))).map
        (fun d => (d.closed_count, d.connector_count)) = some (2, 2) := by
  refine ⟨rfl, rfl, rfl, rfl⟩

theorem pn_io_handler_frame (w : io_calls) (cap : Nat) (c : pn_connector_t)
    (hd : default_handlers c) :
    pipeline_frame (pn_io_handler w cap c).2 = pipeline_frame c := by
  unfold pn_io_handler
  dsimp only
  have fr : pipeline_frame (if c.pending_read then
      { call_read w cap c with pending_read := false } else c) = pipeline_frame c := by
    split
    · simp only [call_read, hd.1]
      exact pn_connector_read_frame w cap c
    · rfl
  generalize (if c.pending_read then
      { call_read w cap c with pending_read := false } else c) = x1 at fr
  have f3 := (pn_connector_process_output_frame w cap _).trans
    ((pn_connector_process_input_frame w x1).trans fr)
  generalize pn_connector_process_output w cap (pn_connector_process_input w x1) = x3 at f3
  have hd3 := frame_handlers f3 hd
  split
  · simp only [call_write, hd3.2.1]
    exact (pn_connector_write_frame w x3).trans f3
  · exact f3

theorem process_tick_frame (w : io_calls) (cap : Nat) (c : pn_connector_t) :
    pipeline_frame (if c.pending_tick then
      { (pn_connector_tick w cap c 0).2 with pending_tick := false } else c) =
      pipeline_frame c := by
  split
  · exact pn_connector_tick_frame w cap c 0
  · rfl

/-- `pn_connector_process` on an open connector whose function pointers are the default
ones, with the calls through the pointers resolved. -/
theorem pn_connector_process_default_eq (w : process_calls) (cap : Nat) (d : pn_driver_t)
    (a : ptr) (c c1 c2 : pn_connector_t) (ha : d.connectors a = some c)
    (hd : default_handlers c) (hcl : c.closed = false)
    (hc1 : c1 = (if c.pending_tick then
      { (pn_connector_tick w.tick cap c 0).2 with pending_tick := false } else c))
    (hc2 : c2 = (pn_io_handler w.io cap c1).2) :
    pn_connector_process w cap d (some a) =
      if c2.output_size = 0 ∧ c2.input_done = true ∧ c2.output_done = true then
        (pn_connector_shutdown_ssl w.shutdown_completes
          { d with connectors := fun p => if p = a then some c2 else d.connectors p } a).map
          (fun d2 => (d2, (if c.pending_tick then [invoked.tick] else []) ++
            [invoked.io_handler, invoked.shutdown_ssl]))
      else
        some ({ d with connectors := fun p => if p = a then some c2 else d.connectors p },
          (if c.pending_tick then [invoked.tick] else []) ++ [invoked.io_handler]) := by
  have hd1 : default_handlers c1 := by
    rw [hc1]; exact frame_handlers (process_tick_frame w.tick cap c) hd
  unfold pn_connector_process
  simp only [ha, hcl, Bool.false_eq_true, if_false]
  have ht1 : (if c.pending_tick = true then
      (({ (call_tick w.tick cap c 0).2 with pending_tick := false } : pn_connector_t),
        [invoked.tick]) else (c, [])) = (c1, if c.pending_tick then [invoked.tick] else []) := by
    rw [hc1]
    simp only [call_tick, hd.2.2.1]
    split <;> rfl
  rw [ht1]
  dsimp only
  have hio : call_io_handler w.io cap c1 = (0, c2) := by
    simp only [call_io_handler, hd1.2.2.2, hc2]
    rfl
  rw [hio]
  simp only [ne_eq, not_true_eq_false, if_false]

theorem pn_connector_process_default (w : process_calls) (cap : Nat) (d : pn_driver_t) (a : ptr)
    (c c1 c2 : pn_connector_t) (ha : d.connectors a = some c) (hdrv : c.driver = true)
    (hd : default_handlers c) (hcl : c.closed = false)
    (hc1 : c1 = (if c.pending_tick then
      { (pn_connector_tick w.tick cap c 0).2 with pending_tick := false } else c))
    (hc2 : c2 = (pn_io_handler w.io cap c1).2) :
    ∃ d2 ev c3,
      pn_connector_process w cap d (some a) = some (d2, ev) ∧
      d2.connectors a = some c3 ∧
      (c3 = c2 ∨ (c3 = { c2 with status := 0, closed := true } ∧ drainable c2 ∧
        w.shutdown_completes = true)) ∧
      (drainable c2 → ev.count invoked.shutdown_ssl = 1 ∧
        (w.shutdown_completes = true → c3.closed = true)) ∧
      (¬ drainable c2 → ev.count invoked.shutdown_ssl = 0 ∧ c3 = c2) ∧
      (∀ p, p ≠ a → d2.connectors p = d.connectors p) := by
  have heq := pn_connector_process_default_eq w cap d a c c1 c2 ha hd hcl hc1 hc2
  have hd1 : default_handlers c1 := by
    rw [hc1]; exact frame_handlers (process_tick_frame w.tick cap c) hd
  have hdrv2 : c2.driver = true := by
    have f1 : pipeline_frame c1 = pipeline_frame c := by
      rw [hc1]; exact process_tick_frame w.tick cap c
    have f2 : pipeline_frame c2 = pipeline_frame c1 := by
      rw [hc2]; exact pn_io_handler_frame w.io cap c1 hd1
    have := congrArg (fun t => t.1) (f2.trans f1)
    simp only [pipeline_frame] at this
    rw [this]; exact hdrv
  have htev : (if c.pending_tick then [invoked.tick] else []).count invoked.shutdown_ssl = 0 := by
    split <;> simp
  by_cases hdr : drainable c2
  · rw [if_pos (show c2.output_size = 0 ∧ c2.input_done = true ∧ c2.output_done = true from hdr)]
      at heq
    cases hs : w.shutdown_completes
    · rw [hs] at heq
      refine ⟨_, _, c2, heq, by simp, Or.inl rfl, ?_, ?_, ?_⟩
      · intro _
        refine ⟨?_, by intro h; cases h⟩
        simp [List.count_append, htev]
      · intro h; exact absurd hdr h
      · intro p hp; simp [hp]
    · rw [hs] at heq
      have hclose : pn_connector_shutdown_ssl true
          { d with connectors := fun p => if p = a then some c2 else d.connectors p } a =
          some { d with
            connectors := set_connector (fun p => if p = a then some c2 else d.connectors p) a
              (fun x => { x with status := 0, closed := true })
            closed_count := d.closed_count + 1 } := by
        simp only [pn_connector_shutdown_ssl, if_true, pn_connector_close, if_pos rfl, hdrv2,
          Bool.not_true, Bool.false_eq_true, if_false]
      rw [hclose] at heq
      refine ⟨_, _, { c2 with status := 0, closed := true }, heq, by simp [set_connector],
        Or.inr ⟨rfl, hdr, rfl⟩, ?_, ?_, ?_⟩
      · intro _
        refine ⟨?_, fun _ => rfl⟩
        simp [List.count_append, htev]
      · intro h; exact absurd hdr h
      · intro p hp; simp [set_connector, hp]
  · rw [if_neg (show ¬ (c2.output_size = 0 ∧ c2.input_done = true ∧ c2.output_done = true)
      from hdr)] at heq
    refine ⟨_, _, c2, heq, by simp, Or.inl rfl, ?_, ?_, ?_⟩
    · intro h; exact absurd h hdr
    · intro _
      refine ⟨?_, rfl⟩
      simp [List.count_append, htev]
    · intro p hp; simp [hp]

theorem latched_refl (c : pn_connector_t) : latched c c := ⟨id, id⟩

theorem latched_trans {c c2 c3 : pn_connector_t} (h1 : latched c c2) (h2 : latched c2 c3) :
    latched c c3 := ⟨fun h => h2.1 (h1.1 h), fun h => h2.2 (h1.2 h)⟩

theorem pn_connector_read_latched (w : io_calls) (cap : Nat) (c : pn_connector_t) :
    latched c (pn_connector_read w cap c) := by
  unfold pn_connector_read
  dsimp only
  split <;> exact ⟨id, id⟩

theorem pn_connector_process_input_latched (w : io_calls) (c : pn_connector_t) :
    latched c (pn_connector_process_input w c) := by
  unfold pn_connector_process_input
  dsimp only
  split
  · split
    · split
      · exact ⟨id, id⟩
      · exact ⟨fun _ => rfl, id⟩
    · exact ⟨id, id⟩
  · exact ⟨id, id⟩

theorem pn_connector_process_output_latched (w : io_calls) (cap : Nat) (c : pn_connector_t) :
    latched c (pn_connector_process_output w cap c) := by
  unfold pn_connector_process_output
  dsimp only
  split
  · split
    · split <;> exact ⟨id, id⟩
    · split <;> exact ⟨id, fun _ => rfl⟩
  · split <;> exact ⟨id, id⟩

theorem pn_connector_write_latched (w : io_calls) (c : pn_connector_t) :
    latched c (pn_connector_write w c) := by
  unfold pn_connector_write
  dsimp only
  split
  · split
    · split <;> exact ⟨id, fun _ => rfl⟩
    · split <;> exact ⟨id, id⟩
  · split <;> exact ⟨id, id⟩

theorem pn_connector_tick_latched (w : io_calls) (cap : Nat) (c : pn_connector_t) (now : Int) :
    latched c (pn_connector_tick w cap c now).2 := by
  unfold pn_connector_tick
  split
  · exact ⟨id, id⟩
  · exact latched_trans (pn_connector_process_input_latched w c)
      (pn_connector_process_output_latched w cap _)

theorem pn_io_handler_latched (w : io_calls) (cap : Nat) (c : pn_connector_t)
    (hd : default_handlers c) : latched c (pn_io_handler w cap c).2 := by
  unfold pn_io_handler
  dsimp only
  have l1 : latched c (if c.pending_read then
      { call_read w cap c with pending_read := false } else c) := by
    split
    · simp only [call_read, hd.1]
      exact pn_connector_read_latched w cap c
    · exact ⟨id, id⟩
  have fr : pipeline_frame (if c.pending_read then
      { call_read w cap c with pending_read := false } else c) = pipeline_frame c := by
    split
    · simp only [call_read, hd.1]
      exact pn_connector_read_frame w cap c
    · rfl
  generalize (if c.pending_read then
      { call_read w cap c with pending_read := false } else c) = x1 at l1 fr
  have l3 := latched_trans l1 (latched_trans (pn_connector_process_input_latched w x1)
    (pn_connector_process_output_latched w cap _))
  have f3 := (pn_connector_process_output_frame w cap _).trans
    ((pn_connector_process_input_frame w x1).trans fr)
  generalize pn_connector_process_output w cap (pn_connector_process_input w x1) = x3 at l3 f3
  have hd3 := frame_handlers f3 hd
  split
  · simp only [call_write, hd3.2.1]
    exact latched_trans l3 (pn_connector_write_latched w x3)
  · exact l3

theorem pn_connector_close_eq (d : pn_driver_t) (a : ptr) (c : pn_connector_t)
    (ha : d.connectors a = some c) (hdrv : c.driver = true) :
    pn_connector_close d (some a) = some { d with
      connectors := set_connector d.connectors a (fun x => { x with status := 0, closed := true })
      closed_count := d.closed_count + 1 } := by
  simp only [pn_connector_close, ha, hdrv, Bool.not_true, Bool.false_eq_true, if_false]

/-- C9: once `closed` is true `pn_connector_process` is a no-op: it returns the driver
unchanged and invokes no callback; and right after `pn_connector_close` the connector has
`closed = true` and `status = 0` (so that a following process call is that no-op). -/
theorem process_noop_once_closed (w : process_calls) (cap : Nat) (d : pn_driver_t) (a : ptr)
    (c : pn_connector_t) (ha : d.connectors a = some c) :
    (c.closed = true → pn_connector_process w cap d (some a) = some (d, [])) ∧
    (c.driver = true → ∃ d2 c2, pn_connector_close d (some a) = some d2 ∧
      d2.connectors a = some c2 ∧ c2.closed = true ∧ c2.status = 0 ∧
      pn_connector_process w cap d2 (some a) = some (d2, [])) := by
  constructor
  · intro hcl
    simp [pn_connector_process, ha, hcl]
  · intro hdrv
    refine ⟨_, { c with status := 0, closed := true }, pn_connector_close_eq d a c ha hdrv,
      ?_, rfl, rfl, ?_⟩
    · simp [set_connector, ha]
    · simp [pn_connector_process, set_connector, ha]

theorem process_noop_once_closed_witness :
    ex_driver.connectors 30 = some (ex_connector none (some 20) false true) ∧
    ((ex_connector none (some 20) false true).closed = true →
      pn_connector_process ex_process_calls 4096 ex_driver (some 30) = some (ex_driver, [])) ∧
    ((ex_connector none (some 20) false true).driver = true → ∃ d2 c2,
      pn_connector_close ex_driver (some 30) = some d2 ∧
      d2.connectors 30 = some c2 ∧ c2.closed = true ∧ c2.status = 0 ∧
      pn_connector_process ex_process_calls 4096 d2 (some 30) = some (d2, [])) :=
  ⟨rfl, process_noop_once_closed ex_process_calls 4096 ex_driver 30 _ rfl⟩

/-- C10 (input latching): with `input_done` set `pn_connector_process_input` returns the
connector unchanged, whatever the transport would answer; and none of read,
process_input, process_output, write, tick, the default io_handler, `pn_connector_process`
and `pn_connector_close` turns `input_done` or `output_done` from true back to false. -/
theorem done_flags_latch (w : io_calls) (pw : process_calls) (cap : Nat) (c : pn_connector_t)
    (now : Int) (hd : default_handlers c) :
    (c.input_done = true → pn_connector_process_input w c = c) ∧
    latched c (pn_connector_read w cap c) ∧
    latched c (pn_connector_process_input w c) ∧
    latched c (pn_connector_process_output w cap c) ∧
    latched c (pn_connector_write w c) ∧
    latched c (pn_connector_tick w cap c now).2 ∧
    latched c (pn_io_handler w cap c).2 ∧
    (∀ (d : pn_driver_t) (a : ptr), d.connectors a = some c → c.driver = true →
      (∃ d2 ev c2, pn_connector_process pw cap d (some a) = some (d2, ev) ∧
        d2.connectors a = some c2 ∧ latched c c2) ∧
      (∃ d2 c2, pn_connector_close d (some a) = some d2 ∧
        d2.connectors a = some c2 ∧ latched c c2)) := by
  refine ⟨?_, pn_connector_read_latched w cap c, pn_connector_process_input_latched w c,
    pn_connector_process_output_latched w cap c, pn_connector_write_latched w c,
    pn_connector_tick_latched w cap c now, pn_io_handler_latched w cap c hd, ?_⟩
  · intro h
    simp [pn_connector_process_input, h]
  · intro d a ha hdrv
    constructor
    · by_cases hcl : c.closed = true
      · exact ⟨d, [], c, by simp [pn_connector_process, ha, hcl], ha, latched_refl c⟩
      · have hcl2 : c.closed = false := by simpa using hcl
        obtain ⟨d2, ev, c3, hp, hc3, hor, _, _, _⟩ :=
          pn_connector_process_default pw cap d a c _ _ ha hdrv hd hcl2 rfl rfl
        have l1 : latched c (if c.pending_tick then
            { (pn_connector_tick pw.tick cap c 0).2 with pending_tick := false } else c) := by
          split
          · exact pn_connector_tick_latched pw.tick cap c 0
          · exact latched_refl c
        have l2 := latched_trans l1 (pn_io_handler_latched pw.io cap _
          (frame_handlers (process_tick_frame pw.tick cap c) hd))
        refine ⟨d2, ev, c3, hp, hc3, ?_⟩
        rcases hor with h | ⟨h, _, _⟩
        · rw [h]; exact l2
        · rw [h]; exact l2
    · refine ⟨_, { c with status := 0, closed := true }, pn_connector_close_eq d a c ha hdrv,
        ?_, ⟨id, id⟩⟩
      simp [set_connector, ha]

theorem done_flags_latch_witness :
    default_handlers ex_latched_connector ∧
    (ex_latched_connector.input_done = true →
      pn_connector_process_input ex_calls ex_latched_connector =
        ex_latched_connector) ∧
    latched ex_latched_connector
      (pn_connector_read ex_calls 4096 ex_latched_connector) ∧
    latched ex_latched_connector
      (pn_connector_process_input ex_calls ex_latched_connector) ∧
    latched ex_latched_connector
      (pn_connector_process_output ex_calls 4096 ex_latched_connector) ∧
    latched ex_latched_connector
      (pn_connector_write ex_calls ex_latched_connector) ∧
    latched ex_latched_connector
      (pn_connector_tick ex_calls 4096 ex_latched_connector 0).2 ∧
    latched ex_latched_connector
      (pn_io_handler ex_calls 4096 ex_latched_connector).2 ∧
    (∀ (d : pn_driver_t) (a : ptr), d.connectors a = some ex_latched_connector →
      ex_latched_connector.driver = true →
      (∃ d2 ev c2, pn_connector_process ex_process_calls 4096 d (some a) = some (d2, ev) ∧
        d2.connectors a = some c2 ∧ latched ex_latched_connector c2) ∧
      (∃ d2 c2, pn_connector_close d (some a) = some d2 ∧
        d2.connectors a = some c2 ∧ latched ex_latched_connector c2)) :=
  ⟨⟨rfl, rfl, rfl, rfl⟩,
    done_flags_latch ex_calls ex_process_calls 4096 ex_latched_connector 0
      ⟨rfl, rfl, rfl, rfl⟩⟩

theorem tick_events_count (b : Bool) (x y : pn_connector_t) :
    (if b = true then (x, [invoked.tick]) else (y, ([] : List invoked))).2.count
      invoked.shutdown_ssl = 0 := by
  cases b <;> simp

theorem pn_connector_close_cases (d : pn_driver_t) (a : ptr) (c : pn_connector_t)
    (ha : d.connectors a = some c) :
    pn_connector_close d (some a) =
      if c.driver = true then
        some { d with
          connectors := set_connector d.connectors a
            (fun x => { x with status := 0, closed := true })
          closed_count := d.closed_count + 1 }
      else none := by
  cases hdrv : c.driver <;> simp [pn_connector_close, ha, hdrv]

/-- One call of `pn_connector_process`, whatever the function pointers of the connector
are: `pn_connector_shutdown_ssl` is invoked at most once, and when it is invoked and the
shutdown completes, the connector is closed afterwards. -/
theorem pn_connector_process_shutdown_count (w : process_calls) (cap : Nat) (d d2 : pn_driver_t)
    (a : ptr) (ev : List invoked) (h : pn_connector_process w cap d (some a) = some (d2, ev)) :
    ev.count invoked.shutdown_ssl ≤ 1 ∧
    (∃ c2, d2.connectors a = some c2 ∧
      (ev.count invoked.shutdown_ssl = 1 → w.shutdown_completes = true → c2.closed = true)) := by
  unfold pn_connector_process at h
  cases ha : d.connectors a with
  | none => simp [ha] at h
  | some c =>
    simp only [ha] at h
    by_cases hcl : c.closed = true
    · simp only [hcl, if_true, Option.some.injEq, Prod.mk.injEq] at h
      obtain ⟨h1, h2⟩ := h
      subst h1; subst h2
      exact ⟨by simp, c, ha, by simp⟩
    · simp only [hcl, Bool.false_eq_true, if_false] at h
      have hcount := tick_events_count c.pending_tick
        ({ (call_tick w.tick cap c 0).2 with pending_tick := false }) c
      generalize (if c.pending_tick = true then
        (({ (call_tick w.tick cap c 0).2 with pending_tick := false } : pn_connector_t),
          [invoked.tick]) else (c, [])) = t at h hcount
      generalize call_io_handler w.io cap t.1 = r at h
      split at h
      · rw [pn_connector_close_cases _ a r.2 (by simp)] at h
        split at h
        · simp only [Option.map_some', Option.some.injEq, Prod.mk.injEq] at h
          obtain ⟨h1, h2⟩ := h
          subst h1; subst h2
          refine ⟨by simp [List.count_append, hcount], { r.2 with status := 0, closed := true },
            by simp [set_connector], fun _ _ => rfl⟩
        · cases h
      · split at h
        · cases hs : w.shutdown_completes
          · simp only [hs, pn_connector_shutdown_ssl, Bool.false_eq_true, if_false,
              Option.map_some', Option.some.injEq, Prod.mk.injEq] at h
            obtain ⟨h1, h2⟩ := h
            subst h1; subst h2
            refine ⟨by simp [List.count_append, hcount], r.2, by simp, ?_⟩
            intro _ hc; cases hc
          · simp only [hs, pn_connector_shutdown_ssl, if_true] at h
            rw [pn_connector_close_cases _ a r.2 (by simp)] at h
            split at h
            · simp only [Option.map_some', Option.some.injEq, Prod.mk.injEq] at h
              obtain ⟨h1, h2⟩ := h
              subst h1; subst h2
              refine ⟨by simp [List.count_append, hcount],
                { r.2 with status := 0, closed := true },
                by simp [set_connector], fun _ _ => rfl⟩
            · cases h
        · simp only [Option.some.injEq, Prod.mk.injEq] at h
          obtain ⟨h1, h2⟩ := h
          subst h1; subst h2
          refine ⟨by simp [List.count_append, hcount], r.2, by simp, ?_⟩
          intro hc
          simp [List.count_append, hcount] at hc

theorem process_seq_closed (cap : Nat) (a : ptr) (c : pn_connector_t) :
    ∀ (ws : List process_calls) (d : pn_driver_t), d.connectors a = some c → c.closed = true →
      process_seq cap a ws d = some (d, []) := by
  intro ws
  induction ws with
  | nil => intro d _ _; rfl
  | cons w ws ih =>
    intro d ha hcl
    have h1 : pn_connector_process w cap d (some a) = some (d, []) := by
      simp [pn_connector_process, ha, hcl]
    simp [process_seq, h1, ih d ha hcl]

theorem process_seq_shutdown_count (cap : Nat) (a : ptr) :
    ∀ (ws : List process_calls) (d d2 : pn_driver_t) (ev : List invoked),
      (∀ w ∈ ws, w.shutdown_completes = true) →
      process_seq cap a ws d = some (d2, ev) → ev.count invoked.shutdown_ssl ≤ 1 := by
  intro ws
  induction ws with
  | nil =>
    intro d d2 ev _ h
    simp only [process_seq, Option.some.injEq, Prod.mk.injEq] at h
    rw [← h.2]; simp
  | cons w ws ih =>
    intro d d2 ev hcomp h
    simp only [process_seq, Option.bind_eq_some, Option.map_eq_some'] at h
    obtain ⟨⟨d1, e1⟩, h1, ⟨d3, e2⟩, h2, h3⟩ := h
    simp only [Prod.mk.injEq] at h3
    obtain ⟨_, h4⟩ := h3
    subst h4
    obtain ⟨hle, c1, hc1, hclosed⟩ := pn_connector_process_shutdown_count w cap d d1 a e1 h1
    rw [List.count_append]
    by_cases hone : e1.count invoked.shutdown_ssl = 1
    · have hcl := hclosed hone (hcomp w (List.mem_cons_self _ _))
      have := process_seq_closed cap a c1 ws d1 hc1 hcl
      rw [this] at h2
      simp only [Option.some.injEq, Prod.mk.injEq] at h2
      rw [← h2.2]
      simp [hone]
    · have h0 : e1.count invoked.shutdown_ssl = 0 := by omega
      have := ih d1 d3 e2 (fun w2 hw2 => hcomp w2 (List.mem_cons_of_mem _ hw2)) h2
      omega

theorem frame_driver_closed {c c2 : pn_connector_t} (h : pipeline_frame c2 = pipeline_frame c) :
    c2.driver = c.driver ∧ c2.closed = c.closed := by
  simp only [pipeline_frame, Prod.mk.injEq] at h
  exact ⟨h.1, h.2.2.2.2.2.2.1⟩

theorem process_seq_default (cap : Nat) (a : ptr) :
    ∀ (ws : List process_calls) (d : pn_driver_t) (c : pn_connector_t),
      d.connectors a = some c → c.driver = true → default_handlers c →
      (∀ w ∈ ws, w.shutdown_completes = true) →
      ∃ d2 ev c2, process_seq cap a ws d = some (d2, ev) ∧ d2.connectors a = some c2 ∧
        (c.closed = false → ws ≠ [] → (drainable c2 ↔ ev.count invoked.shutdown_ssl = 1)) ∧
        (c.closed = false → (c2.closed = true ↔ ev.count invoked.shutdown_ssl = 1)) := by
  intro ws
  induction ws with
  | nil =>
    intro d c ha _ _ _
    refine ⟨d, [], c, rfl, ha, fun _ h => absurd rfl h, fun hcl => ?_⟩
    simp [hcl]
  | cons w ws ih =>
    intro d c ha hdrv hd hcomp
    by_cases hcl : c.closed = true
    · refine ⟨d, [], c, process_seq_closed cap a c (w :: ws) d ha hcl, ha, ?_, ?_⟩
      · intro h; rw [hcl] at h; cases h
      · intro h; rw [hcl] at h; cases h
    · have hcl2 : c.closed = false := by simpa using hcl
      obtain ⟨d1, e1, c3, hp, hc3, hor, hdrain, hnot, _⟩ :=
        pn_connector_process_default w cap d a c _ _ ha hdrv hd hcl2 rfl rfl
      have f1 := process_tick_frame w.tick cap c
      have hd1 := frame_handlers f1 hd
      have f2 := (pn_io_handler_frame w.io cap _ hd1).trans f1
      have hd2 := frame_handlers f2 hd
      obtain ⟨hdrv2, hclosed2⟩ := frame_driver_closed f2
      generalize (pn_io_handler w.io cap (if c.pending_tick then
        { (pn_connector_tick w.tick cap c 0).2 with pending_tick := false } else c)).2 = c2
        at hor hdrain hnot f2 hd2 hdrv2 hclosed2
      by_cases hdr : drainable c2
      · obtain ⟨hone, hclosed⟩ := hdrain hdr
        have hc3closed := hclosed (hcomp w (List.mem_cons_self _ _))
        have hrest := process_seq_closed cap a c3 ws d1 hc3 hc3closed
        have hc3dr : drainable c3 := by
          rcases hor with h | ⟨h, _, _⟩
          · rw [h]; exact hdr
          · rw [h]; exact hdr
        refine ⟨d1, e1 ++ [], c3, by simp [process_seq, hp, hrest], hc3, ?_, ?_⟩
        · intro _ _; simp [hc3dr, hone]
        · intro _; simp [hc3closed, hone]
      · obtain ⟨hzero, hc3eq⟩ := hnot hdr
        subst hc3eq
        cases ws with
        | nil =>
          refine ⟨d1, e1 ++ [], c3, by simp [process_seq, hp], hc3, ?_, ?_⟩
          · intro _ _; simp [hdr, hzero]
          · intro _
            rw [hclosed2, hcl2]
            simp [hzero]
        | cons w2 ws2 =>
          obtain ⟨d2, e2, cf, hseq, hcf, hiff1, hiff2⟩ := ih d1 c3 hc3 (by rw [hdrv2]; exact hdrv) hd2
            (fun x hx => hcomp x (List.mem_cons_of_mem _ hx))
          have hopen : c3.closed = false := by rw [hclosed2]; exact hcl2
          have hrun : process_seq cap a (w :: w2 :: ws2) d = some (d2, e1 ++ e2) := by
            show (pn_connector_process w cap d (some a)).bind _ = _
            rw [hp, Option.some_bind, hseq]
            rfl
          refine ⟨d2, e1 ++ e2, cf, hrun, hcf, ?_, ?_⟩
          · intro _ _
            rw [List.count_append, hzero, Nat.zero_add]
            exact hiff1 hopen (by simp)
          · intro _
            rw [List.count_append, hzero, Nat.zero_add]
            exact hiff2 hopen

/-- C8 (counterexample): on the open, drainable connector of `ex_drained_driver`, two
calls of `pn_connector_process` during which the TLS shutdown does not complete invoke
`pn_connector_shutdown_ssl` twice, and the connector is still open afterwards. -/
theorem shutdown_ssl_invoked_twice :
    ∃ d2 ev, process_seq 4096 10 [ex_process_calls, ex_process_calls] ex_drained_driver =
        some (d2, ev) ∧
      ev = [invoked.io_handler, invoked.shutdown_ssl, invoked.io_handler, invoked.shutdown_ssl] ∧
      ev.count invoked.shutdown_ssl = 2 ∧ ¬ ev.count invoked.shutdown_ssl ≤ 1 ∧
      (d2.connectors 10).map (fun c => c.closed) = some false :=
  ⟨_, _, rfl, rfl, by decide, by decide, rfl⟩

theorem lor_eq_of_land_eq (s m : Nat) (h : s &&& m = m) : s ||| m = s := by
  apply Nat.eq_of_testBit_eq
  intro i
  have := congrArg (fun x => x.testBit i) h
  simp only [Nat.testBit_and] at this
  rw [Nat.testBit_or]
  cases hs : s.testBit i <;> cases hm : m.testBit i <;> simp_all

theorem bit_clear_land (s m : Nat) : bit_clear s m &&& m = 0 := by
  apply Nat.eq_of_testBit_eq
  intro i
  simp only [bit_clear, Nat.testBit_and, Nat.testBit_xor, Nat.zero_testBit]
  cases s.testBit i <;> cases m.testBit i <;> rfl

theorem bit_clear_testBit (s m i : Nat) (h : m.testBit i = false) :
    (bit_clear s m).testBit i = s.testBit i := by
  simp only [bit_clear, Nat.testBit_and, Nat.testBit_xor, h]
  cases s.testBit i <;> rfl

/-- On a closed connector with `output_done` set, three bytes of output left and
`status = 0` (as `pn_connector_close` leaves it), a direct call of
`pn_connector_process_output` would set WANT_WRITE in `status`.  `pn_connector_process`
returns at once on a closed connector and never makes that call. -/
theorem output_done_sets_want_write :
    ex_stalled_connector.output_done = true ∧ ex_stalled_connector.status = 0 ∧
    (pn_connector_process_output ex_calls 4096 ex_stalled_connector).status = PN_SEL_WR ∧
    pn_connector_process_output ex_calls 4096 ex_stalled_connector ≠ ex_stalled_connector := by
  refine ⟨rfl, rfl, rfl, ?_⟩
  intro h
  have := congrArg (fun c => c.status) h
  exact absurd this (by decide)

/-- C18 (process_input byte handling): with `input_done` clear and input buffered or
`input_eos` set, a transport answer `k` with `0 ≤ k ≤ input_size` leaves
`input_size - k` bytes, which are the old bytes from offset `k` on in order, and leaves
`input_done` clear; a negative answer empties the buffer and sets `input_done`.  With an
empty buffer and `input_eos` clear the transport is not called and nothing changes. -/
theorem process_input_bytes (w : io_calls) (c : pn_connector_t)
    (hsize : c.input_size < 18446744073709551616) :
    (c.input_done = false → (0 < c.input_size ∨ c.input_eos = true) →
      (0 ≤ w.pn_input c.input_size → w.pn_input c.input_size ≤ c.input_size →
        (pn_connector_process_input w c).input_size =
            c.input_size - (w.pn_input c.input_size).toNat ∧
          (∀ i, i < (pn_connector_process_input w c).input_size →
            (pn_connector_process_input w c).input i =
              c.input ((w.pn_input c.input_size).toNat + i)) ∧
          (pn_connector_process_input w c).input_done = false) ∧
      (w.pn_input c.input_size < 0 →
        (pn_connector_process_input w c).input_size = 0 ∧
          (pn_connector_process_input w c).input_done = true)) ∧
    (c.input_size = 0 → c.input_eos = false → pn_connector_process_input w c = c) := by
  constructor
  · intro hdone hne
    have hcond : (decide (c.input_size > 0) || c.input_eos) = true := by
      rcases hne with h | h
      · simp [h]
      · simp [h]
    have h2 : (!c.input_done) = true := by rw [hdone]; rfl
    constructor
    · intro h0 hle
      have hsz : to_size_t ((c.input_size : Int) - w.pn_input c.input_size) =
          c.input_size - (w.pn_input c.input_size).toNat := by
        unfold to_size_t
        omega
      have heq : pn_connector_process_input w c =
          pn_connector_consume c (w.pn_input c.input_size) := by
        unfold pn_connector_process_input
        rw [h2, hcond]
        simp only [if_true, ge_iff_le, h0]
      rw [heq]
      unfold pn_connector_consume
      dsimp only
      rw [hsz]
      refine ⟨rfl, ?_, hdone⟩
      intro i hi
      simp only [memmove, hi, if_true]
      rw [Nat.add_comm]
    · intro hneg
      have heq : pn_connector_process_input w c =
          { pn_connector_consume c c.input_size with input_done := true } := by
        unfold pn_connector_process_input
        rw [h2, hcond]
        simp only [if_true, ge_iff_le, not_le.2 hneg, if_false]
      rw [heq]
      unfold pn_connector_consume
      dsimp only
      refine ⟨?_, rfl⟩
      unfold to_size_t
      omega
  · intro hz heos
    unfold pn_connector_process_input
    have hcond : (decide (c.input_size > 0) || c.input_eos) = false := by simp [hz, heos]
    rw [hcond]
    simp

/-- The status word after `pn_connector_write`: WANT_WRITE is clear when no output is
left, and every other bit is as before. -/
theorem pn_connector_write_status (w : io_calls) (c : pn_connector_t) :
    ((pn_connector_write w c).output_size = 0 →
      (pn_connector_write w c).status &&& PN_SEL_WR = 0) ∧
    (∀ i, PN_SEL_WR.testBit i = false →
      (pn_connector_write w c).status.testBit i = c.status.testBit i) := by
  unfold pn_connector_write
  dsimp only
  split
  · split
    · split
      · exact ⟨fun _ => bit_clear_land _ _, fun i hi => bit_clear_testBit _ _ i hi⟩
      · rename_i h; exact absurd rfl h
    · split
      · exact ⟨fun _ => bit_clear_land _ _, fun i hi => bit_clear_testBit _ _ i hi⟩
      · rename_i h; exact ⟨fun h2 => absurd h2 h, fun _ _ => rfl⟩
  · split
    · exact ⟨fun _ => bit_clear_land _ _, fun i hi => bit_clear_testBit _ _ i hi⟩
    · rename_i h; exact ⟨fun h2 => absurd h2 h, fun _ _ => rfl⟩

/-- C19 (write byte handling): with output buffered, a `send` answer `n` with
`0 ≤ n ≤ output_size` leaves `output_size - n` bytes, which are the old bytes from offset
`n` on in order, and leaves `output_done` as it was; a negative answer empties the buffer
and sets `output_done`.  In every case, after the write WANT_WRITE is clear in `status`
when `output_size` is zero, and every other status bit is unchanged. -/
theorem write_bytes (w : io_calls) (c : pn_connector_t)
    (hsize : c.output_size < 18446744073709551616) :
    (0 < c.output_size →
      (0 ≤ w.send c.output_size → w.send c.output_size ≤ c.output_size →
        (pn_connector_write w c).output_size = c.output_size - (w.send c.output_size).toNat ∧
          (∀ i, i < (pn_connector_write w c).output_size →
            (pn_connector_write w c).output i = c.output ((w.send c.output_size).toNat + i)) ∧
          (pn_connector_write w c).output_done = c.output_done) ∧
      (w.send c.output_size < 0 →
        (pn_connector_write w c).output_size = 0 ∧
          (pn_connector_write w c).output_done = true)) ∧
    ((pn_connector_write w c).output_size = 0 →
      (pn_connector_write w c).status &&& PN_SEL_WR = 0) ∧
    (∀ i, PN_SEL_WR.testBit i = false →
      (pn_connector_write w c).status.testBit i = c.status.testBit i) := by
  refine ⟨?_, (pn_connector_write_status w c).1, (pn_connector_write_status w c).2⟩
  intro hpos
  constructor
  · intro h0 hle
    have hsz : to_size_t ((c.output_size : Int) - w.send c.output_size) =
        c.output_size - (w.send c.output_size).toNat := by
      unfold to_size_t
      omega
    unfold pn_connector_write
    dsimp only
    rw [if_pos hpos, if_neg (not_lt.2 h0), hsz]
    split
    · rename_i hz
      refine ⟨by first | exact hz.symm | exact hz | rfl, ?_, rfl⟩
      intro i hi
      simp only [memmove]
      rw [if_pos hi, Nat.add_comm]
    · refine ⟨rfl, ?_, rfl⟩
      intro i hi
      simp only [memmove]
      rw [if_pos hi, Nat.add_comm]
  · intro hneg
    unfold pn_connector_write
    dsimp only
    rw [if_pos hpos, if_pos hneg]
    simp

theorem process_input_bytes_witness :
    ex_buffered_connector.input_size < 18446744073709551616 ∧
    ((ex_buffered_connector.input_done = false →
      (0 < ex_buffered_connector.input_size ∨ ex_buffered_connector.input_eos = true) →
      (0 ≤ ex_partial_calls.pn_input ex_buffered_connector.input_size →
        ex_partial_calls.pn_input ex_buffered_connector.input_size ≤
          ex_buffered_connector.input_size →
        (pn_connector_process_input ex_partial_calls ex_buffered_connector).input_size =
            ex_buffered_connector.input_size -
              (ex_partial_calls.pn_input ex_buffered_connector.input_size).toNat ∧
          (∀ i, i < (pn_connector_process_input ex_partial_calls
              ex_buffered_connector).input_size →
            (pn_connector_process_input ex_partial_calls ex_buffered_connector).input i =
              ex_buffered_connector.input
                ((ex_partial_calls.pn_input ex_buffered_connector.input_size).toNat + i)) ∧
          (pn_connector_process_input ex_partial_calls ex_buffered_connector).input_done =
            false) ∧
      (ex_partial_calls.pn_input ex_buffered_connector.input_size < 0 →
        (pn_connector_process_input ex_partial_calls ex_buffered_connector).input_size = 0 ∧
          (pn_connector_process_input ex_partial_calls ex_buffered_connector).input_done =
            true)) ∧
    (ex_buffered_connector.input_size = 0 → ex_buffered_connector.input_eos = false →
      pn_connector_process_input ex_partial_calls ex_buffered_connector =
        ex_buffered_connector)) :=
  ⟨by decide, process_input_bytes ex_partial_calls ex_buffered_connector (by decide)⟩

theorem write_bytes_witness :
    ex_buffered_connector.output_size < 18446744073709551616 ∧
    ((0 < ex_buffered_connector.output_size →
      (0 ≤ ex_partial_calls.send ex_buffered_connector.output_size →
        ex_partial_calls.send ex_buffered_connector.output_size ≤
          ex_buffered_connector.output_size →
        (pn_connector_write ex_partial_calls ex_buffered_connector).output_size =
            ex_buffered_connector.output_size -
              (ex_partial_calls.send ex_buffered_connector.output_size).toNat ∧
          (∀ i, i < (pn_connector_write ex_partial_calls ex_buffered_connector).output_size →
            (pn_connector_write ex_partial_calls ex_buffered_connector).output i =
              ex_buffered_connector.output
                ((ex_partial_calls.send ex_buffered_connector.output_size).toNat + i)) ∧
          (pn_connector_write ex_partial_calls ex_buffered_connector).output_done =
            ex_buffered_connector.output_done) ∧
      (ex_partial_calls.send ex_buffered_connector.output_size < 0 →
        (pn_connector_write ex_partial_calls ex_buffered_connector).output_size = 0 ∧
          (pn_connector_write ex_partial_calls ex_buffered_connector).output_done = true)) ∧
    ((pn_connector_write ex_partial_calls ex_buffered_connector).output_size = 0 →
      (pn_connector_write ex_partial_calls ex_buffered_connector).status &&& PN_SEL_WR = 0) ∧
    (∀ i, PN_SEL_WR.testBit i = false →
      (pn_connector_write ex_partial_calls ex_buffered_connector).status.testBit i =
        ex_buffered_connector.status.testBit i)) :=
  ⟨by decide, write_bytes ex_partial_calls ex_buffered_connector (by decide)⟩

theorem pn_connector_process_output_input_side (w : io_calls) (cap : Nat) (c : pn_connector_t) :
    input_side (pn_connector_process_output w cap c) = input_side c := by
  unfold pn_connector_process_output
  dsimp only
  split
  · split
    · split <;> rfl
    · split <;> rfl
  · split <;> rfl

theorem pn_connector_write_input_side (w : io_calls) (c : pn_connector_t) :
    input_side (pn_connector_write w c) = input_side c := by
  unfold pn_connector_write
  dsimp only
  split
  · split
    · split <;> rfl
    · split <;> rfl
  · split <;> rfl

/-- C12 (counterexample): on a connector with `input_done` set and an empty input buffer,
a default io_handler call with a read pending in which `recv` delivers five bytes ends
with `input_size = 5`: the bytes stay in the input buffer. -/
theorem input_done_keeps_received_bytes :
    default_handlers ex_refusing_connector ∧ ex_refusing_connector.input_done = true ∧
    ex_refusing_connector.input_size = 0 ∧ ex_refusing_connector.pending_read = true ∧
    ex_partial_calls.recv 4096 = 5 ∧
    (pn_io_handler ex_partial_calls 4096 ex_refusing_connector).2.input_size = 5 ∧
    (pn_io_handler ex_partial_calls 4096 ex_refusing_connector).2.input_size ≠ 0 := by
  refine ⟨by decide, rfl, rfl, rfl, rfl, ?_, ?_⟩ <;> decide

theorem pn_io_handler_input_side (w : io_calls) (cap : Nat) (c : pn_connector_t)
    (hd : default_handlers c) (hdone : c.input_done = true) (hpr : c.pending_read = true) :
    input_side (pn_io_handler w cap c).2 = input_side (pn_connector_read w cap c) := by
  have hrd : (pn_connector_read w cap c).input_done = true := by
    unfold pn_connector_read
    dsimp only
    split <;> exact hdone
  have hfr := pn_connector_read_frame w cap c
  unfold pn_io_handler
  dsimp only
  rw [if_pos hpr]
  have hcr : call_read w cap c = pn_connector_read w cap c := by
    unfold call_read
    rw [hd.1]
  rw [hcr]
  generalize pn_connector_read w cap c = c1 at hrd hfr ⊢
  have h1 : pn_connector_process_input w { c1 with pending_read := false } =
      { c1 with pending_read := false } := by
    unfold pn_connector_process_input
    have h2 : (!({ c1 with pending_read := false } : pn_connector_t).input_done) = false := by
      show (!c1.input_done) = false
      rw [hrd]; rfl
    rw [h2]
    rfl
  rw [h1]
  have h3 : input_side (pn_connector_process_output w cap { c1 with pending_read := false }) =
      input_side c1 := by
    rw [pn_connector_process_output_input_side]; rfl
  have hfr3 : pipeline_frame (pn_connector_process_output w cap
      { c1 with pending_read := false }) = pipeline_frame c := by
    rw [pn_connector_process_output_frame]; exact hfr
  generalize pn_connector_process_output w cap { c1 with pending_read := false } = c3
    at h3 hfr3 ⊢
  split
  · have h4 : call_write w c3 = pn_connector_write w c3 := by
      unfold call_write
      rw [(frame_handlers hfr3 hd).2.1]
    rw [h4]
    have h5 := pn_connector_write_input_side w c3
    exact h5.trans h3
  · exact h3

/-- C12 (amended): on a connector with `input_done` set, an empty input buffer and the
default function pointers, a default io_handler call with a read pending in which `recv`
delivers `n > 0` bytes ends with `input_size = n`: the `n` bytes received are stored at
the start of the input buffer and stay there, they are not handed to the transport, and
`input_done` stays set. -/
theorem bytes_after_input_done (w : io_calls) (cap : Nat) (c : pn_connector_t)
    (hcap : cap < 18446744073709551616) (hd : default_handlers c)
    (hdone : c.input_done = true) (hz : c.input_size = 0) (hpr : c.pending_read = true)
    (hn : 0 < w.recv cap) (hle : w.recv cap ≤ cap) :
    (pn_io_handler w cap c).2.input_size = (w.recv cap).toNat ∧
    (∀ i, i < (w.recv cap).toNat → (pn_io_handler w cap c).2.input i = w.recv_data i) ∧
    (pn_io_handler w cap c).2.input_done = true := by
  have h := pn_io_handler_input_side w cap c hd hdone hpr
  have hreq : to_size_t ((cap : Int) - c.input_size) = cap := by
    rw [hz]
    have h1 := to_size_t_eq (x := (cap : Int)) (by omega) (by omega)
    simpa using h1
  have hsz : to_size_t (((c.input_size : Nat) : Int) + w.recv cap) = (w.recv cap).toNat := by
    rw [hz]
    have h1 := to_size_t_eq (x := w.recv cap) (by omega) (by omega)
    simpa using h1
  have hr : input_side (pn_connector_read w cap c) =
      (buf_store c.input c.input_size (w.recv cap).toNat w.recv_data, (w.recv cap).toNat,
        c.input_eos, c.input_done) := by
    unfold pn_connector_read
    dsimp only
    rw [hreq, if_neg (by omega), hsz]
    rfl
  rw [hr] at h
  simp only [input_side, Prod.mk.injEq] at h
  obtain ⟨h1, h2, -, h4⟩ := h
  refine ⟨h2, ?_, h4.trans hdone⟩
  intro i hi
  rw [h1, hz]
  unfold buf_store
  simp [hi]

theorem bytes_after_input_done_witness :
    (4096 : Nat) < 18446744073709551616 ∧ default_handlers ex_refusing_connector ∧
    ex_refusing_connector.input_done = true ∧ ex_refusing_connector.input_size = 0 ∧
    ex_refusing_connector.pending_read = true ∧ 0 < ex_partial_calls.recv 4096 ∧
    ex_partial_calls.recv 4096 ≤ 4096 ∧
    ((pn_io_handler ex_partial_calls 4096 ex_refusing_connector).2.input_size =
        (ex_partial_calls.recv 4096).toNat ∧
      (∀ i, i < (ex_partial_calls.recv 4096).toNat →
        (pn_io_handler ex_partial_calls 4096 ex_refusing_connector).2.input i =
          ex_partial_calls.recv_data i) ∧
      (pn_io_handler ex_partial_calls 4096 ex_refusing_connector).2.input_done = true) :=
  ⟨by decide, by decide, rfl, rfl, rfl, by decide, by decide,
    bytes_after_input_done ex_partial_calls 4096 ex_refusing_connector (by decide) (by decide)
      rfl rfl rfl (by decide) (by decide)⟩

theorem pn_connector_fd_fresh (d : pn_driver_t) (a : ptr) (transport sasl : Option ptr)
    (fd : Int) (context : Option ptr) (hfresh : d.connectors a = none) :
    ∃ d2 c, pn_connector_fd (some a) transport sasl d fd context = some (some a, d2) ∧
      d2.connectors a = some c ∧ c.driver = true ∧ c.listener = none ∧
      c.transport = transport ∧ c.closed = false ∧
      listener_side d2 = listener_side d := by
  unfold pn_connector_fd
  simp only [hfresh, Option.isSome_none, Bool.false_eq_true, if_false]
  generalize hc1 : pn_connector_trace _ d.trace = c1
  have hc1d : c1.driver = true := by rw [← hc1]; rfl
  have hc1l : c1.listener = none := by rw [← hc1]; rfl
  have hc1t : c1.transport = transport := by rw [← hc1]; rfl
  have hc1c : c1.closed = false := by rw [← hc1]; rfl
  obtain ⟨d2, hadd, hconn, -, -, -, -, -, hside, -, -⟩ :=
    pn_driver_add_connector_fields
      { d with connectors := fun p => if p = a then some c1 else d.connectors p } a c1
      (by simp) hc1d
  have hpay := LL_ADD_connector_payload
    { d with connectors := fun p => if p = a then some c1 else d.connectors p } a a
  simp only [if_true, Option.map_some'] at hpay
  cases hx : (LL_ADD_connector
      { d with connectors := fun p => if p = a then some c1 else d.connectors p } a).connectors a with
  | none => rw [hx] at hpay; simp at hpay
  | some x =>
    rw [hx] at hpay
    simp only [Option.map_some', Option.some.injEq] at hpay
    have e1 : x.driver = c1.driver := congrArg (fun z => z.driver) hpay
    have e2 : x.listener = c1.listener := congrArg (fun z => z.listener) hpay
    have e3 : x.transport = c1.transport := congrArg (fun z => z.transport) hpay
    have e4 : x.closed = c1.closed := congrArg (fun z => z.closed) hpay
    refine ⟨d2, { x with driver := true }, ?_, ?_, rfl, e2.trans hc1l, e3.trans hc1t,
      e4.trans hc1c, ?_⟩
    · rw [hadd]; rfl
    · rw [hconn]; simp [set_connector, hx]
    · rw [hside]; rfl

theorem pn_connector_fd_inv (m transport sasl : Option ptr) (d d2 : pn_driver_t) (fd : Int)
    (context : Option ptr) (c : ptr)
    (h : pn_connector_fd m transport sasl d fd context = some (some c, d2)) :
    m = some c ∧ d.connectors c = none := by
  cases m with
  | none => simp [pn_connector_fd] at h
  | some a =>
    cases hfresh : d.connectors a with
    | some x => simp [pn_connector_fd, hfresh] at h
    | none =>
      obtain ⟨d3, y, heq, -⟩ := pn_connector_fd_fresh d a transport sasl fd context hfresh
      rw [heq] at h
      simp only [Option.some.injEq, Prod.mk.injEq] at h
      obtain ⟨h1, -⟩ := h
      subst h1
      exact ⟨rfl, hfresh⟩

/-- A call of `pn_listener_accept` in which the listener is pending, `accept` and
`getnameinfo` succeed and `malloc` returns a fresh address `c`, resolved. -/
theorem pn_listener_accept_eq (w : accept_calls) (d : pn_driver_t) (a c : ptr)
    (x : pn_listener_t) (hl : d.listeners a = some x) (hp : x.pending = true)
    (hdrv : x.driver = true) (hs : w.sock ≠ -1) (hc : w.code = 0) (hm : w.malloc = some c)
    (hfresh : d.connectors c = none) :
    ∃ d1 y, pn_connector_fd (some c) w.transport w.sasl d w.sock none = some (some c, d1) ∧
      d1.connectors c = some y ∧ y.driver = true ∧ y.transport = w.transport ∧
      y.closed = false ∧ listener_side d1 = listener_side d ∧
      pn_listener_accept w d (some a) = some (some c, { d1 with
        connectors := set_connector d1.connectors c
          (fun y => { y with name := w.peer, listener := some a }) }) := by
  obtain ⟨d1, y, heq, hy, hyd, -, hyt, hyc, hside⟩ :=
    pn_connector_fd_fresh d c w.transport w.sasl w.sock none hfresh
  refine ⟨d1, y, heq, hy, hyd, hyt, hyc, hside, ?_⟩
  unfold pn_listener_accept
  simp only [hl, hp, hdrv, Bool.not_true, Bool.false_eq_true, if_false, hs, hc, ne_eq,
    not_true_eq_false, hm, heq]

theorem pn_listener_accept_inv (w : accept_calls) (d d2 : pn_driver_t) (a c : ptr)
    (h : pn_listener_accept w d (some a) = some (some c, d2)) :
    ∃ x, d.listeners a = some x ∧ x.pending = true ∧ x.driver = true ∧ w.sock ≠ -1 ∧
      w.code = 0 ∧ w.malloc = some c ∧ d.connectors c = none := by
  unfold pn_listener_accept at h
  cases hl : d.listeners a with
  | none => simp [hl] at h
  | some x =>
    simp only [hl] at h
    cases hp : x.pending
    · simp [hp] at h
    · simp only [hp, Bool.not_true, Bool.false_eq_true, if_false] at h
      by_cases hs : w.sock = -1
      · simp [hs] at h
      · simp only [hs, if_false] at h
        by_cases hc : w.code = 0
        · simp only [hc, ne_eq, not_true_eq_false, if_false] at h
          cases hdrv : x.driver
          · simp [hdrv] at h
          · simp only [hdrv, Bool.not_true, Bool.false_eq_true, if_false] at h
            cases hfd : pn_connector_fd w.malloc w.transport w.sasl d w.sock none with
            | none => simp [hfd] at h
            | some r =>
              obtain ⟨r1, r2⟩ := r
              cases r1 with
              | none => simp [hfd] at h
              | some c2 =>
                simp only [hfd, Option.some.injEq, Prod.mk.injEq] at h
                obtain ⟨h1, -⟩ := h
                subst h1
                obtain ⟨h3, h4⟩ := pn_connector_fd_inv _ _ _ _ _ _ _ _ hfd
                exact ⟨x, rfl, hp, hdrv, hs, hc, h3, h4⟩
        · simp [hc] at h

/-- C13 (counterexample): on `ex_driver`, whose listener 1 is pending, a successful
`pn_listener_accept` returns the new connector 40 and leaves the `pending` flag of the
listener set, and a second `pn_listener_accept` on the same listener, with no wait in
between, returns another connector (50) instead of NULL. -/
theorem accept_keeps_pending :
    (pn_listener_accept ex_accept ex_driver (some 1)).map (fun r => r.1) = some (some 40) ∧
    (pn_listener_accept ex_accept ex_driver (some 1)).bind
      (fun r => (r.2.listeners 1).map (fun l => l.pending)) = some true ∧
    (pn_listener_accept ex_accept ex_driver (some 1)).bind
      (fun r => (pn_listener_accept ex_second_accept r.2 (some 1)).map (fun r2 => r2.1)) =
        some (some 50) := by
  refine ⟨?_, ?_, ?_⟩ <;> rfl

/-- C13 (amended): `pn_listener_accept` never writes the `pending` flag.  After a
successful accept the listeners of the driver are exactly as before, so the flag of the
listener is still set, and a second accept on the same listener before the next wait
returns a new connector again whenever `accept`, `getnameinfo` and `malloc` succeed.  The
flag is rewritten only by the poller inside `pn_driver_wait`, which sets it to the
readiness the OS reports. -/
theorem accept_leaves_pending (w : accept_calls) (d d1 : pn_driver_t) (a c : ptr)
    (h : pn_listener_accept w d (some a) = some (some c, d1)) :
    d1.listeners = d.listeners ∧
    (∃ l, d1.listeners a = some l ∧ l.pending = true) ∧
    (∀ (w2 : accept_calls) (c2 : ptr), w2.sock ≠ -1 → w2.code = 0 → w2.malloc = some c2 →
      d1.connectors c2 = none →
      ∃ d2, pn_listener_accept w2 d1 (some a) = some (some c2, d2)) ∧
    (∀ os, ((pn_driver_wait false os d1).listeners a).map (fun l => l.pending) =
      some (os.listener_ready a)) := by
  obtain ⟨x, hl, hp, hdrv, hs, hc, hm, hfresh⟩ := pn_listener_accept_inv w d d1 a c h
  obtain ⟨d3, y, -, -, -, -, -, hside, heq⟩ :=
    pn_listener_accept_eq w d a c x hl hp hdrv hs hc hm hfresh
  rw [heq] at h
  simp only [Option.some.injEq, Prod.mk.injEq, true_and] at h
  have hls : d1.listeners = d.listeners := by
    rw [← h]
    exact congrArg (fun z => z.1) hside
  have hl1 : d1.listeners a = some x := by rw [hls]; exact hl
  refine ⟨hls, ⟨x, hl1, hp⟩, ?_, ?_⟩
  · intro w2 c2 hs2 hc2 hm2 hfresh2
    obtain ⟨d4, y2, -, -, -, -, -, -, heq2⟩ :=
      pn_listener_accept_eq w2 d1 a c2 x hl1 hp hdrv hs2 hc2 hm2 hfresh2
    exact ⟨_, heq2⟩
  · intro os
    simp [pn_driver_wait, pn_driver_poller_wait, hl1]

theorem accept_leaves_pending_witness :
    (∃ d1, pn_listener_accept ex_accept ex_driver (some 1) = some (some 40, d1) ∧
      (d1.listeners = ex_driver.listeners ∧
      (∃ l, d1.listeners 1 = some l ∧ l.pending = true) ∧
      (∀ (w2 : accept_calls) (c2 : ptr), w2.sock ≠ -1 → w2.code = 0 → w2.malloc = some c2 →
        d1.connectors c2 = none →
        ∃ d2, pn_listener_accept w2 d1 (some 1) = some (some c2, d2)) ∧
      (∀ os, ((pn_driver_wait false os d1).listeners 1).map (fun l => l.pending) =
        some (os.listener_ready 1)))) :=
  ⟨_, rfl, accept_leaves_pending ex_accept ex_driver _ 1 40 rfl⟩

theorem connector_list_set_payload {d : pn_driver_t} {cs : List ptr} (c : ptr)
    (f : pn_connector_t → pn_connector_t)
    (hf : ∀ y, ((f y).driver, (f y).connector_next, (f y).connector_prev) =
      (y.driver, y.connector_next, y.connector_prev))
    (hl : connector_list d cs) :
    connector_list { d with connectors := set_connector d.connectors c f } cs := by
  refine @connector_list_of_links d { d with connectors := set_connector d.connectors c f } cs
    rfl rfl rfl ?_ hl
  intro p
  show (set_connector d.connectors c f p).map _ = (d.connectors p).map _
  unfold set_connector
  split
  · cases d.connectors p with
    | none => rfl
    | some y => exact congrArg some (hf y)
  · rfl

/-- A successful `pn_connector_fd` on a well-formed connector list: the new connector is
appended to the list, has no listener and selects the client-mode TLS handle. -/
theorem pn_connector_fd_linkage {d : pn_driver_t} {cs : List ptr} (hcs : connector_list d cs)
    (c : ptr) (transport sasl : Option ptr) (fd : Int) (context : Option ptr)
    (hfresh : d.connectors c = none) :
    ∃ d2 y, pn_connector_fd (some c) transport sasl d fd context = some (some c, d2) ∧
      d2.connectors c = some y ∧ y.driver = true ∧ y.listener = none ∧
      y.transport = transport ∧ connector_list d2 (cs ++ [c]) ∧
      listener_side d2 = listener_side d := by
  obtain ⟨d2, y, heq, hy, hyd, hyl, hyt, -, hside⟩ :=
    pn_connector_fd_fresh d c transport sasl fd context hfresh
  obtain ⟨d3, heq3, hlist, -⟩ := connector_fd_effect hcs c hfresh transport sasl fd context
  rw [heq] at heq3
  simp only [Option.some.injEq, Prod.mk.injEq, true_and] at heq3
  subst heq3
  exact ⟨d2, y, heq, hy, hyd, hyl, hyt, hlist, hside⟩

/-- C14 (listener-to-connector linkage): on a driver with a well-formed connector list, a
connector returned by `pn_listener_accept(l)` has `pn_connector_listener` equal to `l`,
carries the back-pointer to the driver and is linked at the end of its connector list
(the driver of `l`, which keeps `l`), and `pn_connector_ssl` selects the server-mode
handle of its transport; such a connector is returned whenever `l` is pending and
`accept`, `getnameinfo` and `malloc` succeed.  A connector created by `pn_connector_fd` or
by `pn_connector` has no listener and `pn_connector_ssl` selects the client-mode handle.
When `l.pending` is false `pn_listener_accept` returns NULL and leaves the driver as it
is. -/
theorem listener_connector_linkage (d : pn_driver_t) (cs : List ptr) (a : ptr)
    (x : pn_listener_t) (hcs : connector_list d cs) (hl : d.listeners a = some x) :
    (∀ (w : accept_calls) (c : ptr) (d2 : pn_driver_t),
      pn_listener_accept w d (some a) = some (some c, d2) →
        pn_connector_listener d2 (some c) = some (some a) ∧
        pn_connector_ssl d2 (some c) = some (some (pn_ssl_t.pn_ssl_server w.transport)) ∧
        (∃ y, d2.connectors c = some y ∧ y.driver = true) ∧
        connector_list d2 (cs ++ [c]) ∧ d2.listeners a = some x) ∧
    (∀ (w : accept_calls) (c : ptr), x.pending = true → x.driver = true → w.sock ≠ -1 →
      w.code = 0 → w.malloc = some c → d.connectors c = none →
      ∃ d2, pn_listener_accept w d (some a) = some (some c, d2)) ∧
    (∀ (m transport sasl : Option ptr) (fd : Int) (context : Option ptr) (c : ptr)
      (d2 : pn_driver_t), pn_connector_fd m transport sasl d fd context = some (some c, d2) →
        pn_connector_listener d2 (some c) = some none ∧
        pn_connector_ssl d2 (some c) = some (some (pn_ssl_t.pn_ssl_client transport)) ∧
        connector_list d2 (cs ++ [c])) ∧
    (∀ (transport sasl : Option ptr) (fd : Int) (context : Option ptr) (c : ptr),
      d.connectors c = none →
      ∃ d2, pn_connector_fd (some c) transport sasl d fd context = some (some c, d2)) ∧
    (∀ (w : connect_calls) (name_max : Nat) (host port : String) (context : Option ptr)
      (c : ptr) (d2 : pn_driver_t),
      pn_connector w name_max d host port context = some (some c, d2) →
        pn_connector_listener d2 (some c) = some none ∧
        pn_connector_ssl d2 (some c) = some (some (pn_ssl_t.pn_ssl_client w.transport)) ∧
        connector_list d2 (cs ++ [c])) ∧
    (∀ (w : connect_calls) (name_max : Nat) (host port : String) (context : Option ptr)
      (c : ptr), w.code = 0 → w.sock ≠ -1 → w.connected ≠ -1 → w.malloc = some c →
      d.connectors c = none →
      ∃ d2, pn_connector w name_max d host port context = some (some c, d2)) ∧
    (x.pending = false → ∀ w : accept_calls, pn_listener_accept w d (some a) = some (none, d)) := by
  refine ⟨?_, ?_, ?_, ?_, ?_, ?_, ?_⟩
  · intro w c d2 h
    obtain ⟨x2, hl2, hp, hdrv, hs, hc, hm, hfresh⟩ := pn_listener_accept_inv w d d2 a c h
    rw [hl] at hl2
    simp only [Option.some.injEq] at hl2
    subst hl2
    obtain ⟨d1, y, heq1, hy, hyd, -, hyt, hlist, hside⟩ :=
      pn_connector_fd_linkage hcs c w.transport w.sasl w.sock none hfresh
    obtain ⟨d3, y3, heq3, -, -, -, -, -, heq⟩ :=
      pn_listener_accept_eq w d a c x hl hp hdrv hs hc hm hfresh
    rw [heq1] at heq3
    simp only [Option.some.injEq, Prod.mk.injEq, true_and] at heq3
    subst heq3
    rw [heq] at h
    simp only [Option.some.injEq, Prod.mk.injEq, true_and] at h
    subst h
    refine ⟨?_, ?_, ⟨{ y with name := w.peer, listener := some a }, ?_, hyd⟩, ?_, ?_⟩
    · simp [pn_connector_listener, set_connector, hy]
    · simp [pn_connector_ssl, set_connector, hy, hyt]
    · simp [set_connector, hy]
    · exact connector_list_set_payload c _ (fun _ => rfl) hlist
    · show d1.listeners a = some x
      have := congrArg (fun z => z.1) hside
      simp only [listener_side] at this
      rw [this]; exact hl
  · intro w c hp hdrv hs hc hm hfresh
    obtain ⟨d1, y, -, -, -, -, -, -, heq⟩ :=
      pn_listener_accept_eq w d a c x hl hp hdrv hs hc hm hfresh
    exact ⟨_, heq⟩
  · intro m transport sasl fd context c d2 h
    obtain ⟨hm, hfresh⟩ := pn_connector_fd_inv m transport sasl d d2 fd context c h
    subst hm
    obtain ⟨d1, y, heq1, hy, hyd, hyl, hyt, hlist, -⟩ :=
      pn_connector_fd_linkage hcs c transport sasl fd context hfresh
    rw [heq1] at h
    simp only [Option.some.injEq, Prod.mk.injEq, true_and] at h
    subst h
    refine ⟨?_, ?_, hlist⟩
    · simp [pn_connector_listener, hy, hyl]
    · simp [pn_connector_ssl, hy, hyl, hyt]
  · intro transport sasl fd context c hfresh
    obtain ⟨d1, y, heq1, -⟩ := pn_connector_fd_fresh d c transport sasl fd context hfresh
    exact ⟨d1, heq1⟩
  · intro w name_max host port context c d2 h
    unfold pn_connector at h
    by_cases hc : w.code = 0
    · by_cases hs : w.sock = -1
      · simp [hc, hs] at h
      · by_cases hk : w.connected = -1
        · simp [hc, hs, hk] at h
        · simp only [hc, ne_eq, not_true_eq_false, if_false, hs, hk] at h
          cases hfd : pn_connector_fd w.malloc w.transport w.sasl d w.sock context with
          | none => simp [hfd] at h
          | some r =>
            obtain ⟨r1, r2⟩ := r
            cases r1 with
            | none => simp [hfd] at h
            | some c2 =>
              simp only [hfd, Option.some.injEq, Prod.mk.injEq] at h
              obtain ⟨h1, h2⟩ := h
              subst h1
              obtain ⟨hm, hfresh⟩ := pn_connector_fd_inv _ _ _ _ _ _ _ _ hfd
              obtain ⟨d1, y, heq1, hy, hyd, hyl, hyt, hlist, -⟩ :=
                pn_connector_fd_linkage hcs c2 w.transport w.sasl w.sock context hfresh
              rw [hm, heq1] at hfd
              simp only [Option.some.injEq, Prod.mk.injEq, true_and] at hfd
              subst hfd
              subst h2
              refine ⟨?_, ?_, ?_⟩
              · simp [pn_connector_listener, set_connector, hy, hyl]
              · simp [pn_connector_ssl, set_connector, hy, hyl, hyt]
              · exact connector_list_set_payload c2 _ (fun _ => rfl) hlist
    · simp [hc] at h
  · intro w name_max host port context c hc hs hk hm hfresh
    obtain ⟨d1, y, heq1, -⟩ := pn_connector_fd_fresh d c w.transport w.sasl w.sock context hfresh
    unfold pn_connector
    simp only [hc, ne_eq, not_true_eq_false, if_false, hs, hk, hm, heq1]
    exact ⟨_, rfl⟩
  · intro hp w
    unfold pn_listener_accept
    simp [hl, hp]

theorem listener_connector_linkage_witness :
    connector_list ex_driver [10, 20, 30] ∧
    ex_driver.listeners 1 = some (ex_listener (some 2) none true) ∧
    ((∀ (w : accept_calls) (c : ptr) (d2 : pn_driver_t),
      pn_listener_accept w ex_driver (some 1) = some (some c, d2) →
        pn_connector_listener d2 (some c) = some (some 1) ∧
        pn_connector_ssl d2 (some c) = some (some (pn_ssl_t.pn_ssl_server w.transport)) ∧
        (∃ y, d2.connectors c = some y ∧ y.driver = true) ∧
        connector_list d2 ([10, 20, 30] ++ [c]) ∧
        d2.listeners 1 = some (ex_listener (some 2) none true)) ∧
    (∀ (w : accept_calls) (c : ptr), (ex_listener (some 2) none true).pending = true →
      (ex_listener (some 2) none true).driver = true → w.sock ≠ -1 →
      w.code = 0 → w.malloc = some c → ex_driver.connectors c = none →
      ∃ d2, pn_listener_accept w ex_driver (some 1) = some (some c, d2)) ∧
    (∀ (m transport sasl : Option ptr) (fd : Int) (context : Option ptr) (c : ptr)
      (d2 : pn_driver_t),
      pn_connector_fd m transport sasl ex_driver fd context = some (some c, d2) →
        pn_connector_listener d2 (some c) = some none ∧
        pn_connector_ssl d2 (some c) = some (some (pn_ssl_t.pn_ssl_client transport)) ∧
        connector_list d2 ([10, 20, 30] ++ [c])) ∧
    (∀ (transport sasl : Option ptr) (fd : Int) (context : Option ptr) (c : ptr),
      ex_driver.connectors c = none →
      ∃ d2, pn_connector_fd (some c) transport sasl ex_driver fd context = some (some c, d2)) ∧
    (∀ (w : connect_calls) (name_max : Nat) (host port : String) (context : Option ptr)
      (c : ptr) (d2 : pn_driver_t),
      pn_connector w name_max ex_driver host port context = some (some c, d2) →
        pn_connector_listener d2 (some c) = some none ∧
        pn_connector_ssl d2 (some c) = some (some (pn_ssl_t.pn_ssl_client w.transport)) ∧
        connector_list d2 ([10, 20, 30] ++ [c])) ∧
    (∀ (w : connect_calls) (name_max : Nat) (host port : String) (context : Option ptr)
      (c : ptr), w.code = 0 → w.sock ≠ -1 → w.connected ≠ -1 → w.malloc = some c →
      ex_driver.connectors c = none →
      ∃ d2, pn_connector w name_max ex_driver host port context = some (some c, d2)) ∧
    ((ex_listener (some 2) none true).pending = false →
      ∀ w : accept_calls, pn_listener_accept w ex_driver (some 1) = some (none, ex_driver))) ∧
    (pn_listener_accept ex_accept ex_driver (some 1)).map (fun r => r.1) = some (some 40) ∧
    (pn_connector ex_connect 64 ex_driver "host" "5672" none).map (fun r => r.1) =
      some (some 60) :=
  ⟨ex_driver_connector_list, rfl,
    listener_connector_linkage ex_driver [10, 20, 30] 1 (ex_listener (some 2) none true)
      ex_driver_connector_list rfl, rfl, rfl⟩

theorem pn_connector_process_input_flags (w : io_calls) (c : pn_connector_t) :
    pending_flags (pn_connector_process_input w c) = pending_flags c := by
  unfold pn_connector_process_input
  dsimp only
  split
  · split
    · split <;> rfl
    · rfl
  · rfl

theorem pn_connector_process_output_flags (w : io_calls) (cap : Nat) (c : pn_connector_t) :
    pending_flags (pn_connector_process_output w cap c) = pending_flags c := by
  unfold pn_connector_process_output
  dsimp only
  split
  · split
    · split <;> rfl
    · split <;> rfl
  · split <;> rfl

/-- `pn_connector_process_input` when the transport owns up to `k` bytes consumed,
`0 ≤ k ≤ input_size`. -/
theorem pn_connector_process_input_consumed (w : io_calls) (c : pn_connector_t)
    (hsize : c.input_size < 18446744073709551616) (hdone : c.input_done = false)
    (hpos : 0 < c.input_size) (h0 : 0 ≤ w.pn_input c.input_size)
    (hle : w.pn_input c.input_size ≤ c.input_size) :
    (pn_connector_process_input w c).input_size =
        c.input_size - (w.pn_input c.input_size).toNat ∧
      (pn_connector_process_input w c).input_done = false := by
  have hcond : (decide (c.input_size > 0) || c.input_eos) = true := by simp [hpos]
  have h2 : (!c.input_done) = true := by rw [hdone]; rfl
  have hsz : to_size_t ((c.input_size : Int) - w.pn_input c.input_size) =
      c.input_size - (w.pn_input c.input_size).toNat := by
    unfold to_size_t
    omega
  have heq : pn_connector_process_input w c =
      pn_connector_consume c (w.pn_input c.input_size) := by
    unfold pn_connector_process_input
    rw [h2, hcond]
    simp only [if_true, ge_iff_le, h0]
  rw [heq]
  unfold pn_connector_consume
  dsimp only
  rw [hsz]
  exact ⟨rfl, hdone⟩

/-- The default io_handler on a connector with neither a read nor a write pending: only
the two transport steps run. -/
theorem pn_io_handler_idle (w : io_calls) (cap : Nat) (c : pn_connector_t)
    (hflags : pending_flags c = (false, false, false)) :
    pn_io_handler w cap c =
      (0, pn_connector_process_output w cap (pn_connector_process_input w c)) := by
  simp only [pending_flags, Prod.mk.injEq] at hflags
  obtain ⟨-, hr, hw⟩ := hflags
  have h1 := (pn_connector_process_output_flags w cap (pn_connector_process_input w c)).trans
    (pn_connector_process_input_flags w c)
  simp only [pending_flags, Prod.mk.injEq] at h1
  unfold pn_io_handler
  dsimp only
  rw [hr]
  simp only [Bool.false_eq_true, if_false]
  rw [h1.2.2, hw]
  simp

/-- One `pn_connector_process` on an open connector with the default io_handler, no
`pending` flag set, `input_done` clear and input buffered, whose transport consumes
between one and all of the bytes offered. -/
theorem process_idle_step (w : process_calls) (cap : Nat) (d : pn_driver_t) (a : ptr)
    (c : pn_connector_t) (ha : d.connectors a = some c) (hcl : c.closed = false)
    (hio : c.io_handler = .pn_io_handler) (hdone : c.input_done = false)
    (hpos : 0 < c.input_size) (hsize : c.input_size < 18446744073709551616)
    (hflags : pending_flags c = (false, false, false))
    (h0 : 0 < w.io.pn_input c.input_size) (hle : w.io.pn_input c.input_size ≤ c.input_size) :
    ∃ d2 ev c2, pn_connector_process w cap d (some a) = some (d2, ev) ∧
      d2.connectors a = some c2 ∧
      c2.input_size = c.input_size - (w.io.pn_input c.input_size).toNat ∧
      c2.input_size < c.input_size ∧
      c2.closed = false ∧ c2.io_handler = .pn_io_handler ∧ c2.input_done = false ∧
      pending_flags c2 = (false, false, false) := by
  obtain ⟨hs1, hd1⟩ := pn_connector_process_input_consumed w.io c hsize hdone hpos
    (le_of_lt h0) hle
  have hside := pn_connector_process_output_input_side w.io cap
    (pn_connector_process_input w.io c)
  have hfr := (pn_connector_process_output_frame w.io cap
    (pn_connector_process_input w.io c)).trans (pn_connector_process_input_frame w.io c)
  have hfl := (pn_connector_process_output_flags w.io cap
    (pn_connector_process_input w.io c)).trans (pn_connector_process_input_flags w.io c)
  have hh := pn_io_handler_idle w.io cap c hflags
  generalize pn_connector_process_output w.io cap (pn_connector_process_input w.io c) = c3
    at hside hfr hfl hh
  simp only [input_side, Prod.mk.injEq] at hside
  obtain ⟨-, hs3, -, hd3⟩ := hside
  have hpt : c.pending_tick = false := by
    simp only [pending_flags, Prod.mk.injEq] at hflags
    exact hflags.1
  have hcl3 : c3.closed = false := (frame_driver_closed hfr).2.trans hcl
  have hio3 : c3.io_handler = .pn_io_handler := by
    simp only [pipeline_frame, Prod.mk.injEq] at hfr
    exact hfr.2.2.2.2.2.2.2.2.2.2.2.1.trans hio
  have hd3f : c3.input_done = false := by rw [hd3, hd1]
  refine ⟨{ d with connectors := fun p => if p = a then some c3 else d.connectors p },
    [invoked.io_handler], c3, ?_, by simp, by rw [hs3, hs1], ?_, hcl3, hio3, hd3f,
    hfl.trans hflags⟩
  · unfold pn_connector_process
    simp only [ha, hcl, hpt, Bool.false_eq_true, if_false, call_io_handler, hio, hh, ne_eq,
      not_true_eq_false, hd3f, and_false, false_and, List.nil_append]
  · rw [hs3, hs1]
    omega

theorem pn_driver_connector_at_ready (fuel : Nat) (d : pn_driver_t) (a : ptr)
    (c : pn_connector_t) (ha : d.connectors a = some c) (hpos : 0 < c.input_size) :
    (pn_driver_connector (fuel + 1) { d with connector_next := some a }).map (fun r => r.1) =
      some (some a) := by
  have hne : c.input_size ≠ 0 := by omega
  simp [pn_driver_connector, ha, hne]

theorem process_seq_drains (cap : Nat) (a : ptr) :
    ∀ (ws : List process_calls) (d : pn_driver_t) (c : pn_connector_t),
      d.connectors a = some c → c.closed = false → c.io_handler = .pn_io_handler →
      c.input_done = false → c.input_size < 18446744073709551616 →
      pending_flags c = (false, false, false) →
      (∀ w ∈ ws, consumes w.io c.input_size) → c.input_size ≤ ws.length →
      ∃ n, n ≤ c.input_size ∧
        (∃ d2 ev c2, process_seq cap a (ws.take n) d = some (d2, ev) ∧
          d2.connectors a = some c2 ∧ c2.input_size = 0) ∧
        ∀ m, m < n → ∃ d2 ev c2, process_seq cap a (ws.take m) d = some (d2, ev) ∧
          d2.connectors a = some c2 ∧ 0 < c2.input_size := by
  intro ws
  induction ws with
  | nil =>
    intro d c ha _ _ _ _ _ _ hlen
    simp only [List.length_nil, Nat.le_zero_eq] at hlen
    exact ⟨0, Nat.zero_le _, ⟨d, [], c, rfl, ha, hlen⟩, fun m hm => absurd hm (Nat.not_lt_zero m)⟩
  | cons w ws ih =>
    intro d c ha hcl hio hdone hsize hflags hcons hlen
    by_cases hz : c.input_size = 0
    · exact ⟨0, Nat.zero_le _, ⟨d, [], c, rfl, ha, hz⟩,
        fun m hm => absurd hm (Nat.not_lt_zero m)⟩
    · have hpos : 0 < c.input_size := Nat.pos_of_ne_zero hz
      obtain ⟨hk0, hkle⟩ := hcons w (List.mem_cons_self _ _) c.input_size hpos (le_refl _)
      obtain ⟨d1, ev1, c1, hproc, ha1, hs1, hlt, hcl1, hio1, hdone1, hflags1⟩ :=
        process_idle_step w cap d a c ha hcl hio hdone hpos hsize hflags hk0 hkle
      have hlen1 : c1.input_size ≤ ws.length := by
        simp only [List.length_cons] at hlen
        omega
      have hcons1 : ∀ w2 ∈ ws, consumes w2.io c1.input_size := by
        intro w2 hw2 s hs hsle
        exact hcons w2 (List.mem_cons_of_mem _ hw2) s hs (by omega)
      obtain ⟨n, hn, ⟨d2, ev2, c2, hseq, ha2, hz2⟩, hmid⟩ :=
        ih d1 c1 ha1 hcl1 hio1 hdone1 (by omega) hflags1 hcons1 hlen1
      refine ⟨n + 1, by omega, ⟨d2, ev1 ++ ev2, c2, ?_, ha2, hz2⟩, ?_⟩
      · simp [process_seq, hproc, hseq]
      · intro m hm
        cases m with
        | zero => exact ⟨d, [], c, rfl, ha, hpos⟩
        | succ m =>
          obtain ⟨d3, ev3, c3, hseq3, ha3, hp3⟩ := hmid m (by omega)
          refine ⟨d3, ev1 ++ ev3, c3, ?_, ha3, hp3⟩
          simp [process_seq, hproc, hseq3]

/-- C15 (drain completeness): on an open connector with the default io_handler,
`input_done` clear, input buffered and no `pending` flag set, a `pn_connector_process`
call whose transport consumes `k` bytes, `0 < k ≤ input_size`, ends with `input_size`
decreased by exactly `k`.  Hence, over process calls whose transport consumes at least one
byte of any non-empty input, `input_size` is zero after some `n ≤ input_size` calls; before
each of these calls `input_size` is positive, the connector satisfies the readiness
predicate, and `pn_driver_connector` with the cursor on it returns it. -/
theorem drain_completeness (cap : Nat) (d : pn_driver_t) (a : ptr) (c : pn_connector_t)
    (ha : d.connectors a = some c) (hcl : c.closed = false)
    (hio : c.io_handler = .pn_io_handler) (hdone : c.input_done = false)
    (hpos : 0 < c.input_size) (hsize : c.input_size < 18446744073709551616)
    (hflags : pending_flags c = (false, false, false)) :
    (∀ w : process_calls, 0 < w.io.pn_input c.input_size →
      w.io.pn_input c.input_size ≤ c.input_size →
      ∃ d2 ev c2, pn_connector_process w cap d (some a) = some (d2, ev) ∧
        d2.connectors a = some c2 ∧
        c2.input_size = c.input_size - (w.io.pn_input c.input_size).toNat ∧
        c2.input_size < c.input_size) ∧
    (∀ ws : List process_calls, (∀ w ∈ ws, consumes w.io c.input_size) →
      c.input_size ≤ ws.length →
      ∃ n, n ≤ c.input_size ∧
        (∃ d2 ev c2, process_seq cap a (ws.take n) d = some (d2, ev) ∧
          d2.connectors a = some c2 ∧ c2.input_size = 0) ∧
        ∀ m, m < n → ∃ d2 ev c2, process_seq cap a (ws.take m) d = some (d2, ev) ∧
          d2.connectors a = some c2 ∧ 0 < c2.input_size ∧ ready_connector d2 a = true ∧
          ∀ fuel, (pn_driver_connector (fuel + 1) { d2 with connector_next := some a }).map
            (fun r => r.1) = some (some a)) := by
  constructor
  · intro w h0 hle
    obtain ⟨d2, ev, c2, h1, h2, h3, h4, -⟩ :=
      process_idle_step w cap d a c ha hcl hio hdone hpos hsize hflags h0 hle
    exact ⟨d2, ev, c2, h1, h2, h3, h4⟩
  · intro ws hcons hlen
    obtain ⟨n, hn, hend, hmid⟩ :=
      process_seq_drains cap a ws d c ha hcl hio hdone hsize hflags hcons hlen
    refine ⟨n, hn, hend, ?_⟩
    intro m hm
    obtain ⟨d2, ev, c2, h1, h2, h3⟩ := hmid m hm
    refine ⟨d2, ev, c2, h1, h2, h3, ?_, fun fuel => pn_driver_connector_at_ready fuel d2 a c2 h2 h3⟩
    simp [ready_connector, h2, connector_ready, h3]

theorem ex_slow_calls_consumes (n : Nat) : consumes ex_slow_calls.io n := by
  intro s hs _
  show (0 : Int) < 1 ∧ (1 : Int) ≤ (s : Int)
  omega

theorem drain_completeness_witness :
    ex_buffered_driver.connectors 10 = some ex_buffered_connector ∧
    ex_buffered_connector.closed = false ∧
    ex_buffered_connector.io_handler = .pn_io_handler ∧
    ex_buffered_connector.input_done = false ∧ 0 < ex_buffered_connector.input_size ∧
    ex_buffered_connector.input_size < 18446744073709551616 ∧
    pending_flags ex_buffered_connector = (false, false, false) ∧
    ((∀ w : process_calls, 0 < w.io.pn_input ex_buffered_connector.input_size →
      w.io.pn_input ex_buffered_connector.input_size ≤ ex_buffered_connector.input_size →
      ∃ d2 ev c2, pn_connector_process w 4096 ex_buffered_driver (some 10) = some (d2, ev) ∧
        d2.connectors 10 = some c2 ∧
        c2.input_size = ex_buffered_connector.input_size -
          (w.io.pn_input ex_buffered_connector.input_size).toNat ∧
        c2.input_size < ex_buffered_connector.input_size) ∧
    (∀ ws : List process_calls, (∀ w ∈ ws, consumes w.io ex_buffered_connector.input_size) →
      ex_buffered_connector.input_size ≤ ws.length →
      ∃ n, n ≤ ex_buffered_connector.input_size ∧
        (∃ d2 ev c2, process_seq 4096 10 (ws.take n) ex_buffered_driver = some (d2, ev) ∧
          d2.connectors 10 = some c2 ∧ c2.input_size = 0) ∧
        ∀ m, m < n → ∃ d2 ev c2,
          process_seq 4096 10 (ws.take m) ex_buffered_driver = some (d2, ev) ∧
          d2.connectors 10 = some c2 ∧ 0 < c2.input_size ∧ ready_connector d2 10 = true ∧
          ∀ fuel, (pn_driver_connector (fuel + 1) { d2 with connector_next := some 10 }).map
            (fun r => r.1) = some (some 10))) ∧
    (∀ w ∈ [ex_slow_calls, ex_slow_calls, ex_slow_calls],
      consumes w.io ex_buffered_connector.input_size) ∧
    ((process_seq 4096 10 [ex_slow_calls, ex_slow_calls] ex_buffered_driver).bind
      (fun r => (r.1.connectors 10).map (fun c => c.input_size))) = some 1 ∧
    ((process_seq 4096 10 [ex_slow_calls, ex_slow_calls, ex_slow_calls]
      ex_buffered_driver).bind
      (fun r => (r.1.connectors 10).map (fun c => c.input_size))) = some 0 :=
  ⟨rfl, rfl, rfl, rfl, by decide, by decide, rfl,
    drain_completeness 4096 ex_buffered_driver 10 ex_buffered_connector rfl rfl rfl rfl
      (by decide) (by decide) rfl,
    by intro w hw; simp at hw; rw [hw]; exact ex_slow_calls_consumes _,
    by decide, by decide⟩

theorem connector_close_effect {d : pn_driver_t} {cs : List ptr} {a : ptr} {c : pn_connector_t}
    (hl : connector_list d cs) (ha : d.connectors a = some c) :
    ∃ d2, pn_connector_close d (some a) = some d2 ∧ connector_list d2 cs ∧
      d2.connectors a = some { c with status := 0, closed := true } ∧
      (∀ p, p ≠ a → d2.connectors p = d.connectors p) ∧
      d2.closed_count = d.closed_count + 1 ∧ d2.connector_count = d.connector_count ∧
      listener_side d2 = listener_side d := by
  have hdrv := (hl.2.2.2.1 a c ha).1
  refine ⟨_, pn_connector_close_eq d a c ha hdrv, ?_, ?_, ?_, rfl, rfl, rfl⟩
  · refine @connector_list_of_links d _ cs rfl rfl rfl ?_ hl
    intro p
    show (set_connector d.connectors a _ p).map _ = (d.connectors p).map _
    unfold set_connector
    split
    · cases d.connectors p with
      | none => rfl
      | some y => rfl
    · rfl
  · simp [set_connector, ha]
  · intro p hp
    simp [set_connector, hp]

theorem payload_closed {x y : Option pn_connector_t}
    (h : x.map connector_payload = y.map connector_payload) (c : pn_connector_t)
    (hy : y = some c) : ∃ c2, x = some c2 ∧ c2.closed = c.closed := by
  subst hy
  cases x with
  | none => simp at h
  | some c2 =>
    simp only [Option.map_some', Option.some.injEq] at h
    exact ⟨c2, rfl, congrArg (fun z => z.closed) h⟩

theorem reaps_run :
    ∀ (ops : List driver_op) (os cl cs : List ptr) (d : pn_driver_t),
      reaps os cl ops = true → connector_list d cs → os.Nodup → cl.Nodup →
      (∀ a ∈ os, a ∈ cs ∧ ∃ x, d.connectors a = some x ∧ x.closed = false) →
      (∀ a ∈ cl, a ∈ cs ∧ ∃ x, d.connectors a = some x ∧ x.closed = true) →
      (∀ a ∈ cs, a ∈ os ∨ a ∈ cl) →
      ∃ d2, run_ops d ops = some d2 ∧ connector_list d2 [] ∧
        d2.closed_count = d.closed_count - cl.length ∧
        listener_side d2 = listener_side d := by
  intro ops
  induction ops with
  | nil =>
    intro os cl cs d hr hl _ _ _ _ hcov
    simp only [reaps, Bool.and_eq_true, List.isEmpty_iff] at hr
    obtain ⟨h1, h2⟩ := hr
    subst h1; subst h2
    have hcs : cs = [] := by
      cases cs with
      | nil => rfl
      | cons a t =>
        rcases hcov a (List.mem_cons_self _ _) with h | h <;> cases h
    subst hcs
    exact ⟨d, rfl, hl, by simp, rfl⟩
  | cons op ops ih =>
    intro os cl cs d hr hl hnO hnC hO hC hcov
    cases op with
    | connector_close c =>
      cases c with
      | none => simp [reaps] at hr
      | some a =>
        simp only [reaps, Bool.and_eq_true] at hr
        obtain ⟨hmem, hrest⟩ := hr
        have hmem : a ∈ os := by simpa using hmem
        obtain ⟨hacs, x, hx, hxo⟩ := hO a hmem
        obtain ⟨d1, hclose, hl1, ha1, hoth, hcc, -, hside⟩ := connector_close_effect hl hx
        have hacl : a ∉ cl := by
          intro h
          obtain ⟨-, y, hy, hyc⟩ := hC a h
          rw [hx] at hy
          simp only [Option.some.injEq] at hy
          subst hy
          rw [hxo] at hyc
          cases hyc
        obtain ⟨d2, hrun, hl2, hcc2, hside2⟩ := ih (os.erase a) (a :: cl) cs d1 hrest hl1
          (hnO.erase a) (List.nodup_cons.2 ⟨hacl, hnC⟩)
          (by
            intro b hb
            have hb2 := (hnO.mem_erase_iff).1 hb
            obtain ⟨hbcs, y, hy, hyo⟩ := hO b hb2.2
            exact ⟨hbcs, y, by rw [hoth b hb2.1]; exact hy, hyo⟩)
          (by
            intro b hb
            rcases List.mem_cons.1 hb with h | h
            · subst h
              exact ⟨hacs, _, ha1, rfl⟩
            · obtain ⟨hbcs, y, hy, hyc⟩ := hC b h
              have hne : b ≠ a := fun e => hacl (e ▸ h)
              exact ⟨hbcs, y, by rw [hoth b hne]; exact hy, hyc⟩)
          (by
            intro b hb
            by_cases hba : b = a
            · exact Or.inr (by rw [hba]; exact List.mem_cons_self _ _)
            · rcases hcov b hb with h | h
              · exact Or.inl ((hnO.mem_erase_iff).2 ⟨hba, h⟩)
              · exact Or.inr (List.mem_cons_of_mem _ h))
        refine ⟨d2, ?_, hl2, ?_, hside2.trans hside⟩
        · simp [run_ops, apply_op, hclose, hrun]
        · rw [hcc2, hcc]
          simp only [List.length_cons, Nat.cast_add, Nat.cast_one]
          omega
    | connector_free c =>
      cases c with
      | none => simp [reaps] at hr
      | some a =>
        simp only [reaps, Bool.and_eq_true] at hr
        obtain ⟨hmem, hrest⟩ := hr
        have hmem : a ∈ cl := by simpa using hmem
        obtain ⟨hacs, x, hx, hxc⟩ := hC a hmem
        obtain ⟨l, r, hsplit⟩ := List.append_of_mem hacs
        subst hsplit
        obtain ⟨d1, hfree, hl1, ha1, hpay, -, hcc, hside, -, -⟩ := connector_free_effect hl hx
        have hnd := hl.1
        have hin : ∀ b, b ≠ a → b ∈ l ++ a :: r → b ∈ l ++ r := by
          intro b hb h
          simp only [List.mem_append, List.mem_cons] at h ⊢
          tauto
        obtain ⟨d2, hrun, hl2, hcc2, hside2⟩ := ih os (cl.erase a) (l ++ r) d1 hrest hl1
          hnO (hnC.erase a)
          (by
            intro b hb
            obtain ⟨hbcs, y, hy, hyo⟩ := hO b hb
            have hne : b ≠ a := by
              intro e
              subst e
              rw [hx] at hy
              simp only [Option.some.injEq] at hy
              subst hy
              rw [hxc] at hyo
              cases hyo
            obtain ⟨y2, hy2, hy2c⟩ := payload_closed (hpay b hne) y hy
            exact ⟨hin b hne hbcs, y2, hy2, hy2c.trans hyo⟩)
          (by
            intro b hb
            have hb2 := (hnC.mem_erase_iff).1 hb
            obtain ⟨hbcs, y, hy, hyc⟩ := hC b hb2.2
            obtain ⟨y2, hy2, hy2c⟩ := payload_closed (hpay b hb2.1) y hy
            exact ⟨hin b hb2.1 hbcs, y2, hy2, hy2c.trans hyc⟩)
          (by
            intro b hb
            have hne : b ≠ a := by
              intro e
              subst e
              obtain ⟨y, hy⟩ := connector_list_live hl1 b hb
              rw [ha1] at hy
              cases hy
            have hb2 : b ∈ l ++ a :: r := by
              simp only [List.mem_append, List.mem_cons] at hb ⊢
              tauto
            rcases hcov b hb2 with h | h
            · exact Or.inl h
            · exact Or.inr ((hnC.mem_erase_iff).2 ⟨hne, h⟩))
        refine ⟨d2, ?_, hl2, ?_, hside2.trans hside⟩
        · simp [run_ops, apply_op, hfree, hrun]
        · rw [hcc2, hcc, if_pos hxc, List.length_erase_of_mem hmem]
          have hpos : 0 < cl.length := List.length_pos_of_mem hmem
          have : ((cl.length - 1 : Nat) : Int) = (cl.length : Int) - 1 := by omega
          rw [this]
          omega
    | listener_fd m fd context => simp [reaps] at hr
    | connector_fd m transport sasl fd context => simp [reaps] at hr
    | listener_free l => simp [reaps] at hr
    | wait ssl os2 => simp [reaps] at hr
    | driver_listener fuel => simp [reaps] at hr
    | driver_connector fuel => simp [reaps] at hr

/-- C16 (close/free accounting): on a driver with a well-formed connector list, closing a
connector (not yet closed, or not) with `pn_connector_close` increases `closed_count` by
one and leaves `connector_count` and the list as they are; a following `pn_connector_free`
removes the connector from the list and decreases both `connector_count` and `closed_count` by one.
When all connectors are open and every one of them is closed once and then freed, in any
interleaving, the calls all succeed and leave an empty connector list,
`connector_count = 0`, `closed_count` at its initial value (zero when it was zero, as it is
when it counts the closed connectors), and the listener side, `listener_count` included,
unchanged. -/
theorem close_free_accounting (d : pn_driver_t) (cs : List ptr) (a : ptr) (c : pn_connector_t)
    (hl : connector_list d cs) (ha : d.connectors a = some c) :
    (∃ d1 c1, pn_connector_close d (some a) = some d1 ∧
      d1.closed_count = d.closed_count + 1 ∧ d1.connector_count = d.connector_count ∧
      connector_list d1 cs ∧ d1.connectors a = some c1 ∧ c1.closed = true ∧
      ∃ d2 l r, pn_connector_free d1 (some a) = some d2 ∧ cs = l ++ a :: r ∧
        connector_list d2 (l ++ r) ∧ a ∉ l ++ r ∧ d2.connectors a = none ∧
        d2.connector_count = d1.connector_count - 1 ∧
        d2.closed_count = d1.closed_count - 1 ∧
        d2.listener_count = d.listener_count) ∧
    (∀ ops, reaps cs [] ops = true → (∀ p x, d.connectors p = some x → x.closed = false) →
      ∃ d3, run_ops d ops = some d3 ∧ connector_list d3 [] ∧ d3.connector_count = 0 ∧
        d3.closed_count = d.closed_count ∧ (d.closed_count = 0 → d3.closed_count = 0) ∧
        d3.listener_count = d.listener_count ∧ listener_side d3 = listener_side d) := by
  constructor
  · obtain ⟨d1, hclose, hl1, ha1, -, hcc, hcn, hside⟩ := connector_close_effect hl ha
    have hacs := (hl.2.2.2.1 a c ha).2
    obtain ⟨l, r, hsplit⟩ := List.append_of_mem hacs
    subst hsplit
    obtain ⟨d2, hfree, hl2, ha2, -, -, hcc2, hside2, -, -⟩ := connector_free_effect hl1 ha1
    refine ⟨d1, _, hclose, hcc, hcn, hl1, ha1, rfl, d2, l, r, hfree, rfl, hl2, ?_, ha2, ?_, ?_, ?_⟩
    · intro h
      obtain ⟨y, hy⟩ := connector_list_live hl2 a h
      rw [ha2] at hy
      cases hy
    · rw [hl2.2.2.2.2, hl1.2.2.2.2]
      simp only [List.length_append, List.length_cons, Nat.cast_add, Nat.cast_one]
      omega
    · rw [hcc2]
      simp
    · have h1 := congrArg (fun z => z.2.2.2.2) hside2
      have h2 := congrArg (fun z => z.2.2.2.2) hside
      simp only [listener_side] at h1 h2
      rw [h1, h2]
  · intro ops hr hall
    obtain ⟨d3, hrun, hl3, hcc3, hside3⟩ := reaps_run ops cs [] cs d hr hl hl.1 List.nodup_nil
      (by
        intro b hb
        obtain ⟨y, hy⟩ := connector_list_live hl b hb
        exact ⟨hb, y, hy, hall b y hy⟩)
      (by intro b hb; cases hb)
      (by intro b hb; exact Or.inl hb)
    have hcc : d3.closed_count = d.closed_count := by
      rw [hcc3]; simp
    refine ⟨d3, hrun, hl3, ?_, hcc, fun h => hcc.trans h, ?_, hside3⟩
    · rw [hl3.2.2.2.2]; rfl
    · have h1 := congrArg (fun z => z.2.2.2.2) hside3
      simpa only [listener_side] using h1

theorem ex_open_driver_connector_list : connector_list ex_open_driver [10, 20] := by
  refine ⟨by decide, ?_, ?_, ?_, rfl⟩
  · exact ⟨rfl, _, rfl, rfl, _, rfl, rfl⟩
  · exact ⟨rfl, _, rfl, rfl, _, rfl, rfl⟩
  · intro a c h
    simp only [ex_open_driver] at h
    split at h
    · subst_vars; simp only [Option.some.injEq] at h; subst h; exact ⟨rfl, by decide⟩
    · split at h
      · subst_vars; simp only [Option.some.injEq] at h; subst h; exact ⟨rfl, by decide⟩
      · cases h

theorem ex_open_driver_all_open :
    ∀ p x, ex_open_driver.connectors p = some x → x.closed = false := by
  intro p x h
  simp only [ex_open_driver] at h
  split at h
  · simp only [Option.some.injEq] at h; subst h; rfl
  · split at h
    · simp only [Option.some.injEq] at h; subst h; rfl
    · cases h

theorem close_free_accounting_witness :
    connector_list ex_open_driver [10, 20] ∧
    ex_open_driver.connectors 10 = some (ex_connector (some 20) none false false) ∧
    ((∃ d1 c1, pn_connector_close ex_open_driver (some 10) = some d1 ∧
      d1.closed_count = ex_open_driver.closed_count + 1 ∧
      d1.connector_count = ex_open_driver.connector_count ∧
      connector_list d1 [10, 20] ∧ d1.connectors 10 = some c1 ∧ c1.closed = true ∧
      ∃ d2 l r, pn_connector_free d1 (some 10) = some d2 ∧ [10, 20] = l ++ 10 :: r ∧
        connector_list d2 (l ++ r) ∧ 10 ∉ l ++ r ∧ d2.connectors 10 = none ∧
        d2.connector_count = d1.connector_count - 1 ∧
        d2.closed_count = d1.closed_count - 1 ∧
        d2.listener_count = ex_open_driver.listener_count) ∧
    (∀ ops, reaps [10, 20] [] ops = true →
      (∀ p x, ex_open_driver.connectors p = some x → x.closed = false) →
      ∃ d3, run_ops ex_open_driver ops = some d3 ∧ connector_list d3 [] ∧
        d3.connector_count = 0 ∧ d3.closed_count = ex_open_driver.closed_count ∧
        (ex_open_driver.closed_count = 0 → d3.closed_count = 0) ∧
        d3.listener_count = ex_open_driver.listener_count ∧
        listener_side d3 = listener_side ex_open_driver)) ∧
    reaps [10, 20] [] ex_reap_ops = true ∧
    (∀ p x, ex_open_driver.connectors p = some x → x.closed = false) ∧
    (run_ops ex_open_driver ex_reap_ops).map
      (fun d3 => (d3.connector_count, d3.closed_count, d3.listener_count)) = some (0, 0, 1) :=
  ⟨ex_open_driver_connector_list, rfl,
    close_free_accounting ex_open_driver [10, 20] 10 _ ex_open_driver_connector_list rfl,
    by decide,
    ex_open_driver_all_open, by decide⟩

/-- C17 (list membership): in every state that a fresh driver reaches through
`pn_listener_fd`, `pn_connector_fd`, `pn_listener_free` and `pn_connector_free` (and also
through `pn_connector_close`, `pn_driver_wait` and the two iterators), the two lists
walked from the heads are duplicate free; every allocated listener and connector whose
back-pointer is the driver occurs exactly once in its list, and every node of a list is
allocated with its back-pointer set; `listener_count` and `connector_count` are the
lengths of the lists; an address holding no node is in no list, and freeing a node
succeeds and leaves a well-formed list that no longer contains it. -/
theorem list_membership (d : pn_driver_t) (h : reachable d) :
    ∃ ls cs, listener_list d ls ∧ connector_list d cs ∧
      (∀ a l, d.listeners a = some l → l.driver = true → ls.count a = 1) ∧
      (∀ a c, d.connectors a = some c → c.driver = true → cs.count a = 1) ∧
      (∀ a ∈ ls, ∃ l, d.listeners a = some l ∧ l.driver = true) ∧
      (∀ a ∈ cs, ∃ c, d.connectors a = some c ∧ c.driver = true) ∧
      d.listener_count = ls.length ∧ d.connector_count = cs.length ∧
      (∀ a, d.listeners a = none → a ∉ ls) ∧ (∀ a, d.connectors a = none → a ∉ cs) ∧
      (∀ a l, d.listeners a = some l → ∃ d2 ls2, pn_listener_free d (some a) = some d2 ∧
        listener_list d2 ls2 ∧ connector_list d2 cs ∧ a ∉ ls2 ∧ d2.listeners a = none ∧
        d2.listener_count = d.listener_count - 1) ∧
      (∀ a c, d.connectors a = some c → ∃ d2 cs2, pn_connector_free d (some a) = some d2 ∧
        connector_list d2 cs2 ∧ listener_list d2 ls ∧ a ∉ cs2 ∧ d2.connectors a = none ∧
        d2.connector_count = d.connector_count - 1) := by
  obtain ⟨ls, cs, hl, hc, -, -⟩ := driver_inv_reachable h
  refine ⟨ls, cs, hl, hc, ?_, ?_, ?_, ?_, hl.2.2.2.2, hc.2.2.2.2, ?_, ?_, ?_, ?_⟩
  · intro a l ha _
    exact List.count_eq_one_of_mem hl.1 (hl.2.2.2.1 a l ha).2
  · intro a c ha _
    exact List.count_eq_one_of_mem hc.1 (hc.2.2.2.1 a c ha).2
  · intro a ha
    obtain ⟨l, hx⟩ := listener_list_live hl a ha
    exact ⟨l, hx, (hl.2.2.2.1 a l hx).1⟩
  · intro a ha
    obtain ⟨c, hx⟩ := connector_list_live hc a ha
    exact ⟨c, hx, (hc.2.2.2.1 a c hx).1⟩
  · intro a ha hmem
    obtain ⟨l, hx⟩ := listener_list_live hl a hmem
    rw [ha] at hx
    cases hx
  · intro a ha hmem
    obtain ⟨c, hx⟩ := connector_list_live hc a hmem
    rw [ha] at hx
    cases hx
  · intro a x ha
    have hmem := (hl.2.2.2.1 a x ha).2
    obtain ⟨l, r, hsplit⟩ := List.append_of_mem hmem
    subst hsplit
    obtain ⟨d2, hfree, hl2, ha2, -, -, hside, -, -⟩ := listener_free_effect hl ha
    refine ⟨d2, l ++ r, hfree, hl2, connector_list_of_side hside hc, ?_, ha2, ?_⟩
    · intro hm
      obtain ⟨y, hy⟩ := listener_list_live hl2 a hm
      rw [ha2] at hy
      cases hy
    · rw [hl2.2.2.2.2, hl.2.2.2.2]
      simp only [List.length_append, List.length_cons, Nat.cast_add, Nat.cast_one]
      omega
  · intro a x ha
    have hmem := (hc.2.2.2.1 a x ha).2
    obtain ⟨l, r, hsplit⟩ := List.append_of_mem hmem
    subst hsplit
    obtain ⟨d2, hfree, hl2, ha2, -, -, -, hside, -, -⟩ := connector_free_effect hc ha
    refine ⟨d2, l ++ r, hfree, hl2, listener_list_of_side hside hl, ?_, ha2, ?_⟩
    · intro hm
      obtain ⟨y, hy⟩ := connector_list_live hl2 a hm
      rw [ha2] at hy
      cases hy
    · rw [hl2.2.2.2.2, hc.2.2.2.2]
      simp only [List.length_append, List.length_cons, Nat.cast_add, Nat.cast_one]
      omega

theorem list_membership_witness :
    reachable ex_reached ∧
    ∃ ls cs, listener_list ex_reached ls ∧ connector_list ex_reached cs ∧
      (∀ a l, ex_reached.listeners a = some l → l.driver = true → ls.count a = 1) ∧
      (∀ a c, ex_reached.connectors a = some c → c.driver = true → cs.count a = 1) ∧
      (∀ a ∈ ls, ∃ l, ex_reached.listeners a = some l ∧ l.driver = true) ∧
      (∀ a ∈ cs, ∃ c, ex_reached.connectors a = some c ∧ c.driver = true) ∧
      ex_reached.listener_count = ls.length ∧ ex_reached.connector_count = cs.length ∧
      (∀ a, ex_reached.listeners a = none → a ∉ ls) ∧
      (∀ a, ex_reached.connectors a = none → a ∉ cs) ∧
      (∀ a l, ex_reached.listeners a = some l → ∃ d2 ls2,
        pn_listener_free ex_reached (some a) = some d2 ∧
        listener_list d2 ls2 ∧ connector_list d2 cs ∧ a ∉ ls2 ∧ d2.listeners a = none ∧
        d2.listener_count = ex_reached.listener_count - 1) ∧
      (∀ a c, ex_reached.connectors a = some c → ∃ d2 cs2,
        pn_connector_free ex_reached (some a) = some d2 ∧
        connector_list d2 cs2 ∧ listener_list d2 ls ∧ a ∉ cs2 ∧ d2.connectors a = none ∧
        d2.connector_count = ex_reached.connector_count - 1) :=
  ⟨ex_reached_reachable, list_membership ex_reached ex_reached_reachable⟩

theorem pn_connector_read_flags (w : io_calls) (cap : Nat) (c : pn_connector_t) :
    pending_flags (pn_connector_read w cap c) = pending_flags c := by
  unfold pn_connector_read
  dsimp only
  split <;> rfl

theorem pn_connector_write_flags (w : io_calls) (c : pn_connector_t) :
    pending_flags (pn_connector_write w c) = pending_flags c := by
  unfold pn_connector_write
  dsimp only
  split
  · split
    · split <;> rfl
    · split <;> rfl
  · split <;> rfl

theorem pn_connector_tick_flags (w : io_calls) (cap : Nat) (c : pn_connector_t) (now : Int) :
    pending_flags (pn_connector_tick w cap c now).2 = pending_flags c := by
  unfold pn_connector_tick
  split
  · rfl
  · dsimp only
    rw [pn_connector_process_output_flags, pn_connector_process_input_flags]

theorem pn_io_handler_pending_tick (w : io_calls) (cap : Nat) (c : pn_connector_t)
    (hd : default_handlers c) :
    (pn_io_handler w cap c).2.pending_tick = c.pending_tick := by
  unfold pn_io_handler
  dsimp only
  have f1 : (if c.pending_read then
      { call_read w cap c with pending_read := false } else c).pending_tick = c.pending_tick ∧
      pipeline_frame (if c.pending_read then
      { call_read w cap c with pending_read := false } else c) = pipeline_frame c := by
    split
    · simp only [call_read, hd.1]
      exact ⟨congrArg (fun z => z.1) (pn_connector_read_flags w cap c),
        pn_connector_read_frame w cap c⟩
    · exact ⟨rfl, rfl⟩
  generalize (if c.pending_read then
      { call_read w cap c with pending_read := false } else c) = x1 at f1
  obtain ⟨p1, fr1⟩ := f1
  have p2 := congrArg (fun z => z.1) (pn_connector_process_input_flags w x1)
  have fr2 := (pn_connector_process_input_frame w x1).trans fr1
  generalize pn_connector_process_input w x1 = x2 at p2 fr2
  have p3 := congrArg (fun z => z.1) (pn_connector_process_output_flags w cap x2)
  have fr3 := (pn_connector_process_output_frame w cap x2).trans fr2
  generalize pn_connector_process_output w cap x2 = x3 at p3 fr3
  simp only [pending_flags] at p2 p3
  split
  · simp only [call_write, (frame_handlers fr3 hd).2.1]
    have p4 := congrArg (fun z => z.1) (pn_connector_write_flags w x3)
    simp only [pending_flags] at p4
    show (pn_connector_write w x3).pending_tick = c.pending_tick
    rw [p4, p3, p2, p1]
  · rw [p3, p2, p1]

/-- C20 (what one process call invokes): for `pn_connector_process` on an open connector,
whatever its function pointers (the connector keeping its back-pointer through the
io_handler), `pn_connector_shutdown_ssl` is invoked if and only if the io_handler
returned 0 and left the connector drainable; when the io_handler returns nonzero the
connector ends closed with `status = 0` and `pn_connector_shutdown_ssl` is not invoked;
when `pending_tick` was set the tick is invoked first and the io_handler second, the
connector handed to the io_handler has `pending_tick` clear, and with the default function
pointers `pending_tick` is clear at the end; when `pending_tick` was clear the tick is not
invoked. -/
theorem process_invocations (w : process_calls) (cap : Nat) (d : pn_driver_t) (a : ptr)
    (c t : pn_connector_t) (r : Int × pn_connector_t)
    (ha : d.connectors a = some c) (hcl : c.closed = false)
    (ht : t = (if c.pending_tick then
      { (call_tick w.tick cap c 0).2 with pending_tick := false } else c))
    (hr : r = call_io_handler w.io cap t) (hdrv : r.2.driver = true) :
    ∃ d2 ev c2, pn_connector_process w cap d (some a) = some (d2, ev) ∧
      d2.connectors a = some c2 ∧
      (invoked.shutdown_ssl ∈ ev ↔ r.1 = 0 ∧ drainable r.2) ∧
      (r.1 ≠ 0 → c2.closed = true ∧ c2.status = 0 ∧ invoked.shutdown_ssl ∉ ev) ∧
      (c.pending_tick = true →
        ev.take 2 = [invoked.tick, invoked.io_handler] ∧ t.pending_tick = false ∧
        (default_handlers c → c2.pending_tick = false)) ∧
      (c.pending_tick = false → invoked.tick ∉ ev ∧ ev.head? = some invoked.io_handler) ∧
      ev.count invoked.io_handler = 1 := by
  obtain ⟨d1, hd1⟩ : ∃ d1 : pn_driver_t, d1 =
      { d with connectors := fun p => if p = a then some r.2 else d.connectors p } := ⟨_, rfl⟩
  obtain ⟨tk, htk⟩ : ∃ tk : List invoked, tk =
      (if c.pending_tick then [invoked.tick] else []) := ⟨_, rfl⟩
  have hproc : pn_connector_process w cap d (some a) =
      if r.1 ≠ 0 then
        (pn_connector_close d1 (some a)).map (fun d2 => (d2, tk ++ [invoked.io_handler]))
      else if r.2.output_size = 0 ∧ r.2.input_done = true ∧ r.2.output_done = true then
        (pn_connector_shutdown_ssl w.shutdown_completes d1 a).map
          (fun d2 => (d2, tk ++ [invoked.io_handler, invoked.shutdown_ssl]))
      else some (d1, tk ++ [invoked.io_handler]) := by
    unfold pn_connector_process
    simp only [ha, hcl, Bool.false_eq_true, if_false]
    rw [hd1, htk, hr, ht]
    cases hpt : c.pending_tick <;> simp only [Bool.false_eq_true, if_false, if_true]
  have hd1a : d1.connectors a = some r.2 := by rw [hd1]; simp
  obtain ⟨dc, hclose, hdca⟩ : ∃ dc, pn_connector_close d1 (some a) = some dc ∧
      dc.connectors a = some { r.2 with status := 0, closed := true } :=
    ⟨_, pn_connector_close_eq d1 a r.2 hd1a hdrv, by simp [set_connector, hd1a]⟩
  have htk0 : c.pending_tick = true → tk = [invoked.tick] := by
    intro h; rw [htk, h]; rfl
  have htk1 : c.pending_tick = false → tk = [] := by
    intro h; rw [htk, h]; rfl
  have htk2 : tk = [invoked.tick] ∨ tk = [] := by
    cases h : c.pending_tick
    · exact Or.inr (htk1 h)
    · exact Or.inl (htk0 h)
  have htp : c.pending_tick = true → t.pending_tick = false := by
    intro h
    rw [ht, h]
    rfl
  have hdef : c.pending_tick = true → default_handlers c → r.2.pending_tick = false := by
    intro h hd
    have ht2 : t = { (pn_connector_tick w.tick cap c 0).2 with pending_tick := false } := by
      rw [ht, h]
      simp only [if_true, call_tick, hd.2.2.1]
    have hfr : pipeline_frame t = pipeline_frame c := by
      rw [ht2]
      exact pn_connector_tick_frame w.tick cap c 0
    have hdt := frame_handlers hfr hd
    rw [hr]
    simp only [call_io_handler, hdt.2.2.2]
    rw [pn_io_handler_pending_tick w.io cap t hdt]
    exact htp h
  have hfin : ∀ (d2 : pn_driver_t) (ev : List invoked) (c2 : pn_connector_t),
      pn_connector_process w cap d (some a) = some (d2, ev) → d2.connectors a = some c2 →
      c2.pending_tick = r.2.pending_tick →
      ((ev = tk ++ [invoked.io_handler, invoked.shutdown_ssl] ∧ r.1 = 0 ∧ drainable r.2) ∨
        (ev = tk ++ [invoked.io_handler] ∧ ¬ (r.1 = 0 ∧ drainable r.2))) →
      (r.1 ≠ 0 → c2.closed = true ∧ c2.status = 0) →
      ∃ d2 ev c2, pn_connector_process w cap d (some a) = some (d2, ev) ∧
        d2.connectors a = some c2 ∧
        (invoked.shutdown_ssl ∈ ev ↔ r.1 = 0 ∧ drainable r.2) ∧
        (r.1 ≠ 0 → c2.closed = true ∧ c2.status = 0 ∧ invoked.shutdown_ssl ∉ ev) ∧
        (c.pending_tick = true →
          ev.take 2 = [invoked.tick, invoked.io_handler] ∧ t.pending_tick = false ∧
          (default_handlers c → c2.pending_tick = false)) ∧
        (c.pending_tick = false → invoked.tick ∉ ev ∧ ev.head? = some invoked.io_handler) ∧
        ev.count invoked.io_handler = 1 := by
    intro d2 ev c2 hres h2 hp2 hev hnz
    have hssl : invoked.shutdown_ssl ∈ ev ↔ r.1 = 0 ∧ drainable r.2 := by
      rcases hev with ⟨he, h0, hdr⟩ | ⟨he, hn⟩
      · rw [he]
        simp [h0, hdr]
      · rw [he]
        rcases htk2 with h | h <;> rw [h] <;> simp [hn]
    refine ⟨d2, ev, c2, hres, h2, hssl, ?_, ?_, ?_, ?_⟩
    · intro h
      refine ⟨(hnz h).1, (hnz h).2, ?_⟩
      rw [hssl]
      exact fun hh => h hh.1
    · intro h
      refine ⟨?_, htp h, fun hd => hp2.trans (hdef h hd)⟩
      rcases hev with ⟨he, -⟩ | ⟨he, -⟩ <;> rw [he, htk0 h] <;> rfl
    · intro h
      rcases hev with ⟨he, -⟩ | ⟨he, -⟩ <;> rw [he, htk1 h] <;> simp
    · rcases hev with ⟨he, -⟩ | ⟨he, -⟩ <;> rw [he] <;>
        rcases htk2 with h | h <;> rw [h] <;> simp
  by_cases hrc : r.1 = 0
  · by_cases hdr : r.2.output_size = 0 ∧ r.2.input_done = true ∧ r.2.output_done = true
    · cases hcomp : w.shutdown_completes
      · refine hfin d1 _ r.2 ?_ hd1a rfl (Or.inl ⟨rfl, hrc, hdr⟩) (fun h => absurd hrc h)
        rw [hproc, if_neg (not_not.2 hrc), if_pos hdr]
        simp only [pn_connector_shutdown_ssl, hcomp, Bool.false_eq_true, if_false,
          Option.map_some']
      · refine hfin dc _ { r.2 with status := 0, closed := true } ?_ hdca rfl
          (Or.inl ⟨rfl, hrc, hdr⟩) (fun h => absurd hrc h)
        rw [hproc, if_neg (not_not.2 hrc), if_pos hdr]
        simp only [pn_connector_shutdown_ssl, hcomp, if_true, hclose, Option.map_some']
    · refine hfin d1 _ r.2 ?_ hd1a rfl (Or.inr ⟨rfl, fun h => hdr h.2⟩)
        (fun h => absurd hrc h)
      rw [hproc, if_neg (not_not.2 hrc), if_neg hdr]
  · refine hfin dc _ { r.2 with status := 0, closed := true } ?_ hdca rfl
      (Or.inr ⟨rfl, fun h => hrc h.1⟩) (fun _ => ⟨rfl, rfl⟩)
    rw [hproc, if_pos hrc, hclose]
    rfl

theorem process_invocations_witness :
    ex_ticking_driver.connectors 10 = some ex_ticking_connector ∧
    ex_ticking_connector.closed = false ∧
    (call_io_handler ex_process_calls.io 4096
      (if ex_ticking_connector.pending_tick then
        { (call_tick ex_process_calls.tick 4096 ex_ticking_connector 0).2 with
          pending_tick := false }
      else ex_ticking_connector)).2.driver = true ∧
    (∃ d2 ev c2, pn_connector_process ex_process_calls 4096 ex_ticking_driver (some 10) =
        some (d2, ev) ∧
      d2.connectors 10 = some c2 ∧
      (invoked.shutdown_ssl ∈ ev ↔
        (call_io_handler ex_process_calls.io 4096
          (if ex_ticking_connector.pending_tick then
            { (call_tick ex_process_calls.tick 4096 ex_ticking_connector 0).2 with
              pending_tick := false }
          else ex_ticking_connector)).1 = 0 ∧
        drainable (call_io_handler ex_process_calls.io 4096
          (if ex_ticking_connector.pending_tick then
            { (call_tick ex_process_calls.tick 4096 ex_ticking_connector 0).2 with
              pending_tick := false }
          else ex_ticking_connector)).2) ∧
      ((call_io_handler ex_process_calls.io 4096
          (if ex_ticking_connector.pending_tick then
            { (call_tick ex_process_calls.tick 4096 ex_ticking_connector 0).2 with
              pending_tick := false }
          else ex_ticking_connector)).1 ≠ 0 →
        c2.closed = true ∧ c2.status = 0 ∧ invoked.shutdown_ssl ∉ ev) ∧
      (ex_ticking_connector.pending_tick = true →
        ev.take 2 = [invoked.tick, invoked.io_handler] ∧
        (if ex_ticking_connector.pending_tick then
            { (call_tick ex_process_calls.tick 4096 ex_ticking_connector 0).2 with
              pending_tick := false }
          else ex_ticking_connector).pending_tick = false ∧
        (default_handlers ex_ticking_connector → c2.pending_tick = false)) ∧
      (ex_ticking_connector.pending_tick = false →
        invoked.tick ∉ ev ∧ ev.head? = some invoked.io_handler) ∧
      ev.count invoked.io_handler = 1) ∧
    (pn_connector_process ex_process_calls 4096 ex_ticking_driver (some 10)).map
      (fun x => x.2) = some [invoked.tick, invoked.io_handler, invoked.shutdown_ssl] :=
  ⟨rfl, rfl, rfl,
    process_invocations ex_process_calls 4096 ex_ticking_driver 10 ex_ticking_connector _ _
      rfl rfl rfl rfl rfl,
    by decide⟩

theorem lor_land_self (s m : Nat) : (s ||| m) &&& m = m := by
  apply Nat.eq_of_testBit_eq
  intro i
  simp only [Nat.testBit_and, Nat.testBit_or]
  cases s.testBit i <;> cases m.testBit i <;> rfl

theorem bit_clear_land_other (s r m : Nat) (h : r &&& m = 0) :
    bit_clear s r &&& m = s &&& m := by
  apply Nat.eq_of_testBit_eq
  intro i
  have hi := congrArg (fun x => x.testBit i) h
  simp only [Nat.testBit_and, Nat.zero_testBit] at hi
  simp only [bit_clear, Nat.testBit_and, Nat.testBit_xor]
  cases hs : s.testBit i <;> cases hr : r.testBit i <;> cases hm : m.testBit i <;>
    simp_all

theorem pn_connector_read_wants_write (w : io_calls) (cap : Nat) (c : pn_connector_t)
    (h : wants_write c) : wants_write (pn_connector_read w cap c) := by
  unfold pn_connector_read
  dsimp only
  split
  · intro hcl hpos
    show bit_clear c.status PN_SEL_RD &&& PN_SEL_WR = PN_SEL_WR
    rw [bit_clear_land_other _ _ _ (by decide)]
    exact h hcl hpos
  · exact h

theorem pn_connector_process_input_wants_write (w : io_calls) (c : pn_connector_t)
    (h : wants_write c) : wants_write (pn_connector_process_input w c) := by
  unfold pn_connector_process_input
  dsimp only
  split
  · split
    · split <;> exact h
    · exact h
  · exact h

/-- After `pn_connector_process_output` WANT_WRITE is set whenever output is buffered,
whatever the connector was before. -/
theorem pn_connector_process_output_wants_write (w : io_calls) (cap : Nat)
    (c : pn_connector_t) : wants_write (pn_connector_process_output w cap c) := by
  intro _ hpos
  have hne : (pn_connector_process_output w cap c).output_size ≠ 0 := by omega
  revert hne
  unfold pn_connector_process_output
  dsimp only
  split
  · split
    · split
      · intro _; exact lor_land_self _ _
      · intro h; exact absurd h (by assumption)
    · split
      · intro _; exact lor_land_self _ _
      · intro h; exact absurd h (by assumption)
  · split
    · intro _; exact lor_land_self _ _
    · intro h; exact absurd h (by assumption)

theorem pn_connector_write_wants_write (w : io_calls) (c : pn_connector_t)
    (h : wants_write c) : wants_write (pn_connector_write w c) := by
  intro hcl hpos
  have hcl0 : c.closed = false :=
    (frame_driver_closed (pn_connector_write_frame w c)).2.symm.trans hcl
  have hne : (pn_connector_write w c).output_size ≠ 0 := by omega
  revert hne
  unfold pn_connector_write
  dsimp only
  by_cases hz : c.output_size > 0
  · rw [if_pos hz]
    have hwr := h hcl0 hz
    split
    · intro hne; exact absurd rfl hne
    · split
      · intro hne; exact absurd (by assumption) hne
      · intro _; exact hwr
  · rw [if_neg hz]
    have hz0 : c.output_size = 0 := by omega
    rw [if_pos hz0]
    intro hne
    exact absurd hz0 hne

theorem pipeline_ok_of_frame {c c2 : pn_connector_t}
    (hfr : pipeline_frame c2 = pipeline_frame c) (h : pipeline_ok c) (hw : wants_write c2) :
    pipeline_ok c2 :=
  ⟨(frame_driver_closed hfr).1.trans h.1, frame_handlers hfr h.2.1, hw⟩

theorem pn_connector_read_ok (w : io_calls) (cap : Nat) (c : pn_connector_t)
    (h : pipeline_ok c) : pipeline_ok (pn_connector_read w cap c) :=
  pipeline_ok_of_frame (pn_connector_read_frame w cap c) h
    (pn_connector_read_wants_write w cap c h.2.2)

theorem pn_connector_process_input_ok (w : io_calls) (c : pn_connector_t)
    (h : pipeline_ok c) : pipeline_ok (pn_connector_process_input w c) :=
  pipeline_ok_of_frame (pn_connector_process_input_frame w c) h
    (pn_connector_process_input_wants_write w c h.2.2)

theorem pn_connector_process_output_ok (w : io_calls) (cap : Nat) (c : pn_connector_t)
    (h : pipeline_ok c) : pipeline_ok (pn_connector_process_output w cap c) :=
  pipeline_ok_of_frame (pn_connector_process_output_frame w cap c) h
    (pn_connector_process_output_wants_write w cap c)

theorem pn_connector_write_ok (w : io_calls) (c : pn_connector_t)
    (h : pipeline_ok c) : pipeline_ok (pn_connector_write w c) :=
  pipeline_ok_of_frame (pn_connector_write_frame w c) h
    (pn_connector_write_wants_write w c h.2.2)

theorem pn_connector_tick_ok (w : io_calls) (cap : Nat) (c : pn_connector_t) (now : Int)
    (h : pipeline_ok c) : pipeline_ok (pn_connector_tick w cap c now).2 := by
  unfold pn_connector_tick
  split
  · exact h
  · exact pn_connector_process_output_ok w cap _ (pn_connector_process_input_ok w c h)

theorem pn_io_handler_ok (w : io_calls) (cap : Nat) (c : pn_connector_t)
    (h : pipeline_ok c) : pipeline_ok (pn_io_handler w cap c).2 := by
  unfold pn_io_handler
  dsimp only
  have h1 : pipeline_ok (if c.pending_read then
      { call_read w cap c with pending_read := false } else c) := by
    split
    · simp only [call_read, h.2.1.1]
      exact pn_connector_read_ok w cap c h
    · exact h
  generalize (if c.pending_read then
      { call_read w cap c with pending_read := false } else c) = x1 at h1
  have h3 := pn_connector_process_output_ok w cap _ (pn_connector_process_input_ok w x1 h1)
  generalize pn_connector_process_output w cap (pn_connector_process_input w x1) = x3 at h3
  split
  · simp only [call_write, h3.2.1.2.1]
    exact pn_connector_write_ok w x3 h3
  · exact h3

theorem process_tick_ok (w : io_calls) (cap : Nat) (c : pn_connector_t) (h : pipeline_ok c) :
    pipeline_ok (if c.pending_tick then
      { (pn_connector_tick w cap c 0).2 with pending_tick := false } else c) := by
  split
  · exact pn_connector_tick_ok w cap c 0 h
  · exact h

theorem pipeline_ok_closed (c : pn_connector_t) (h : pipeline_ok c) :
    pipeline_ok { c with status := 0, closed := true } :=
  ⟨h.1, h.2.1, fun hcl => by cases hcl⟩

/-- One `pn_connector_process` on a connector that satisfies `pipeline_ok`: the call
returns and the connector satisfies `pipeline_ok` afterwards. -/
theorem pn_connector_process_ok (w : process_calls) (cap : Nat) (d : pn_driver_t) (a : ptr)
    (c : pn_connector_t) (ha : d.connectors a = some c) (h : pipeline_ok c) :
    ∃ d2 ev c2, pn_connector_process w cap d (some a) = some (d2, ev) ∧
      d2.connectors a = some c2 ∧ pipeline_ok c2 := by
  cases hcl : c.closed
  · have h2 := pn_io_handler_ok w.io cap _ (process_tick_ok w.tick cap c h)
    obtain ⟨d2, ev, c3, hp, ha3, hc3, -, -, -⟩ :=
      pn_connector_process_default w cap d a c _ _ ha h.1 h.2.1 hcl rfl rfl
    refine ⟨d2, ev, c3, hp, ha3, ?_⟩
    rcases hc3 with e | ⟨e, -, -⟩
    · rw [e]; exact h2
    · rw [e]; exact pipeline_ok_closed _ h2
  · exact ⟨d, [], c, by simp [pn_connector_process, ha, hcl], ha, h⟩

theorem on_connector_ok (d : pn_driver_t) (a : ptr) (c : pn_connector_t)
    (f : pn_connector_t → pn_connector_t) (ha : d.connectors a = some c)
    (h : pipeline_ok (f c)) :
    ∃ d2 c2, on_connector d a f = some d2 ∧ d2.connectors a = some c2 ∧ pipeline_ok c2 := by
  refine ⟨{ d with connectors := fun p => if p = a then some (f c) else d.connectors p }, f c,
    ?_, ?_, h⟩
  · simp only [on_connector, ha, Option.map_some']
  · simp

theorem apply_connector_op_ok (cap : Nat) (a : ptr) (d : pn_driver_t) (c : pn_connector_t)
    (op : connector_op) (ha : d.connectors a = some c) (h : pipeline_ok c) :
    ∃ d2 c2, apply_connector_op cap a d op = some d2 ∧ d2.connectors a = some c2 ∧
      pipeline_ok c2 := by
  cases op with
  | read w => exact on_connector_ok d a c _ ha (pn_connector_read_ok w cap c h)
  | process_input w => exact on_connector_ok d a c _ ha (pn_connector_process_input_ok w c h)
  | process_output w =>
    exact on_connector_ok d a c _ ha (pn_connector_process_output_ok w cap c h)
  | write w => exact on_connector_ok d a c _ ha (pn_connector_write_ok w c h)
  | tick w now => exact on_connector_ok d a c _ ha (pn_connector_tick_ok w cap c now h)
  | io_handler w => exact on_connector_ok d a c _ ha (pn_io_handler_ok w cap c h)
  | process w =>
    obtain ⟨d2, ev, c2, hp, ha2, h2⟩ := pn_connector_process_ok w cap d a c ha h
    exact ⟨d2, c2, by simp only [apply_connector_op, hp, Option.map_some'], ha2, h2⟩
  | wait ssl os =>
    cases ssl
    · refine ⟨_, _, rfl, by simp [pn_driver_wait, pn_driver_poller_wait, ha]; rfl, ?_⟩
      exact ⟨h.1, h.2.1, h.2.2⟩
    · exact ⟨_, c, rfl, by simpa [pn_driver_wait] using ha, h⟩

theorem run_connector_ops_ok (cap : Nat) (a : ptr) :
    ∀ (ops : List connector_op) (d : pn_driver_t) (c : pn_connector_t),
      d.connectors a = some c → pipeline_ok c →
      ∃ d2 c2, run_connector_ops cap a d ops = some d2 ∧ d2.connectors a = some c2 ∧
        pipeline_ok c2 := by
  intro ops
  induction ops with
  | nil => intro d c ha h; exact ⟨d, c, rfl, ha, h⟩
  | cons op ops ih =>
    intro d c ha h
    obtain ⟨d1, c1, h1, ha1, hok1⟩ := apply_connector_op_ok cap a d c op ha h
    obtain ⟨d2, c2, h2, ha2, hok2⟩ := ih d1 c1 ha1 hok1
    exact ⟨d2, c2, by simp only [run_connector_ops, h1, Option.some_bind, h2], ha2, hok2⟩

/-- The connector that `pn_connector_fd` creates at a fresh address: open, with an empty
output buffer, both interest bits set, and satisfying `pipeline_ok`. -/
theorem pn_connector_fd_ok (d : pn_driver_t) (a : ptr) (transport sasl : Option ptr)
    (fd : Int) (context : Option ptr) (hfresh : d.connectors a = none) :
    ∃ d2 c, pn_connector_fd (some a) transport sasl d fd context = some (some a, d2) ∧
      d2.connectors a = some c ∧ c.closed = false ∧ c.output_size = 0 ∧
      c.status = PN_SEL_RD ||| PN_SEL_WR ∧ pipeline_ok c := by
  unfold pn_connector_fd
  simp only [hfresh, Option.isSome_none, Bool.false_eq_true, if_false]
  generalize hc1 : pn_connector_trace _ d.trace = c1
  have hc1d : c1.driver = true := by rw [← hc1]; rfl
  have hc1c : c1.closed = false := by rw [← hc1]; rfl
  have hc1o : c1.output_size = 0 := by rw [← hc1]; rfl
  have hc1s : c1.status = PN_SEL_RD ||| PN_SEL_WR := by rw [← hc1]; rfl
  have hc1h : default_handlers c1 := by rw [← hc1]; exact ⟨rfl, rfl, rfl, rfl⟩
  obtain ⟨d2, hadd, hconn, -⟩ :=
    pn_driver_add_connector_fields
      { d with connectors := fun p => if p = a then some c1 else d.connectors p } a c1
      (by simp) hc1d
  have hpay := LL_ADD_connector_payload
    { d with connectors := fun p => if p = a then some c1 else d.connectors p } a a
  simp only [if_true, Option.map_some'] at hpay
  cases hx : (LL_ADD_connector
      { d with connectors := fun p => if p = a then some c1 else d.connectors p } a).connectors a with
  | none => rw [hx] at hpay; simp at hpay
  | some x =>
    rw [hx] at hpay
    simp only [Option.map_some', Option.some.injEq] at hpay
    have e1 : x.closed = c1.closed := congrArg (fun z => z.closed) hpay
    have e2 : x.output_size = c1.output_size := congrArg (fun z => z.output_size) hpay
    have e3 : x.status = c1.status := congrArg (fun z => z.status) hpay
    have e4 : x.read = c1.read := congrArg (fun z => z.read) hpay
    have e5 : x.write = c1.write := congrArg (fun z => z.write) hpay
    have e6 : x.tick = c1.tick := congrArg (fun z => z.tick) hpay
    have e7 : x.io_handler = c1.io_handler := congrArg (fun z => z.io_handler) hpay
    refine ⟨d2, { x with driver := true }, ?_, ?_, e1.trans hc1c, e2.trans hc1o,
      e3.trans hc1s, rfl, ?_, ?_⟩
    · rw [hadd]; rfl
    · rw [hconn]; simp [set_connector, hx]
    · exact ⟨e4.trans hc1h.1, e5.trans hc1h.2.1, e6.trans hc1h.2.2.1, e7.trans hc1h.2.2.2⟩
    · intro _ hpos
      have h0 : x.output_size = 0 := e2.trans hc1o
      have hpos2 : 0 < x.output_size := hpos
      omega

/-- C21 (no stranded output): in every state reached from the creation of a connector by
`pn_connector_fd` through `pn_connector_read`, `pn_connector_process_input`,
`pn_connector_process_output`, `pn_connector_write`, `pn_connector_tick`, the default
io_handler, `pn_connector_process` and `pn_driver_wait`, for any answers of the socket,
the transport, the TLS layer and the poller, the connector is still allocated, and when it
is not closed and `output_size > 0` the WANT_WRITE bit is set in its `status`; every
further step is defined on that state. -/
theorem no_stranded_output (cap : Nat) (a : ptr) (d : pn_driver_t)
    (h : connector_reachable cap a d) :
    ∃ c, d.connectors a = some c ∧
      (c.closed = false → 0 < c.output_size →
        c.status &&& PN_SEL_WR = PN_SEL_WR ∧ c.status &&& PN_SEL_WR ≠ 0) ∧
      (∀ op, ∃ d2, apply_connector_op cap a d op = some d2) := by
  obtain ⟨d0, transport, sasl, fd, context, d1, ops, hfd, hrun⟩ := h
  obtain ⟨-, hfresh⟩ := pn_connector_fd_inv _ _ _ _ _ _ _ _ hfd
  obtain ⟨d1b, c1, hfd2, ha1, -, -, -, hok1⟩ :=
    pn_connector_fd_ok d0 a transport sasl fd context hfresh
  rw [hfd] at hfd2
  simp only [Option.some.injEq, Prod.mk.injEq, true_and] at hfd2
  subst hfd2
  obtain ⟨d2, c2, hrun2, ha2, hok2⟩ := run_connector_ops_ok cap a ops d1 c1 ha1 hok1
  rw [hrun] at hrun2
  simp only [Option.some.injEq] at hrun2
  subst hrun2
  refine ⟨c2, ha2, ?_, ?_⟩
  · intro hcl hpos
    have hw := hok2.2.2 hcl hpos
    refine ⟨hw, ?_⟩
    rw [hw]
    decide
  · intro op
    obtain ⟨d3, -, h3, -⟩ := apply_connector_op_ok cap a d c2 op ha2 hok2
    exact ⟨d3, h3⟩

theorem ex_written_reachable : connector_reachable 4096 10 ex_written :=
  ⟨pn_driver 0 (3, 4), some 100, some 101, 5, none, ex_created, ex_connector_ops, rfl, rfl⟩

theorem no_stranded_output_witness :
    connector_reachable 4096 10 ex_written ∧
    (∃ c, ex_written.connectors 10 = some c ∧
      (c.closed = false → 0 < c.output_size →
        c.status &&& PN_SEL_WR = PN_SEL_WR ∧ c.status &&& PN_SEL_WR ≠ 0) ∧
      (∀ op, ∃ d2, apply_connector_op 4096 10 ex_written op = some d2)) ∧
    (ex_written.connectors 10).map (fun c => (c.closed, c.output_size, c.status)) =
      some (false, 2, 3) :=
  ⟨ex_written_reachable, no_stranded_output 4096 10 ex_written ex_written_reachable,
    by decide⟩

theorem closed_connectors_cons (d : pn_driver_t) (a : ptr) (r : List ptr) (c : pn_connector_t)
    (ha : d.connectors a = some c) :
    (closed_connectors d (a :: r) : Int) =
      (if c.closed = true then 1 else 0) + closed_connectors d r := by
  unfold closed_connectors
  cases hcl : c.closed
  · simp [List.filter_cons, ha, hcl]
  · simp [List.filter_cons, ha, hcl]
    omega

theorem closed_connectors_congr (d d2 : pn_driver_t) (r : List ptr)
    (h : ∀ p ∈ r, (d2.connectors p).map connector_payload =
      (d.connectors p).map connector_payload) :
    closed_connectors d2 r = closed_connectors d r := by
  unfold closed_connectors
  congr 1
  apply List.filter_congr
  intro p hp
  have hpay := h p hp
  cases hx : d.connectors p with
  | none =>
    rw [hx] at hpay
    cases hy : d2.connectors p with
    | none => rfl
    | some y => rw [hy] at hpay; simp at hpay
  | some x =>
    obtain ⟨y, hy, hyc⟩ := payload_closed hpay x hx
    rw [hy]
    exact hyc

/-- The first loop of `pn_driver_free` on a well-formed connector list: with more fuel
than connectors it ends, having freed every connector. -/
theorem pn_driver_free_connectors_reaps :
    ∀ (cs : List ptr) (d : pn_driver_t) (fuel : Nat), connector_list d cs → cs.length < fuel →
      ∃ d2, pn_driver_free_connectors fuel d = some d2 ∧ connector_list d2 [] ∧
        d2.closed_count = d.closed_count - closed_connectors d cs ∧
        listener_side d2 = listener_side d ∧ (∀ p, d2.connectors p = none) := by
  intro cs
  induction cs with
  | nil =>
    intro d fuel hl hf
    cases fuel with
    | zero => cases hf
    | succ fuel =>
      have hhead : d.connector_head = none := hl.2.1
      refine ⟨d, by simp [pn_driver_free_connectors, hhead], hl, by simp [closed_connectors],
        rfl, ?_⟩
      intro p
      cases hx : d.connectors p with
      | none => rfl
      | some x => exact absurd (hl.2.2.2.1 p x hx).2 (List.not_mem_nil p)
  | cons a r ih =>
    intro d fuel hl hf
    cases fuel with
    | zero => cases hf
    | succ fuel =>
      have hhead : d.connector_head = some a := chain_head hl.2.1
      obtain ⟨c, ha⟩ := connector_list_live hl a (List.mem_cons_self _ _)
      have hl0 : connector_list d ([] ++ a :: r) := hl
      obtain ⟨d1, hfree, hl1, -, hpay, -, hcc, hside, -, -⟩ := connector_free_effect hl0 ha
      have hnd : a ∉ r := (List.nodup_cons.1 hl.1).1
      have hcong : closed_connectors d1 r = closed_connectors d r :=
        closed_connectors_congr d d1 r (fun p hp => hpay p (fun e => hnd (e ▸ hp)))
      obtain ⟨d2, hrun, hl2, hcc2, hside2, hnone⟩ := ih d1 fuel hl1
        (by simp only [List.length_cons] at hf; omega)
      refine ⟨d2, ?_, hl2, ?_, hside2.trans hside, hnone⟩
      · simp only [pn_driver_free_connectors, hhead, hfree, Option.some_bind, hrun]
      · rw [hcc2, hcc, hcong, closed_connectors_cons d a r c ha]
        split <;> omega

/-- The second loop of `pn_driver_free` on a well-formed listener list: with more fuel
than listeners it ends, having freed every listener. -/
theorem pn_driver_free_listeners_reaps :
    ∀ (ls : List ptr) (d : pn_driver_t) (fuel : Nat), listener_list d ls → ls.length < fuel →
      ∃ d2, pn_driver_free_listeners fuel d = some d2 ∧ listener_list d2 [] ∧
        connector_side d2 = connector_side d ∧ (∀ p, d2.listeners p = none) := by
  intro ls
  induction ls with
  | nil =>
    intro d fuel hl hf
    cases fuel with
    | zero => cases hf
    | succ fuel =>
      have hhead : d.listener_head = none := hl.2.1
      refine ⟨d, by simp [pn_driver_free_listeners, hhead], hl, rfl, ?_⟩
      intro p
      cases hx : d.listeners p with
      | none => rfl
      | some x => exact absurd (hl.2.2.2.1 p x hx).2 (List.not_mem_nil p)
  | cons a r ih =>
    intro d fuel hl hf
    cases fuel with
    | zero => cases hf
    | succ fuel =>
      have hhead : d.listener_head = some a := chain_head hl.2.1
      obtain ⟨c, ha⟩ := listener_list_live hl a (List.mem_cons_self _ _)
      have hl0 : listener_list d ([] ++ a :: r) := hl
      obtain ⟨d1, hfree, hl1, -, -, -, hside, -, -⟩ := listener_free_effect hl0 ha
      obtain ⟨d2, hrun, hl2, hside2, hnone⟩ := ih d1 fuel hl1
        (by simp only [List.length_cons] at hf; omega)
      refine ⟨d2, ?_, hl2, hside2.trans hside, hnone⟩
      simp only [pn_driver_free_listeners, hhead, hfree, Option.some_bind, hrun]

/-- C22 (pn_driver_free terminates and reaps everything): on a driver whose two lists are
well formed, with more fuel than either list has nodes, both loops of `pn_driver_free`
end; afterwards both lists are empty, no connector and no listener is allocated,
`connector_count = 0`, `listener_count = 0`, and `closed_count` has been decreased by the
number of connectors that were closed.  Each turn of a loop frees the current head: the
call succeeds, the head is no longer allocated, and the rest of the list is the new list,
the other list being untouched. -/
theorem pn_driver_free_reaps (d : pn_driver_t) (ls cs : List ptr) (fuel : Nat)
    (hl : listener_list d ls) (hc : connector_list d cs) (hf1 : cs.length < fuel)
    (hf2 : ls.length < fuel) :
    (∃ d2, pn_driver_free fuel d = some d2 ∧ connector_list d2 [] ∧ listener_list d2 [] ∧
      d2.connector_head = none ∧ d2.listener_head = none ∧
      d2.connector_count = 0 ∧ d2.listener_count = 0 ∧
      d2.closed_count = d.closed_count - closed_connectors d cs ∧
      (∀ p, d2.connectors p = none) ∧ (∀ p, d2.listeners p = none)) ∧
    (∀ a r, cs = a :: r → d.connector_head = some a ∧
      ∃ d1, pn_connector_free d d.connector_head = some d1 ∧ connector_list d1 r ∧
        listener_list d1 ls ∧ d1.connectors a = none ∧ d1.connector_head = r.head?) ∧
    (∀ a r, ls = a :: r → d.listener_head = some a ∧
      ∃ d1, pn_listener_free d d.listener_head = some d1 ∧ listener_list d1 r ∧
        connector_list d1 cs ∧ d1.listeners a = none ∧ d1.listener_head = r.head?) := by
  refine ⟨?_, ?_, ?_⟩
  · obtain ⟨d1, h1, hc1, hcc1, hside1, hnone1⟩ :=
      pn_driver_free_connectors_reaps cs d fuel hc hf1
    have hl1 : listener_list d1 ls := listener_list_of_side hside1 hl
    obtain ⟨d2, h2, hl2, hside2, hnone2⟩ := pn_driver_free_listeners_reaps ls d1 fuel hl1 hf2
    have hc2 : connector_list d2 [] := connector_list_of_side hside2 hc1
    have hcc2 : d2.closed_count = d1.closed_count := by
      have := congrArg (fun z => z.2.2.2.2.2) hside2
      simpa only [connector_side] using this
    have hconn2 : d2.connectors = d1.connectors := by
      have := congrArg (fun z => z.1) hside2
      simpa only [connector_side] using this
    refine ⟨d2, ?_, hc2, hl2, hc2.2.1, hl2.2.1, ?_, ?_, ?_, ?_, hnone2⟩
    · simp only [pn_driver_free, h1, Option.some_bind, h2]
    · rw [hc2.2.2.2.2]; rfl
    · rw [hl2.2.2.2.2]; rfl
    · rw [hcc2, hcc1]
    · intro p
      rw [hconn2]
      exact hnone1 p
  · intro a r hcs
    subst hcs
    have hhead : d.connector_head = some a := chain_head hc.2.1
    obtain ⟨c, ha⟩ := connector_list_live hc a (List.mem_cons_self _ _)
    have hc0 : connector_list d ([] ++ a :: r) := hc
    obtain ⟨d1, hfree, hc1, ha1, -, -, -, hside, -, -⟩ := connector_free_effect hc0 ha
    refine ⟨hhead, d1, by rw [hhead]; exact hfree, hc1, listener_list_of_side hside hl, ha1, ?_⟩
    exact chain_head hc1.2.1
  · intro a r hls
    subst hls
    have hhead : d.listener_head = some a := chain_head hl.2.1
    obtain ⟨c, ha⟩ := listener_list_live hl a (List.mem_cons_self _ _)
    have hl0 : listener_list d ([] ++ a :: r) := hl
    obtain ⟨d1, hfree, hl1, ha1, -, -, hside, -, -⟩ := listener_free_effect hl0 ha
    refine ⟨hhead, d1, by rw [hhead]; exact hfree, hl1, connector_list_of_side hside hc, ha1, ?_⟩
    exact chain_head hl1.2.1

theorem pn_driver_free_reaps_witness :
    listener_list ex_driver [1, 2] ∧ connector_list ex_driver [10, 20, 30] ∧
    [10, 20, 30].length < 4 ∧ [1, 2].length < 4 ∧
    ((∃ d2, pn_driver_free 4 ex_driver = some d2 ∧ connector_list d2 [] ∧
      listener_list d2 [] ∧ d2.connector_head = none ∧ d2.listener_head = none ∧
      d2.connector_count = 0 ∧ d2.listener_count = 0 ∧
      d2.closed_count = ex_driver.closed_count - closed_connectors ex_driver [10, 20, 30] ∧
      (∀ p, d2.connectors p = none) ∧ (∀ p, d2.listeners p = none)) ∧
    (∀ a r, [10, 20, 30] = a :: r → ex_driver.connector_head = some a ∧
      ∃ d1, pn_connector_free ex_driver ex_driver.connector_head = some d1 ∧
        connector_list d1 r ∧ listener_list d1 [1, 2] ∧ d1.connectors a = none ∧
        d1.connector_head = r.head?) ∧
    (∀ a r, [1, 2] = a :: r → ex_driver.listener_head = some a ∧
      ∃ d1, pn_listener_free ex_driver ex_driver.listener_head = some d1 ∧
        listener_list d1 r ∧ connector_list d1 [10, 20, 30] ∧ d1.listeners a = none ∧
        d1.listener_head = r.head?)) ∧
    closed_connectors ex_driver [10, 20, 30] = 1 ∧
    (pn_driver_free 4 ex_driver).map
      (fun d2 => (d2.connector_count, d2.listener_count, d2.closed_count)) = some (0, 0, 0) :=
  ⟨ex_driver_listener_list, ex_driver_connector_list, by decide, by decide,
    pn_driver_free_reaps ex_driver [1, 2] [10, 20, 30] 4 ex_driver_listener_list
      ex_driver_connector_list (by decide) (by decide),
    by decide, by decide⟩

/-- In every state reached from the creation of the connector at `a` the connector is
allocated and satisfies `pipeline_ok`. -/
theorem connector_reachable_ok (cap : Nat) (a : ptr) (d : pn_driver_t)
    (h : connector_reachable cap a d) : ∃ c, d.connectors a = some c ∧ pipeline_ok c := by
  obtain ⟨d0, transport, sasl, fd, context, d1, ops, hfd, hrun⟩ := h
  obtain ⟨-, hfresh⟩ := pn_connector_fd_inv _ _ _ _ _ _ _ _ hfd
  obtain ⟨d1b, c1, hfd2, ha1, -, -, -, hok1⟩ :=
    pn_connector_fd_ok d0 a transport sasl fd context hfresh
  rw [hfd] at hfd2
  simp only [Option.some.injEq, Prod.mk.injEq, true_and] at hfd2
  subst hfd2
  obtain ⟨d2, c2, hrun2, ha2, hok2⟩ := run_connector_ops_ok cap a ops d1 c1 ha1 hok1
  rw [hrun] at hrun2
  simp only [Option.some.injEq] at hrun2
  subst hrun2
  exact ⟨c2, ha2, hok2⟩

/-- `pn_connector_process_output` on a connector with `output_done` set: the transport is
not asked for output, and no field changes but `status`, which gets WANT_WRITE when output
is buffered. -/
theorem pn_connector_process_output_done_eq (w : io_calls) (cap : Nat) (c : pn_connector_t)
    (h : c.output_done = true) :
    pn_connector_process_output w cap c =
      { c with status := if c.output_size = 0 then c.status else c.status ||| PN_SEL_WR } := by
  have h2 : (!c.output_done) = false := by rw [h]; rfl
  unfold pn_connector_process_output
  rw [h2]
  simp only [Bool.false_eq_true, if_false]
  by_cases hz : c.output_size = 0
  · rw [if_neg (not_not.2 hz), if_pos hz]
  · rw [if_pos hz, if_neg hz]

/-- C11 (output latching): for every connector with `output_done = true` that
`pn_connector_process` can hand to it, `pn_connector_process_output` is a no-op: it returns
the connector as it is for every transport, so it does not pull from the transport and
changes neither the output buffer, `output_size`, `status` nor a flag.  This holds for
every open connector whose buffered output is announced by WANT_WRITE, hence for the open
connector of every state reached from its creation by `pn_connector_fd`, and for every
connector with an empty output buffer.  In general `output_done` stops the pull and no
field but `status` can change. -/
theorem process_output_done (w : io_calls) (cap : Nat) (c : pn_connector_t)
    (h : c.output_done = true) :
    (c.closed = false → wants_write c → pn_connector_process_output w cap c = c) ∧
    (∀ cap2 a d, connector_reachable cap2 a d → d.connectors a = some c → c.closed = false →
      pn_connector_process_output w cap c = c) ∧
    (c.output_size = 0 → pn_connector_process_output w cap c = c) ∧
    pn_connector_process_output w cap c =
      { c with status := if c.output_size = 0 then c.status else c.status ||| PN_SEL_WR } := by
  have heq := pn_connector_process_output_done_eq w cap c h
  have hopen : c.closed = false → wants_write c → pn_connector_process_output w cap c = c := by
    intro hcl hw
    rw [heq]
    by_cases hz : c.output_size = 0
    · rw [if_pos hz]
    · rw [if_neg hz, lor_eq_of_land_eq _ _ (hw hcl (Nat.pos_of_ne_zero hz))]
  refine ⟨hopen, ?_, ?_, heq⟩
  · intro cap2 a d hr ha hcl
    obtain ⟨c2, ha2, hok⟩ := connector_reachable_ok cap2 a d hr
    rw [ha] at ha2
    simp only [Option.some.injEq] at ha2
    subst ha2
    exact hopen hcl hok.2.2
  · intro hz
    rw [heq, if_pos hz]

theorem ex_output_done_reachable : connector_reachable 4096 10 ex_output_done_driver :=
  ⟨pn_driver 0 (3, 4), some 100, some 101, 5, none, ex_created, ex_output_done_ops, rfl, rfl⟩

theorem process_output_done_witness :
    ex_output_done_connector.output_done = true ∧
    ((ex_output_done_connector.closed = false → wants_write ex_output_done_connector →
      pn_connector_process_output ex_producing_calls 4096 ex_output_done_connector =
        ex_output_done_connector) ∧
    (∀ cap2 a d, connector_reachable cap2 a d → d.connectors a = some ex_output_done_connector →
      ex_output_done_connector.closed = false →
      pn_connector_process_output ex_producing_calls 4096 ex_output_done_connector =
        ex_output_done_connector) ∧
    (ex_output_done_connector.output_size = 0 →
      pn_connector_process_output ex_producing_calls 4096 ex_output_done_connector =
        ex_output_done_connector) ∧
    pn_connector_process_output ex_producing_calls 4096 ex_output_done_connector =
      { ex_output_done_connector with
        status := if ex_output_done_connector.output_size = 0 then
          ex_output_done_connector.status
          else ex_output_done_connector.status ||| PN_SEL_WR }) ∧
    connector_reachable 4096 10 ex_output_done_driver ∧
    ex_output_done_driver.connectors 10 = some ex_output_done_connector ∧
    ex_output_done_connector.closed = false ∧ ex_output_done_connector.output_size = 3 ∧
    ex_output_done_connector.status = 3 ∧ wants_write ex_output_done_connector ∧
    pn_connector_process_output ex_producing_calls 4096 ex_output_done_connector =
      ex_output_done_connector :=
  ⟨rfl, process_output_done ex_producing_calls 4096 ex_output_done_connector rfl,
    ex_output_done_reachable, rfl, rfl, by decide, by decide, fun _ _ => by decide,
    (process_output_done ex_producing_calls 4096 ex_output_done_connector rfl).1 rfl
      (fun _ _ => by decide)⟩

theorem pn_connector_read_drainable (w : io_calls) (cap : Nat) (c : pn_connector_t)
    (h : drainable c) : drainable (pn_connector_read w cap c) := by
  unfold pn_connector_read
  dsimp only
  split <;> exact h

theorem pn_connector_process_input_drainable (w : io_calls) (c : pn_connector_t)
    (h : drainable c) : drainable (pn_connector_process_input w c) := by
  have h2 : (!c.input_done) = false := by rw [h.2.1]; rfl
  unfold pn_connector_process_input
  rw [h2]
  exact h

theorem pn_connector_process_output_drainable (w : io_calls) (cap : Nat) (c : pn_connector_t)
    (h : drainable c) : drainable (pn_connector_process_output w cap c) := by
  rw [pn_connector_process_output_done_eq w cap c h.2.2]
  exact h

theorem pn_connector_write_drainable (w : io_calls) (c : pn_connector_t)
    (h : drainable c) : drainable (pn_connector_write w c) := by
  have hz : c.output_size = 0 := h.1
  have hn : ¬ c.output_size > 0 := by omega
  have heq : pn_connector_write w c = { c with status := bit_clear c.status PN_SEL_WR } := by
    unfold pn_connector_write
    simp only [if_neg hn, if_pos hz]
  rw [heq]
  exact h

theorem pn_connector_tick_drainable (w : io_calls) (cap : Nat) (c : pn_connector_t) (now : Int)
    (h : drainable c) : drainable (pn_connector_tick w cap c now).2 := by
  unfold pn_connector_tick
  split
  · exact h
  · exact pn_connector_process_output_drainable w cap _
      (pn_connector_process_input_drainable w c h)

theorem pn_io_handler_drainable (w : io_calls) (cap : Nat) (c : pn_connector_t)
    (hd : default_handlers c) (h : drainable c) : drainable (pn_io_handler w cap c).2 := by
  unfold pn_io_handler
  dsimp only
  have h1 : drainable (if c.pending_read then
      { call_read w cap c with pending_read := false } else c) ∧
      pipeline_frame (if c.pending_read then
      { call_read w cap c with pending_read := false } else c) = pipeline_frame c := by
    split
    · simp only [call_read, hd.1]
      exact ⟨pn_connector_read_drainable w cap c h, pn_connector_read_frame w cap c⟩
    · exact ⟨h, rfl⟩
  generalize (if c.pending_read then
      { call_read w cap c with pending_read := false } else c) = x1 at h1
  obtain ⟨hd1, fr1⟩ := h1
  have h3 := pn_connector_process_output_drainable w cap _
    (pn_connector_process_input_drainable w x1 hd1)
  have fr3 := ((pn_connector_process_output_frame w cap _).trans
    (pn_connector_process_input_frame w x1)).trans fr1
  generalize pn_connector_process_output w cap (pn_connector_process_input w x1) = x3
    at h3 fr3
  split
  · simp only [call_write, (frame_handlers fr3 hd).2.1]
    exact pn_connector_write_drainable w x3 h3
  · exact h3

/-- One `pn_connector_process` on an open, drainable connector with the default function
pointers, during which the TLS shutdown does not complete: `pn_connector_shutdown_ssl` is
invoked once and the connector is open and drainable afterwards. -/
theorem process_drainable_step (w : process_calls) (cap : Nat) (d : pn_driver_t) (a : ptr)
    (c : pn_connector_t) (ha : d.connectors a = some c) (hdrv : c.driver = true)
    (hd : default_handlers c) (hcl : c.closed = false) (hdr : drainable c)
    (hw : w.shutdown_completes = false) :
    ∃ d2 ev c2, pn_connector_process w cap d (some a) = some (d2, ev) ∧
      ev.count invoked.shutdown_ssl = 1 ∧ d2.connectors a = some c2 ∧
      c2.driver = true ∧ default_handlers c2 ∧ c2.closed = false ∧ drainable c2 := by
  have hdr1 : drainable (if c.pending_tick then
      { (pn_connector_tick w.tick cap c 0).2 with pending_tick := false } else c) := by
    split
    · exact pn_connector_tick_drainable w.tick cap c 0 hdr
    · exact hdr
  have fr1 := process_tick_frame w.tick cap c
  have hd1 := frame_handlers fr1 hd
  have hdr2 := pn_io_handler_drainable w.io cap _ hd1 hdr1
  have fr2 := (pn_io_handler_frame w.io cap _ hd1).trans fr1
  obtain ⟨d2, ev, c3, hp, ha3, hc3, hcount, -, -⟩ :=
    pn_connector_process_default w cap d a c _ _ ha hdrv hd hcl rfl rfl
  have e : c3 = (pn_io_handler w.io cap (if c.pending_tick then
      { (pn_connector_tick w.tick cap c 0).2 with pending_tick := false } else c)).2 := by
    rcases hc3 with e | ⟨-, -, hcomp⟩
    · exact e
    · rw [hw] at hcomp
      cases hcomp
  refine ⟨d2, ev, c3, hp, (hcount hdr2).1, ha3, ?_, ?_, ?_, ?_⟩
  · rw [e]; exact (frame_driver_closed fr2).1.trans hdrv
  · rw [e]; exact frame_handlers fr2 hd
  · rw [e]; exact (frame_driver_closed fr2).2.trans hcl
  · rw [e]; exact hdr2

theorem process_seq_drainable (cap : Nat) (a : ptr) :
    ∀ (ws : List process_calls) (d : pn_driver_t) (c : pn_connector_t),
      d.connectors a = some c → c.driver = true → default_handlers c → c.closed = false →
      drainable c → (∀ w ∈ ws, w.shutdown_completes = false) →
      ∃ d2 ev c2, process_seq cap a ws d = some (d2, ev) ∧
        ev.count invoked.shutdown_ssl = ws.length ∧ d2.connectors a = some c2 ∧
        c2.closed = false ∧ drainable c2 := by
  intro ws
  induction ws with
  | nil =>
    intro d c ha _ _ hcl hdr _
    exact ⟨d, [], c, rfl, rfl, ha, hcl, hdr⟩
  | cons w ws ih =>
    intro d c ha hdrv hd hcl hdr hws
    obtain ⟨d1, ev1, c1, hp, hc1, ha1, hdrv1, hd1, hcl1, hdr1⟩ :=
      process_drainable_step w cap d a c ha hdrv hd hcl hdr (hws w (List.mem_cons_self _ _))
    obtain ⟨d2, ev2, c2, hs, hc2, ha2, hcl2, hdr2⟩ :=
      ih d1 c1 ha1 hdrv1 hd1 hcl1 hdr1 (fun w2 h2 => hws w2 (List.mem_cons_of_mem _ h2))
    refine ⟨d2, ev1 ++ ev2, c2, ?_, ?_, ha2, hcl2, hdr2⟩
    · simp [process_seq, hp, hs]
    · rw [List.count_append, hc1, hc2, List.length_cons]
      omega

/-- C8 (amended): one call of `pn_connector_process` invokes `pn_connector_shutdown_ssl`
at most once, and not at all when the `closed` flag of the connector is set on entry; with
the default function pointers the connector is open when `pn_connector_shutdown_ssl` is
invoked.  No record of an invocation is kept: with the default function pointers, on an
open drainable connector every process call during which the TLS shutdown does not
complete invokes it once more and leaves the connector open and drainable, so `n` such
calls invoke it `n` times.  When the TLS shutdown completes (the connector is closed)
before each invocation returns, the invocations over a whole sequence of process calls are
at most one, and with the default function pointers on a connector that starts open they
are exactly one precisely when the sequence leaves the connector drainable, which is
precisely when it leaves it closed. -/
theorem shutdown_ssl_once_when_completing (cap : Nat) (a : ptr) (ws : List process_calls)
    (d : pn_driver_t) (c : pn_connector_t) (ha : d.connectors a = some c)
    (hcomp : ∀ w ∈ ws, w.shutdown_completes = true) :
    (∀ w d2 ev, pn_connector_process w cap d (some a) = some (d2, ev) →
      ev.count invoked.shutdown_ssl ≤ 1 ∧ (c.closed = true → ev = [])) ∧
    (default_handlers c → ∀ w d2 ev, pn_connector_process w cap d (some a) = some (d2, ev) →
      invoked.shutdown_ssl ∈ ev →
      c.closed = false ∧
      (pn_io_handler w.io cap (if c.pending_tick then
        { (pn_connector_tick w.tick cap c 0).2 with pending_tick := false }
        else c)).2.closed = false) ∧
    (c.driver = true → default_handlers c → c.closed = false → drainable c →
      ∀ ws2 : List process_calls, (∀ w ∈ ws2, w.shutdown_completes = false) →
      ∃ d2 ev c2, process_seq cap a ws2 d = some (d2, ev) ∧
        ev.count invoked.shutdown_ssl = ws2.length ∧ d2.connectors a = some c2 ∧
        c2.closed = false ∧ drainable c2) ∧
    (∀ d2 ev, process_seq cap a ws d = some (d2, ev) → ev.count invoked.shutdown_ssl ≤ 1) ∧
    (c.driver = true → default_handlers c → c.closed = false →
      ∃ d2 ev c2, process_seq cap a ws d = some (d2, ev) ∧ d2.connectors a = some c2 ∧
        (ws ≠ [] → (drainable c2 ↔ ev.count invoked.shutdown_ssl = 1)) ∧
        (c2.closed = true ↔ ev.count invoked.shutdown_ssl = 1)) := by
  have hclosed : c.closed = true → ∀ w d2 ev,
      pn_connector_process w cap d (some a) = some (d2, ev) → ev = [] := by
    intro hcl w d2 ev h
    have : pn_connector_process w cap d (some a) = some (d, []) := by
      simp [pn_connector_process, ha, hcl]
    rw [this] at h
    simp only [Option.some.injEq, Prod.mk.injEq] at h
    exact h.2.symm
  refine ⟨?_, ?_, ?_, ?_, ?_⟩
  · intro w d2 ev h
    exact ⟨(pn_connector_process_shutdown_count w cap d d2 a ev h).1,
      fun hcl => hclosed hcl w d2 ev h⟩
  · intro hd w d2 ev h hmem
    cases hcl : c.closed
    · refine ⟨rfl, ?_⟩
      have fr1 := process_tick_frame w.tick cap c
      have fr2 := (pn_io_handler_frame w.io cap _ (frame_handlers fr1 hd)).trans fr1
      exact (frame_driver_closed fr2).2.trans hcl
    · rw [hclosed hcl w d2 ev h] at hmem
      cases hmem
  · intro hdrv hd hcl hdr ws2 hws2
    exact process_seq_drainable cap a ws2 d c ha hdrv hd hcl hdr hws2
  · intro d2 ev h
    exact process_seq_shutdown_count cap a ws d d2 ev hcomp h
  · intro hdrv hd hcl
    obtain ⟨d2, ev, c2, h1, h2, h3, h4⟩ := process_seq_default cap a ws d c ha hdrv hd hcomp
    exact ⟨d2, ev, c2, h1, h2, h3 hcl, h4 hcl⟩

theorem shutdown_ssl_once_when_completing_witness :
    ex_drained_driver.connectors 10 = some ex_drained_connector ∧
    (∀ w ∈ [ex_completing_calls, ex_completing_calls], w.shutdown_completes = true) ∧
    ((∀ w d2 ev, pn_connector_process w 4096 ex_drained_driver (some 10) = some (d2, ev) →
      ev.count invoked.shutdown_ssl ≤ 1 ∧ (ex_drained_connector.closed = true → ev = [])) ∧
    (default_handlers ex_drained_connector → ∀ w d2 ev,
      pn_connector_process w 4096 ex_drained_driver (some 10) = some (d2, ev) →
      invoked.shutdown_ssl ∈ ev →
      ex_drained_connector.closed = false ∧
      (pn_io_handler w.io 4096 (if ex_drained_connector.pending_tick then
        { (pn_connector_tick w.tick 4096 ex_drained_connector 0).2 with pending_tick := false }
        else ex_drained_connector)).2.closed = false) ∧
    (ex_drained_connector.driver = true → default_handlers ex_drained_connector →
      ex_drained_connector.closed = false → drainable ex_drained_connector →
      ∀ ws2 : List process_calls, (∀ w ∈ ws2, w.shutdown_completes = false) →
      ∃ d2 ev c2, process_seq 4096 10 ws2 ex_drained_driver = some (d2, ev) ∧
        ev.count invoked.shutdown_ssl = ws2.length ∧ d2.connectors 10 = some c2 ∧
        c2.closed = false ∧ drainable c2) ∧
    (∀ d2 ev, process_seq 4096 10 [ex_completing_calls, ex_completing_calls] ex_drained_driver =
      some (d2, ev) → ev.count invoked.shutdown_ssl ≤ 1) ∧
    (ex_drained_connector.driver = true → default_handlers ex_drained_connector →
      ex_drained_connector.closed = false →
      ∃ d2 ev c2, process_seq 4096 10 [ex_completing_calls, ex_completing_calls]
          ex_drained_driver = some (d2, ev) ∧ d2.connectors 10 = some c2 ∧
        ([ex_completing_calls, ex_completing_calls] ≠ [] →
          (drainable c2 ↔ ev.count invoked.shutdown_ssl = 1)) ∧
        (c2.closed = true ↔ ev.count invoked.shutdown_ssl = 1))) ∧
    ex_drained_connector.driver = true ∧ default_handlers ex_drained_connector ∧
    ex_drained_connector.closed = false ∧ drainable ex_drained_connector ∧
    (process_seq 4096 10 [ex_completing_calls, ex_completing_calls] ex_drained_driver).map
      (fun r => r.2) = some [invoked.io_handler, invoked.shutdown_ssl] ∧
    (process_seq 4096 10 [ex_process_calls, ex_process_calls, ex_process_calls]
      ex_drained_driver).map (fun r => r.2.count invoked.shutdown_ssl) = some 3 :=
  ⟨rfl, by intro w hw; simp at hw; rw [hw]; rfl,
    shutdown_ssl_once_when_completing 4096 10 [ex_completing_calls, ex_completing_calls]
      ex_drained_driver ex_drained_connector rfl (by intro w hw; simp at hw; rw [hw]; rfl),
    rfl, by decide, rfl, by decide, by decide, by decide⟩

/-- `pn_connector_process` does not read `closed` again after the io_handler: when a custom
io_handler marks the connector closed and returns 0 on a drainable connector,
`pn_connector_shutdown_ssl` is still invoked. -/
theorem shutdown_ssl_after_closing_handler :
    (pn_connector_process ex_closing_handler_calls 4096 ex_custom_driver (some 10)).map
      (fun r => (r.2, (r.1.connectors 10).map (fun c => c.closed))) =
      some ([invoked.io_handler, invoked.shutdown_ssl], some true) := by
  decide

end Proton
